import Mathlib

/-!
# socow_vector: small-object, copy-on-write vector

A shallow embedding of `src/socow-vector.h`.

* Raw storage (the inline `std::array` and the trailing `_data` of a heap block) is
  represented by the list of the elements that are currently constructed in it, slot 0
  first.  Constructing an element is only possible in the first free slot and inside the
  storage; destroying elements is only possible at the end.  Anything else is reported as
  `Res.undefined`.
* The heap is a map from block addresses (`Nat`) to blocks; `operator new` returns the
  address `allocated` and increments it, `operator delete` unmaps the address.
* Element copy construction is counted in `copies`; the call whose index (counted from 0)
  equals `throw_at` throws.
* `size_t` is modelled by `Nat`: a wrap-around of `--_size` or of a pointer difference is
  reported as `Res.undefined`.
-/

namespace Socow

/-- The struct `dynamic_buffer`: reference count, capacity and trailing element storage. -/
structure dynamic_buffer (α : Type) where
  _refs_count : Nat
  _capacity : Nat
  _data : List α
deriving DecidableEq, Repr

/-- The anonymous union of `socow_vector`: either the inline array or a block pointer. -/
inductive payload (α : Type) where
  | small_array (arr : List α)
  | ptr (p : Nat)
deriving DecidableEq, Repr

/-- The fields of `socow_vector<T, SMALL_SIZE>`. -/
structure socow_vector (α : Type) where
  _size : Nat
  _is_small : Bool
  _union : payload α
deriving DecidableEq, Repr

/-- The memory shared by all vectors: the heap blocks, the number of blocks created so far
(the next fresh address), the number of element copy-constructor calls made so far, the
index of the copy-constructor call that throws (if any) and whether `std::swap` on two
elements goes through the copy constructor (an element type without move operations).
The last two are parameters of a run; no operation changes them. -/
structure Mem (α : Type) where
  blocks : Nat → Option (dynamic_buffer α)
  allocated : Nat
  copies : Nat
  throw_at : Option Nat
  swap_copies : Bool

/-- Outcome of a call: normal return with a value and the state, an exception leaving the
call with the state it leaves behind, undefined behaviour, or recursion deeper than the
supplied bound. -/
inductive Res (σ β : Type) where
  | ok (ret : β) (st : σ)
  | throw (st : σ)
  | undefined
  | out_of_fuel
deriving DecidableEq, Repr

/-- State of a call on one vector. -/
abbrev St (α : Type) := socow_vector α × Mem α

/-- State of a call on two vectors (`*this`, `other`). -/
abbrev St2 (α : Type) := socow_vector α × socow_vector α × Mem α

/-! ## Memory primitives -/

/-- Overwrite the block at address `p`. -/
def Mem.set_block {α : Type} (m : Mem α) (p : Nat) (b : Option (dynamic_buffer α)) : Mem α :=
  { m with blocks := fun q => if q = p then b else m.blocks q }

/-- One call of the element copy constructor: `true` when it throws. -/
def Mem.copy_call {α : Type} (m : Mem α) : Bool × Mem α :=
  (decide (m.throw_at = some m.copies), { m with copies := m.copies + 1 })

/-- The function `std::uninitialized_copy` on the source elements `src`: copy-constructs them
in order; when a constructor throws, the elements built so far are destroyed and `none`
is returned. -/
def uninitialized_copy {α : Type} : List α → Mem α → Option (List α) × Mem α
  | [], m => (some [], m)
  | x :: xs, m =>
    if m.copy_call.1 then (none, m.copy_call.2)
    else
      match uninitialized_copy xs m.copy_call.2 with
      | (some ys, m2) => (some (x :: ys), m2)
      | (none, m2) => (none, m2)

/-- The elements in slots `[a, b)` of a storage whose constructed elements are `l`. -/
def slice {α : Type} (l : List α) (a b : Nat) : Option (List α) :=
  if a ≤ b ∧ b ≤ l.length then some ((l.take b).drop a) else none

/-- Constructing the elements `xs` in slots `i, i+1, ...` of a storage with `cap` slots whose
constructed elements are `l`. -/
def place {α : Type} (cap : Nat) (l : List α) (i : Nat) (xs : List α) : Option (List α) :=
  if xs.length = 0 then some l
  else if i = l.length ∧ i + xs.length ≤ cap then some (l ++ xs) else none

/-- The three-argument `delete_vector(data, first, last)`: destroys the slots `[first, last)`. -/
def delete_vector_range {α : Type} (l : List α) (first last : Nat) : Option (List α) :=
  if last ≤ first then some l
  else if last = l.length then some (l.take first) else none

/-- The function `std::swap` on the elements in slots `i` and `j` of one storage: with
`swap_copies` it starts with a copy construction, which may throw (`none`) before anything
is changed. -/
def swap_elems {α : Type} (l : List α) (i j : Nat) (m : Mem α) : Option (Option (List α)) × Mem α :=
  match l[i]?, l[j]? with
  | some x, some y =>
    if m.swap_copies then
      if m.copy_call.1 then (some none, m.copy_call.2)
      else (some (some ((l.set i y).set j x)), m.copy_call.2)
    else (some (some ((l.set i y).set j x)), m)
  | _, _ => (none, m)

/-- The function `std::swap` on slot `i` of storage `l` and slot `i` of storage `k`. -/
def swap_elems2 {α : Type} (l k : List α) (i : Nat) (m : Mem α) :
    Option (Option (List α × List α)) × Mem α :=
  match l[i]?, k[i]? with
  | some x, some y =>
    if m.swap_copies then
      if m.copy_call.1 then (some none, m.copy_call.2)
      else (some (some (l.set i y, k.set i x)), m.copy_call.2)
    else (some (some (l.set i y, k.set i x)), m)
  | _, _ => (none, m)

/-! ## Allocation, reference counting and queries -/

/-- The static `dynamic_buffer::create_ptr`: a fresh block with reference count 1 and no
constructed element; returns its address. -/
def create_ptr {α : Type} (capacity : Nat) (m : Mem α) : Nat × Mem α :=
  (m.allocated,
    { m.set_block m.allocated (some ⟨1, capacity, []⟩) with allocated := m.allocated + 1 })

/-- Reading `_ptr` and following it: the address and the block. `none` when the union holds
the inline array or the block is not mapped. -/
def deref {α : Type} (v : socow_vector α) (m : Mem α) : Option (Nat × dynamic_buffer α) :=
  match v._union with
  | .ptr p => (m.blocks p).map (fun b => (p, b))
  | .small_array _ => none

/-- The default constructor `socow_vector()`. -/
def default_vector {α : Type} : socow_vector α := ⟨0, true, .small_array []⟩

/-- The method `size()`. -/
def size {α : Type} (v : socow_vector α) : Nat := v._size

/-- The method `is_small()`. -/
def is_small {α : Type} (v : socow_vector α) : Bool := v._is_small

/-- The method `refs_count()`; the assertion `!is_small()` fails for an inline vector. -/
def refs_count {α : Type} (v : socow_vector α) (m : Mem α) : Option Nat :=
  if v._is_small then none else (deref v m).map (fun pb => pb.2._refs_count)

/-- The method `is_linked()`. -/
def is_linked {α : Type} (v : socow_vector α) (m : Mem α) : Option Bool :=
  if v._is_small then some false else (refs_count v m).map (fun r => decide (1 < r))

/-- The method `capacity()` for the template argument `SMALL_SIZE`. -/
def capacity {α : Type} (SMALL_SIZE : Nat) (v : socow_vector α) (m : Mem α) : Option Nat :=
  if v._is_small then some SMALL_SIZE else (deref v m).map (fun pb => pb.2._capacity)

/-- The const `data()`: the constructed elements of the active storage. -/
def cdata {α : Type} (v : socow_vector α) (m : Mem α) : Option (List α) :=
  if v._is_small then
    match v._union with
    | .small_array arr => some arr
    | .ptr _ => none
  else (deref v m).map (fun pb => pb.2._data)

/-- The element sequence observed through a vector: `(*this)[0], ..., (*this)[size()-1]`
read through the const accessors. -/
def elems {α : Type} (v : socow_vector α) (m : Mem α) : Option (List α) :=
  (cdata v m).bind (fun l => slice l 0 v._size)

/-- Writing the constructed elements of the active storage back after an in-place change. -/
def set_storage {α : Type} (v : socow_vector α) (m : Mem α) (l : List α) : St α :=
  if v._is_small then ({ v with _union := .small_array l }, m)
  else
    match deref v m with
    | some (p, b) => (v, m.set_block p (some { b with _data := l }))
    | none => (v, m)

/-- The two-argument `release_ptr(ptr, size)`. -/
def release_ptr {α : Type} (p : Nat) (size : Nat) (m : Mem α) : Option (Mem α) :=
  match m.blocks p with
  | none => none
  | some b =>
    if b._refs_count = 0 then none
    else if b._refs_count - 1 = 0 then
      match delete_vector_range b._data 0 size with
      | some _ => some (m.set_block p none)
      | none => none
    else some (m.set_block p (some { b with _refs_count := b._refs_count - 1 }))

/-- The zero-argument `release_ptr()`. -/
def release_ptr0 {α : Type} (v : socow_vector α) (m : Mem α) : Option (Mem α) :=
  match v._union with
  | .ptr p => release_ptr p v._size m
  | .small_array _ => none

/-- The method `add_ptr()`. -/
def add_ptr {α : Type} (v : socow_vector α) (m : Mem α) : Option (Mem α) :=
  match deref v m with
  | some (p, b) => some (m.set_block p (some { b with _refs_count := b._refs_count + 1 }))
  | none => none

/-- The destructor.  In its `else` branch `is_small()` holds, so the `data()` inside
`delete_vector()` is the inline array (see `destroy_eq`). -/
def destroy {α : Type} (v : socow_vector α) (m : Mem α) : Option (Mem α) :=
  if !v._is_small then release_ptr0 v m
  else
    match v._union with
    | .small_array arr => (delete_vector_range arr 0 v._size).map (fun _ => m)
    | .ptr _ => none

/-- The constructor `socow_vector(const T* data, size, capacity)`; `src` holds the constructed
elements at `data`.  Returns the new vector, or throws after `operator delete`. -/
def construct {α : Type} (src : Option (List α)) (size capacity : Nat) (m : Mem α) :
    Res (Mem α) (socow_vector α) :=
  match src.bind (fun l => slice l 0 size) with
  | none => .undefined
  | some xs =>
    if capacity < size then .undefined
    else
      match uninitialized_copy xs (create_ptr capacity m).2 with
      | (some ys, m2) =>
        .ok ⟨size, false, .ptr (create_ptr capacity m).1⟩
          (m2.set_block (create_ptr capacity m).1 (some ⟨1, capacity, ys⟩))
      | (none, m2) => .throw (m2.set_block (create_ptr capacity m).1 none)

/-- The last branch of `operator=` (taken when `other` is in Heap mode) followed by the two
assignments that end `operator=`. -/
def assign_last {α : Type} (this other : socow_vector α) (m : Mem α) : Option (St α) :=
  match destroy this m with
  | none => none
  | some m1 =>
    match other._union with
    | .small_array _ => none
    | .ptr p =>
      match add_ptr { this with _union := .ptr p } m1 with
      | none => none
      | some m2 => some (⟨other._size, other._is_small, .ptr p⟩, m2)

/-- The method `set_capacity(capacity_)`: `*this = socow_vector(data, size(), capacity_)`.  The
temporary is in Heap mode, so the assignment takes the last branch of `operator=` (see
`set_capacity_eq`); the temporary is destroyed afterwards. -/
def set_capacity {α : Type} (capacity_ : Nat) (v : socow_vector α) (m : Mem α) :
    Res (St α) Unit :=
  match construct (cdata v m) v._size capacity_ m with
  | .ok tmp m1 =>
    match assign_last v tmp m1 with
    | none => .undefined
    | some (v2, m2) =>
      match destroy tmp m2 with
      | none => .undefined
      | some m3 => .ok () (v2, m3)
  | .throw m1 => .throw (v, m1)
  | .undefined => .undefined
  | .out_of_fuel => .out_of_fuel

/-- The method `unshare()`. -/
def unshare {α : Type} (SMALL_SIZE : Nat) (v : socow_vector α) (m : Mem α) : Res (St α) Unit :=
  match is_linked v m with
  | none => .undefined
  | some true =>
    match capacity SMALL_SIZE v m with
    | none => .undefined
    | some c => set_capacity c v m
  | some false => .ok () (v, m)

/-- The mutable `data()`. -/
def data {α : Type} (SMALL_SIZE : Nat) (v : socow_vector α) (m : Mem α) : Res (St α) Unit :=
  if v._is_small then .ok () (v, m) else unshare SMALL_SIZE v m

/-- The zero-argument `delete_vector()`: `delete_vector(data(), size())` with the mutable
`data()`.  The method is `noexcept`, so an exception inside it ends the program. -/
def delete_vector0 {α : Type} (SMALL_SIZE : Nat) (v : socow_vector α) (m : Mem α) :
    Option (St α) :=
  match data SMALL_SIZE v m with
  | .ok _ (v1, m1) =>
    match (cdata v1 m1).bind (fun l => delete_vector_range l 0 v1._size) with
    | some l => some (set_storage v1 m1 l)
    | none => none
  | _ => none

/-! ## Transitions between the two storage modes -/

/-- The method `copy_to_small(src, size)`; `src` holds the constructed elements at the
source pointer.  When the copy throws, `_ptr` is restored. -/
def copy_to_small {α : Type} (SMALL_SIZE : Nat) (src : Option (List α)) (size : Nat)
    (v : socow_vector α) (m : Mem α) : Res (St α) Unit :=
  if SMALL_SIZE < size then .undefined
  else if v._is_small then .ok () (v, m)
  else
    match v._union with
    | .small_array _ => .undefined
    | .ptr _ =>
      match src.bind (fun l => slice l 0 size) with
      | none => .undefined
      | some xs =>
        match uninitialized_copy xs m with
        | (some ys, m1) => .ok () ({ v with _union := .small_array ys, _is_small := true }, m1)
        | (none, m1) => .throw (v, m1)

/-- The method `to_small()`. -/
def to_small {α : Type} (SMALL_SIZE : Nat) (v : socow_vector α) (m : Mem α) : Res (St α) Unit :=
  match deref v m with
  | none => .undefined
  | some (p, b) =>
    match copy_to_small SMALL_SIZE (some b._data) v._size v m with
    | .ok _ (v1, m1) =>
      match release_ptr p v1._size m1 with
      | some m2 => .ok () (v1, m2)
      | none => .undefined
    | r => r

/-- The loop `for i in [i, i+n): std::swap(a[i], b[i])` over two storages.  The Boolean
tells whether a swap threw; the storages are those at that moment. -/
def swap_loop {α : Type} : Nat → Nat → List α → List α → Mem α →
    Option (Bool × List α × List α) × Mem α
  | _, 0, l, k, m => (some (false, l, k), m)
  | i, n + 1, l, k, m =>
    match swap_elems2 l k i m with
    | (some (some (l2, k2)), m2) => swap_loop (i + 1) n l2 k2 m2
    | (some none, m2) => (some (true, l, k), m2)
    | (none, m2) => (none, m2)

/-- The method `swap_arrays(other)`.  The mutable `begin()`, `end()` and `operator[]` go
through `data()`, which does nothing after its first call on a vector. -/
def swap_arrays {α : Type} (SMALL_SIZE : Nat) (this other : socow_vector α) (m : Mem α) :
    Res (St2 α) Unit :=
  match data SMALL_SIZE other m with
  | .ok _ (o1, m1) =>
    match data SMALL_SIZE this m1 with
    | .ok _ (t1, m2) =>
      match cdata t1 m2, cdata o1 m2, capacity SMALL_SIZE t1 m2 with
      | some l, some k, some c =>
        match slice k t1._size o1._size with
        | none => .undefined
        | some tail =>
          match uninitialized_copy tail m2 with
          | (none, m3) => .throw (t1, o1, m3)
          | (some ys, m3) =>
            match place c l t1._size ys with
            | none => .undefined
            | some l1 =>
              match swap_loop 0 t1._size l1 k m3 with
              | (none, _) => .undefined
              | (some (true, l2, k2), m4) =>
                match delete_vector_range l2 t1._size o1._size with
                | none => .undefined
                | some l3 =>
                  .throw ((set_storage t1 (set_storage o1 m4 k2).2 l3).1,
                    (set_storage o1 m4 k2).1, (set_storage t1 (set_storage o1 m4 k2).2 l3).2)
              | (some (false, l2, k2), m4) =>
                match delete_vector_range k2 t1._size o1._size with
                | none => .undefined
                | some k3 =>
                  .ok () ((set_storage t1 (set_storage o1 m4 k3).2 l2).1,
                    (set_storage o1 m4 k3).1, (set_storage t1 (set_storage o1 m4 k3).2 l2).2)
      | _, _, _ => .undefined
    | .throw (t1, m2) => .throw (t1, o1, m2)
    | .undefined => .undefined
    | .out_of_fuel => .out_of_fuel
  | .throw (o1, m1) => .throw (this, o1, m1)
  | .undefined => .undefined
  | .out_of_fuel => .out_of_fuel

/-- The statements `std::swap(_size, other._size); std::swap(_is_small, other._is_small);`. -/
def swap_fields {α : Type} (this other : socow_vector α) : socow_vector α × socow_vector α :=
  ({ this with _size := other._size, _is_small := other._is_small },
   { other with _size := this._size, _is_small := this._is_small })

/-- The body of `swap(other)` for two distinct vectors, with the mirrored call
`other.swap(*this)` of its last branch passed as `self`. -/
def swap_body {α : Type} (self : socow_vector α → socow_vector α → Mem α → Res (St2 α) Unit)
    (SMALL_SIZE : Nat) (this other : socow_vector α) (m : Mem α) : Res (St2 α) Unit :=
  if this._is_small && other._is_small then
    if this._size < other._size then
      match swap_arrays SMALL_SIZE this other m with
      | .ok _ (t, o, m1) => .ok () ((swap_fields t o).1, (swap_fields t o).2, m1)
      | r => r
    else
      match swap_arrays SMALL_SIZE other this m with
      | .ok _ (o, t, m1) => .ok () ((swap_fields t o).1, (swap_fields t o).2, m1)
      | .throw (o, t, m1) => .throw (t, o, m1)
      | .undefined => .undefined
      | .out_of_fuel => .out_of_fuel
  else if !this._is_small && !other._is_small then
    match this._union, other._union with
    | .ptr p, .ptr q =>
      .ok () ((swap_fields { this with _union := .ptr q } { other with _union := .ptr p }).1,
        (swap_fields { this with _union := .ptr q } { other with _union := .ptr p }).2, m)
    | _, _ => .undefined
  else if this._is_small && !other._is_small then
    match other._union, this._union with
    | .ptr other_ptr, .small_array arr =>
      match copy_to_small SMALL_SIZE (some arr) this._size other m with
      | .ok _ (o1, m1) =>
        match delete_vector0 SMALL_SIZE this m1 with
        | none => .undefined
        | some (t1, m2) =>
          .ok () ((swap_fields { t1 with _union := .ptr other_ptr } { o1 with _is_small := false }).1,
            (swap_fields { t1 with _union := .ptr other_ptr } { o1 with _is_small := false }).2, m2)
      | .throw (o1, m1) => .throw (this, o1, m1)
      | .undefined => .undefined
      | .out_of_fuel => .out_of_fuel
    | _, _ => .undefined
  else
    match self other this m with
    | .ok _ (o, t, m1) =>
      .ok () ((swap_fields (swap_fields t o).1 (swap_fields t o).2).1,
        (swap_fields (swap_fields t o).1 (swap_fields t o).2).2, m1)
    | .throw (o, t, m1) => .throw (t, o, m1)
    | .undefined => .undefined
    | .out_of_fuel => .out_of_fuel

/-- The method `swap(other)` for two distinct vectors (`&other == this` is decided where the
vectors have an identity, see `World.step`).  The mirrored call of the last branch has an
inline `*this` and a Heap `other`, so it takes the third branch and does not recurse again. -/
def swap {α : Type} (SMALL_SIZE : Nat) (this other : socow_vector α) (m : Mem α) :
    Res (St2 α) Unit :=
  swap_body (swap_body (fun _ _ _ => .out_of_fuel) SMALL_SIZE) SMALL_SIZE this other m

/-! ## Copy construction and copy assignment -/

/-- The first branch of `operator=` (`is_small() && other.is_small() && other.size() >= size()`)
followed by the two assignments that end `operator=`.  Here `*this` and the scratch vector
`arr` are inline, so their mutable accessors reach the inline array directly. -/
def assign_first {α : Type} (SMALL_SIZE : Nat) (this other : socow_vector α) (m : Mem α) :
    Res (St α) Unit :=
  match cdata this m, cdata other m with
  | some l, some k =>
    match slice k this._size other._size with
    | none => .undefined
    | some tail =>
      match uninitialized_copy tail m with
      | (none, m1) => .throw (this, m1)
      | (some ys, m1) =>
        match place SMALL_SIZE l this._size ys, slice k 0 this._size with
        | some l1, some head =>
          match uninitialized_copy head m1 with
          | (none, m2) =>
            match delete_vector_range l1 this._size other._size with
            | none => .undefined
            | some l2 => .throw ({ this with _union := .small_array l2 }, m2)
          | (some arr, m2) =>
            match place SMALL_SIZE [] 0 arr with
            | none => .undefined
            | some arr1 =>
              match swap_loop 0 this._size l1 arr1 m2 with
              | (none, _) => .undefined
              | (some (true, l2, _), m3) =>
                match delete_vector_range l2 this._size other._size with
                | none => .undefined
                | some l3 => .throw ({ this with _union := .small_array l3 }, m3)
              | (some (false, l2, _), m3) =>
                .ok () (⟨other._size, other._is_small, .small_array l2⟩, m3)
        | _, _ => .undefined
  | _, _ => .undefined

/-- The copy-assignment `operator=` for two distinct vectors (`&other == this` is decided
where the vectors have an identity, see `World.step`).  In the second branch `other` is
inline, so the copy constructor of `tmp` runs the first branch on an empty inline vector
(see `copy_construct_small`). -/
def assign {α : Type} (SMALL_SIZE : Nat) (this other : socow_vector α) (m : Mem α) :
    Res (St α) Unit :=
  if this._is_small && other._is_small && decide (this._size ≤ other._size) then
    assign_first SMALL_SIZE this other m
  else if this._is_small && other._is_small then
    match assign_first SMALL_SIZE default_vector other m with
    | .ok _ (tmp, m1) =>
      match swap SMALL_SIZE tmp this m1 with
      | .ok _ (tmp1, t1, m2) =>
        match destroy tmp1 m2 with
        | none => .undefined
        | some m3 => .ok () ({ t1 with _size := other._size, _is_small := other._is_small }, m3)
      | .throw (tmp1, t1, m2) =>
        match destroy tmp1 m2 with
        | none => .undefined
        | some m3 => .throw (t1, m3)
      | .undefined => .undefined
      | .out_of_fuel => .out_of_fuel
    | .throw (_, m1) => .throw (this, m1)
    | .undefined => .undefined
    | .out_of_fuel => .out_of_fuel
  else if !this._is_small && other._is_small then
    match this._union with
    | .small_array _ => .undefined
    | .ptr this_ptr =>
      match copy_to_small SMALL_SIZE (cdata other m) other._size this m with
      | .ok _ (t1, m1) =>
        match release_ptr this_ptr t1._size m1 with
        | none => .undefined
        | some m2 => .ok () ({ t1 with _size := other._size, _is_small := other._is_small }, m2)
      | r => r
  else
    match assign_last this other m with
    | some st => .ok () st
    | none => .undefined

/-- The copy constructor: `_size = 0; _is_small = true; *this = other`. -/
def copy_construct {α : Type} (SMALL_SIZE : Nat) (other : socow_vector α) (m : Mem α) :
    Res (Mem α) (socow_vector α) :=
  match assign SMALL_SIZE default_vector other m with
  | .ok _ (v, m1) => .ok v m1
  | .throw (_, m1) => .throw m1
  | .undefined => .undefined
  | .out_of_fuel => .out_of_fuel

/-! ## Capacity management -/

/-- The method `clear()`.  In its `else` branch the flag flips to inline while the union
still holds the released pointer; the inline array then has no constructed element. -/
def clear {α : Type} (SMALL_SIZE : Nat) (v : socow_vector α) (m : Mem α) : Res (St α) Unit :=
  match (if v._is_small then some true else (refs_count v m).map (fun r => decide (r = 1))) with
  | none => .undefined
  | some true =>
    match delete_vector0 SMALL_SIZE v m with
    | some (v1, m1) => .ok () ({ v1 with _size := 0 }, m1)
    | none => .undefined
  | some false =>
    match release_ptr0 v m with
    | some m1 => .ok () (⟨0, true, .small_array []⟩, m1)
    | none => .undefined

/-- The method `reserve(n)`. -/
def reserve {α : Type} (SMALL_SIZE : Nat) (n : Nat) (v : socow_vector α) (m : Mem α) :
    Res (St α) Unit :=
  if decide (n < v._size) || (v._is_small && decide (n ≤ SMALL_SIZE)) then .ok () (v, m)
  else if !v._is_small && decide (n ≤ SMALL_SIZE) then to_small SMALL_SIZE v m
  else
    match capacity SMALL_SIZE v m with
    | none => .undefined
    | some c =>
      if c < n then set_capacity n v m
      else
        match refs_count v m with
        | none => .undefined
        | some r => if 1 < r then set_capacity n v m else .ok () (v, m)

/-- The method `shrink_to_fit()`. -/
def shrink_to_fit {α : Type} (SMALL_SIZE : Nat) (v : socow_vector α) (m : Mem α) :
    Res (St α) Unit :=
  if v._is_small then .ok () (v, m)
  else if v._size ≤ SMALL_SIZE then to_small SMALL_SIZE v m
  else
    match refs_count v m, capacity SMALL_SIZE v m with
    | some r, some c =>
      if 1 < r ∨ v._size ≠ c then set_capacity v._size v m else .ok () (v, m)
    | _, _ => .undefined

/-! ## Sequence mutation

`insert` and `push_back` call each other, and so do `erase` and `pop_back`.  `insert` and
`erase` take a bound on the depth of these calls; `push_back` and `pop_back` are written
over the `insert` / `erase` they call. -/

/-- Forget the returned iterator. -/
def drop_ret {σ β : Type} (r : Res σ β) : Res σ Unit :=
  match r with
  | .ok _ st => .ok () st
  | .throw st => .throw st
  | .undefined => .undefined
  | .out_of_fuel => .out_of_fuel

/-- After an exception, the destructor of the local `new_vec` runs and the exception leaves
the call with `*this` as it is. -/
def unwind {α β : Type} (this new_vec : socow_vector α) (m : Mem α) : Res (St α) β :=
  match destroy new_vec m with
  | some m1 => .throw (this, m1)
  | none => .undefined

/-- The body of `push_back(val)` over the `insert(pos, val)` it calls. -/
def push_back_body {α : Type}
    (insert : Nat → α → socow_vector α → Mem α → Res (St α) Nat)
    (SMALL_SIZE : Nat) (val : α) (v : socow_vector α) (m : Mem α) : Res (St α) Unit :=
  match capacity SMALL_SIZE v m, is_linked v m with
  | some c, some lk =>
    if decide (v._size = c) || lk then drop_ret (insert v._size val v m)
    else
      match data SMALL_SIZE v m with
      | .ok _ (v1, m1) =>
        if m1.copy_call.1 then .throw (v1, m1.copy_call.2)
        else
          match capacity SMALL_SIZE v1 m1, cdata v1 m1 with
          | some c1, some l =>
            match place c1 l v1._size [val] with
            | none => .undefined
            | some l1 =>
              .ok () ({ (set_storage v1 m1.copy_call.2 l1).1 with _size := v1._size + 1 },
                (set_storage v1 m1.copy_call.2 l1).2)
          | _, _ => .undefined
      | r => r
  | _, _ => .undefined

/-- The loop `for i in [i, i+n): new_vec.push_back(std::as_const(*this)[i])` of `insert`. -/
def insert_copy_loop {α : Type} (push_back : α → socow_vector α → Mem α → Res (St α) Unit)
    (this : socow_vector α) : Nat → Nat → socow_vector α → Mem α → Res (St α) Unit
  | _, 0, new_vec, m => .ok () (new_vec, m)
  | i, n + 1, new_vec, m =>
    match (cdata this m).bind (fun l => l[i]?) with
    | none => .undefined
    | some x =>
      match push_back x new_vec m with
      | .ok _ (nv1, m1) => insert_copy_loop push_back this (i + 1) n nv1 m1
      | r => r

/-- The loop `for (i = end() - 1; i != it; --i) std::iter_swap(i, i - 1)` of `insert`, on the
storage of `*this`; the first argument is the slot `i`. -/
def shift_loop {α : Type} (it : Nat) : Nat → List α → Mem α → Option (Bool × List α) × Mem α
  | 0, l, m => if 0 = it then (some (false, l), m) else (none, m)
  | j + 1, l, m =>
    if j + 1 = it then (some (false, l), m)
    else
      match swap_elems l (j + 1) j m with
      | (some (some l2), m2) => shift_loop it j l2 m2
      | (some none, m2) => (some (true, l), m2)
      | (none, m2) => (none, m2)

/-- The method `insert(pos, value)` with `pos = begin() + position`; returns the index the
returned iterator points at. -/
def insert {α : Type} (SMALL_SIZE : Nat) :
    Nat → Nat → α → socow_vector α → Mem α → Res (St α) Nat
  | 0, _, _, _, _ => .out_of_fuel
  | fuel + 1, position, value, v, m =>
    match capacity SMALL_SIZE v m, is_linked v m with
    | some c, some lk =>
      if decide (v._size = c) || lk then
        match construct (cdata v m) position (if v._size = c then c * 2 else c) m with
        | .ok new_vec m1 =>
          match push_back_body (insert SMALL_SIZE fuel) SMALL_SIZE value new_vec m1 with
          | .ok _ (nv1, m2) =>
            match insert_copy_loop (push_back_body (insert SMALL_SIZE fuel) SMALL_SIZE) v
                position (v._size - position) nv1 m2 with
            | .ok _ (nv2, m3) =>
              match (if v._is_small then clear SMALL_SIZE v m3 else .ok () (v, m3)) with
              | .ok _ (v1, m4) =>
                match swap SMALL_SIZE v1 nv2 m4 with
                | .ok _ (v2, nv3, m5) =>
                  match data SMALL_SIZE v2 m5 with
                  | .ok _ (v3, m6) =>
                    match destroy nv3 m6 with
                    | some m7 => .ok position (v3, m7)
                    | none => .undefined
                  | .throw (v3, m6) => unwind v3 nv3 m6
                  | .undefined => .undefined
                  | .out_of_fuel => .out_of_fuel
                | .throw (v2, nv3, m5) => unwind v2 nv3 m5
                | .undefined => .undefined
                | .out_of_fuel => .out_of_fuel
              | .throw (v1, m4) => unwind v1 nv2 m4
              | .undefined => .undefined
              | .out_of_fuel => .out_of_fuel
            | .throw (nv2, m3) => unwind v nv2 m3
            | .undefined => .undefined
            | .out_of_fuel => .out_of_fuel
          | .throw (nv1, m2) => unwind v nv1 m2
          | .undefined => .undefined
          | .out_of_fuel => .out_of_fuel
        | .throw m1 => .throw (v, m1)
        | .undefined => .undefined
        | .out_of_fuel => .out_of_fuel
      else
        match push_back_body (insert SMALL_SIZE fuel) SMALL_SIZE value v m with
        | .ok _ (v1, m1) =>
          match data SMALL_SIZE v1 m1 with
          | .ok _ (v2, m2) =>
            match cdata v2 m2 with
            | none => .undefined
            | some l =>
              if v2._size = 0 then .undefined
              else
                match shift_loop position (v2._size - 1) l m2 with
                | (none, _) => .undefined
                | (some (true, l1), m3) => .throw (set_storage v2 m3 l1)
                | (some (false, l1), m3) => .ok position (set_storage v2 m3 l1)
          | .throw st => .throw st
          | .undefined => .undefined
          | .out_of_fuel => .out_of_fuel
        | .throw st => .throw st
        | .undefined => .undefined
        | .out_of_fuel => .out_of_fuel
    | _, _ => .undefined

/-- The method `push_back(val)`. -/
def push_back {α : Type} (SMALL_SIZE fuel : Nat) (val : α) (v : socow_vector α) (m : Mem α) :
    Res (St α) Unit :=
  push_back_body (insert SMALL_SIZE fuel) SMALL_SIZE val v m

/-- The body of the public `pop_back()` over the `erase(first, last)` it calls. -/
def pop_back_body {α : Type}
    (erase : Nat → Nat → socow_vector α → Mem α → Res (St α) Nat)
    (SMALL_SIZE : Nat) (v : socow_vector α) (m : Mem α) : Res (St α) Unit :=
  match is_linked v m with
  | none => .undefined
  | some true =>
    if v._size = 0 then .undefined else drop_ret (erase (v._size - 1) v._size v m)
  | some false =>
    match data SMALL_SIZE v m with
    | .ok _ (v1, m1) =>
      if v1._size = 0 then .undefined
      else
        match (cdata v1 m1).bind (fun l => delete_vector_range l (v1._size - 1) v1._size) with
        | none => .undefined
        | some l1 =>
          .ok () ({ (set_storage v1 m1 l1).1 with _size := v1._size - 1 },
            (set_storage v1 m1 l1).2)
    | r => r

/-- The private `pop_back(k)`: `k` calls of `pop_back()`. -/
def pop_back_k {α : Type} (pop_back : socow_vector α → Mem α → Res (St α) Unit) :
    Nat → socow_vector α → Mem α → Res (St α) Unit
  | 0, v, m => .ok () (v, m)
  | k + 1, v, m =>
    match pop_back v m with
    | .ok _ (v1, m1) => pop_back_k pop_back k v1 m1
    | r => r

/-- The loop `while (it_r != end()) std::iter_swap(it_r++, it_l++)` of `erase`, on the storage
of `*this`: slots `r` and `lft`, `n` steps to go. -/
def erase_loop {α : Type} : Nat → Nat → Nat → List α → Mem α → Option (Bool × List α) × Mem α
  | _, _, 0, l, m => (some (false, l), m)
  | r, lft, n + 1, l, m =>
    match swap_elems l r lft m with
    | (some (some l2), m2) => erase_loop (r + 1) (lft + 1) n l2 m2
    | (some none, m2) => (some (true, l), m2)
    | (none, m2) => (none, m2)

/-- The method `erase(first, last)` with `first = begin() + first_pos` and
`last = begin() + last_pos`; returns the index the returned iterator points at. -/
def erase {α : Type} (SMALL_SIZE : Nat) :
    Nat → Nat → Nat → socow_vector α → Mem α → Res (St α) Nat
  | 0, _, _, _, _ => .out_of_fuel
  | fuel + 1, first_pos, last_pos, v, m =>
    if first_pos = last_pos then
      match data SMALL_SIZE v m with
      | .ok _ st => .ok first_pos st
      | .throw st => .throw st
      | .undefined => .undefined
      | .out_of_fuel => .out_of_fuel
    else
      match is_linked v m, capacity SMALL_SIZE v m with
      | some true, some c =>
        match construct (cdata v m) first_pos c m with
        | .ok new_vec m1 =>
          match data SMALL_SIZE new_vec m1 with
          | .ok _ (nv1, m2) =>
            match (cdata v m2).bind (fun l => slice l last_pos v._size), cdata nv1 m2,
                capacity SMALL_SIZE nv1 m2 with
            | some tail, some d, some nc =>
              match uninitialized_copy tail m2 with
              | (none, m3) => unwind v nv1 m3
              | (some ys, m3) =>
                match place nc d first_pos ys with
                | none => .undefined
                | some d1 =>
                  match swap SMALL_SIZE v
                      { (set_storage nv1 m3 d1).1 with _size := nv1._size + (v._size - last_pos) }
                      (set_storage nv1 m3 d1).2 with
                  | .ok _ (v1, nv3, m5) =>
                    match data SMALL_SIZE v1 m5 with
                    | .ok _ (v2, m6) =>
                      match destroy nv3 m6 with
                      | some m7 => .ok first_pos (v2, m7)
                      | none => .undefined
                    | .throw (v2, m6) => unwind v2 nv3 m6
                    | .undefined => .undefined
                    | .out_of_fuel => .out_of_fuel
                  | .throw (v1, nv3, m5) => unwind v1 nv3 m5
                  | .undefined => .undefined
                  | .out_of_fuel => .out_of_fuel
            | _, _, _ => .undefined
          | .throw (nv1, m2) => unwind v nv1 m2
          | .undefined => .undefined
          | .out_of_fuel => .out_of_fuel
        | .throw m1 => .throw (v, m1)
        | .undefined => .undefined
        | .out_of_fuel => .out_of_fuel
      | some false, some _ =>
        match data SMALL_SIZE v m with
        | .ok _ (v1, m1) =>
          match cdata v1 m1 with
          | none => .undefined
          | some l =>
            if v1._size < last_pos ∨ last_pos < first_pos then .undefined
            else
              match erase_loop last_pos first_pos (v1._size - last_pos) l m1 with
              | (none, _) => .undefined
              | (some (true, l1), m2) => .throw (set_storage v1 m2 l1)
              | (some (false, l1), m2) =>
                match pop_back_k (pop_back_body (erase SMALL_SIZE fuel) SMALL_SIZE)
                    (last_pos - first_pos) (set_storage v1 m2 l1).1 (set_storage v1 m2 l1).2 with
                | .ok _ (v2, m3) =>
                  match data SMALL_SIZE v2 m3 with
                  | .ok _ st => .ok first_pos st
                  | .throw st => .throw st
                  | .undefined => .undefined
                  | .out_of_fuel => .out_of_fuel
                | .throw st => .throw st
                | .undefined => .undefined
                | .out_of_fuel => .out_of_fuel
        | .throw st => .throw st
        | .undefined => .undefined
        | .out_of_fuel => .out_of_fuel
      | _, _ => .undefined

/-- The public `pop_back()`. -/
def pop_back {α : Type} (SMALL_SIZE fuel : Nat) (v : socow_vector α) (m : Mem α) :
    Res (St α) Unit :=
  pop_back_body (erase SMALL_SIZE fuel) SMALL_SIZE v m

/-- The one-argument `erase(pos)`: `erase(pos, pos + 1)`. -/
def erase_one {α : Type} (SMALL_SIZE fuel pos : Nat) (v : socow_vector α) (m : Mem α) :
    Res (St α) Nat :=
  erase SMALL_SIZE fuel pos (pos + 1) v m

/-- A write `(*this)[ind] = x` through the mutable `operator[]`: `data()`, then an element
assignment in slot `ind`. -/
def write_at {α : Type} (SMALL_SIZE : Nat) (ind : Nat) (x : α) (v : socow_vector α) (m : Mem α) :
    Res (St α) Unit :=
  match data SMALL_SIZE v m with
  | .ok _ (v1, m1) =>
    match cdata v1 m1 with
    | some l => if ind < l.length then .ok () (set_storage v1 m1 (l.set ind x)) else .undefined
    | none => .undefined
  | r => r

/-! ## Specification vocabulary -/

/-- Memory after `a` more allocations and `k` more copy-constructor calls. -/
def Mem.bump {α : Type} (m : Mem α) (a k : Nat) : Mem α :=
  { m with allocated := m.allocated + a, copies := m.copies + k }

/-- What one `release_ptr` leaves at the address of block `b`. -/
def released {α : Type} (b : dynamic_buffer α) : Option (dynamic_buffer α) :=
  if b._refs_count = 1 then none else some { b with _refs_count := b._refs_count - 1 }

/-- The canonical inline vector holding `arr`. -/
def inline_vec {α : Type} (arr : List α) : socow_vector α := ⟨arr.length, true, .small_array arr⟩

/-- The canonical Heap vector of `n` elements on the block at `p`. -/
def heap_vec {α : Type} (n p : Nat) : socow_vector α := ⟨n, false, .ptr p⟩

/-- The allocator invariant: no block is mapped at or above the next fresh address. -/
def mwf {α : Type} (m : Mem α) : Prop := ∀ q, m.allocated ≤ q → m.blocks q = none

/-- Well-formedness of a vector in a memory: the flag matches the union; an inline vector
has `size()` constructed elements and `size() <= SMALL_SIZE`; a Heap vector points at a
mapped block with `size()` constructed elements, `size() <= capacity` and a positive
reference count. -/
def vwf {α : Type} (SMALL_SIZE : Nat) (v : socow_vector α) (m : Mem α) : Prop :=
  match v._is_small, v._union with
  | true, .small_array arr => arr.length = v._size ∧ v._size ≤ SMALL_SIZE
  | false, .ptr p =>
    match m.blocks p with
    | some b => b._data.length = v._size ∧ v._size ≤ b._capacity ∧ 1 ≤ b._refs_count
        ∧ p < m.allocated
    | none => False
  | _, _ => False

/-- The list `l` with `x` inserted before index `p`. -/
def list_insert {α : Type} (l : List α) (p : Nat) (x : α) : List α := l.take p ++ x :: l.drop p

/-- The list `l` without the elements at indices `[f, t)`. -/
def list_erase {α : Type} (l : List α) (f t : Nat) : List α := l.take f ++ l.drop t

/-- Memory after the allocation of block `b`, filled with `k` copy-constructor calls. -/
def Mem.fresh {α : Type} (m : Mem α) (b : dynamic_buffer α) (k : Nat) : Mem α :=
  (m.set_block m.allocated (some b)).bump 1 k

/-- Memory after one `release_ptr` on the block at `p`. -/
def Mem.release {α : Type} (m : Mem α) (p : Nat) : Mem α :=
  m.set_block p ((m.blocks p).bind released)

/-- Number of copy-constructor calls made by `n` element swaps. -/
def swap_cost {α : Type} (m : Mem α) (n : Nat) : Nat := if m.swap_copies then n else 0

/-- Memory after one `add_ptr` on the block at `q`. -/
def Mem.share {α : Type} (m : Mem α) (q : Nat) : Mem α :=
  m.set_block q ((m.blocks q).map (fun b => { b with _refs_count := b._refs_count + 1 }))

/-- What a caller can observe of a vector through `size()`, `is_small()`, `capacity()` and
the const element accessors. -/
def observe {α : Type} (SMALL_SIZE : Nat) (v : socow_vector α) (m : Mem α) :
    Nat × Bool × Option Nat × Option (List α) :=
  (size v, is_small v, capacity SMALL_SIZE v m, elems v m)

/-- Two distinct vectors are counted separately: when both are in Heap mode on the same
block, its reference count is at least 2. -/
def counted_apart {α : Type} (a b : socow_vector α) (m : Mem α) : Prop :=
  a._is_small = false → b._is_small = false → a._union = b._union →
    ∀ p blk, a._union = .ptr p → m.blocks p = some blk → 2 ≤ blk._refs_count

/-- The block a vector references: `some p` for a Heap vector whose `_ptr` is `p`. -/
def block_of {α : Type} (v : socow_vector α) : Option Nat :=
  if v._is_small then none
  else
    match v._union with
    | .ptr p => some p
    | .small_array _ => none

/-- A sample memory: one block at address 0 with reference count `r`, capacity 8 and
elements 1, 2, 3, 4, 5. -/
def sample_mem (r : Nat) : Mem Nat :=
  ⟨fun q => if q = 0 then some ⟨r, 8, [1, 2, 3, 4, 5]⟩ else none, 1, 0, none, false⟩

/-- A sample memory with two blocks: address 0 as in `sample_mem 1` and address 1 with
reference count 1, capacity 6 and elements 7, 8, 9. -/
def sample_mem2 : Mem Nat :=
  ⟨fun q => if q = 0 then some ⟨1, 8, [1, 2, 3, 4, 5]⟩
    else if q = 1 then some ⟨1, 6, [7, 8, 9]⟩ else none, 2, 0, none, false⟩

/-- A sample memory: one block at address 0 with reference count `r`, capacity 4 and
elements 1, 2, 3, 4. -/
def sample_mem4 (r : Nat) : Mem Nat :=
  ⟨fun q => if q = 0 then some ⟨r, 4, [1, 2, 3, 4]⟩ else none, 1, 0, none, false⟩

/-- The empty memory: no block, no copy made, no fault injected, element swaps by move. -/
def empty_mem : Mem Nat := ⟨fun _ => none, 0, 0, none, false⟩

/-- The mutating operations of claim C1. -/
inductive MutOp (α : Type) where
  | push_back (x : α)
  | pop_back
  | insert (p : Nat) (x : α)
  | erase (f t : Nat)
  | clear
  | write (i : Nat) (x : α)

/-- Running a mutating operation (returned iterators are dropped). -/
def MutOp.run {α : Type} (SMALL_SIZE fuel : Nat) (op : MutOp α) (v : socow_vector α)
    (m : Mem α) : Res (St α) Unit :=
  match op with
  | .push_back x => Socow.push_back SMALL_SIZE fuel x v m
  | .pop_back => Socow.pop_back SMALL_SIZE fuel v m
  | .insert p x => drop_ret (Socow.insert SMALL_SIZE fuel p x v m)
  | .erase f t => drop_ret (Socow.erase SMALL_SIZE fuel f t v m)
  | .clear => Socow.clear SMALL_SIZE v m
  | .write i x => write_at SMALL_SIZE i x v m

/-- The precondition of a mutating operation on a vector of `n` elements. -/
def MutOp.pre {α : Type} (n : Nat) : MutOp α → Prop
  | .push_back _ => True
  | .pop_back => 1 ≤ n
  | .insert p _ => p ≤ n
  | .erase f t => f < t ∧ t ≤ n
  | .clear => True
  | .write i _ => i < n

/-- The effect of a mutating operation on the element sequence. -/
def MutOp.spec {α : Type} : MutOp α → List α → List α
  | .push_back x, l => l ++ [x]
  | .pop_back, l => l.take (l.length - 1)
  | .insert p x, l => list_insert l p x
  | .erase f t, l => list_erase l f t
  | .clear, _ => []
  | .write i x, l => l.set i x

/-! ## Programs over several vectors -/

/-- The live vectors of a program, addressed by their index, and the memory they share. -/
structure World (α : Type) where
  vecs : List (socow_vector α)
  mem : Mem α

/-- The public operations; `i` and `j` index the vectors they are called on. -/
inductive Op (α : Type) where
  | default_construct
  | raw_construct (src : List α) (size capacity : Nat)
  | copy_construct (j : Nat)
  | assign (i j : Nat)
  | swap (i j : Nat)
  | destroy (i : Nat)
  | data (i : Nat)
  | write (i ind : Nat) (x : α)
  | push_back (i : Nat) (x : α)
  | pop_back (i : Nat)
  | insert (i p : Nat) (x : α)
  | erase (i f t : Nat)
  | clear (i : Nat)
  | reserve (i n : Nat)
  | shrink_to_fit (i : Nat)

/-- The world after a call on vector `i` that returned normally. -/
def World.update {α β : Type} (w : World α) (i : Nat) (r : Res (St α) β) : Option (World α) :=
  match r with
  | .ok _ (v, m) => some ⟨w.vecs.set i v, m⟩
  | _ => none

/-- One public operation used within its precondition; `none` when the index is not a live
vector, the precondition fails, or the call does not return normally.  The guards
`&other == this` of `operator=` and `swap` are decided here. -/
def World.step {α : Type} (SMALL_SIZE fuel : Nat) (op : Op α) (w : World α) :
    Option (World α) :=
  match op with
  | .default_construct => some ⟨w.vecs ++ [default_vector], w.mem⟩
  | .raw_construct src size capacity =>
    if size ≤ capacity then
      match construct (some src) size capacity w.mem with
      | .ok v m => some ⟨w.vecs ++ [v], m⟩
      | _ => none
    else none
  | .copy_construct j =>
    match w.vecs[j]? with
    | some s =>
      match Socow.copy_construct SMALL_SIZE s w.mem with
      | .ok v m => some ⟨w.vecs ++ [v], m⟩
      | _ => none
    | none => none
  | .assign i j =>
    match w.vecs[i]?, w.vecs[j]? with
    | some r, some s => if i = j then some w else w.update i (Socow.assign SMALL_SIZE r s w.mem)
    | _, _ => none
  | .swap i j =>
    match w.vecs[i]?, w.vecs[j]? with
    | some a, some b =>
      if i = j then some w
      else
        match Socow.swap SMALL_SIZE a b w.mem with
        | .ok _ (a2, b2, m) => some ⟨(w.vecs.set i a2).set j b2, m⟩
        | _ => none
    | _, _ => none
  | .destroy i =>
    match w.vecs[i]? with
    | some v =>
      match Socow.destroy v w.mem with
      | some m => some ⟨w.vecs.eraseIdx i, m⟩
      | none => none
    | none => none
  | .data i =>
    match w.vecs[i]? with
    | some v => w.update i (Socow.data SMALL_SIZE v w.mem)
    | none => none
  | .write i ind x =>
    match w.vecs[i]? with
    | some v => if ind < size v then w.update i (write_at SMALL_SIZE ind x v w.mem) else none
    | none => none
  | .push_back i x =>
    match w.vecs[i]? with
    | some v => w.update i (Socow.push_back SMALL_SIZE fuel x v w.mem)
    | none => none
  | .pop_back i =>
    match w.vecs[i]? with
    | some v => if 1 ≤ size v then w.update i (Socow.pop_back SMALL_SIZE fuel v w.mem) else none
    | none => none
  | .insert i p x =>
    match w.vecs[i]? with
    | some v => if p ≤ size v then w.update i (Socow.insert SMALL_SIZE fuel p x v w.mem) else none
    | none => none
  | .erase i f t =>
    match w.vecs[i]? with
    | some v =>
      if f ≤ t ∧ t ≤ size v then w.update i (Socow.erase SMALL_SIZE fuel f t v w.mem) else none
    | none => none
  | .clear i =>
    match w.vecs[i]? with
    | some v => w.update i (Socow.clear SMALL_SIZE v w.mem)
    | none => none
  | .reserve i n =>
    match w.vecs[i]? with
    | some v => w.update i (Socow.reserve SMALL_SIZE n v w.mem)
    | none => none
  | .shrink_to_fit i =>
    match w.vecs[i]? with
    | some v => w.update i (Socow.shrink_to_fit SMALL_SIZE v w.mem)
    | none => none

/-- The world before any vector is constructed: an empty heap, no fault injected;
`swap_copies` is the parameter of the element type. -/
def World.init (α : Type) (swap_copies : Bool) : World α :=
  ⟨[], ⟨fun _ => none, 0, 0, none, swap_copies⟩⟩

/-- The states reachable from no vectors by public operations that return normally. -/
inductive reachable {α : Type} (SMALL_SIZE : Nat) : World α → Prop where
  | init (sc : Bool) : reachable SMALL_SIZE (World.init α sc)
  | step (fuel : Nat) (op : Op α) (w w2 : World α) : reachable SMALL_SIZE w →
      World.step SMALL_SIZE fuel op w = some w2 → reachable SMALL_SIZE w2

/-- Number of vectors of a list that are in Heap mode on the block at `p`. -/
def refs_in {α : Type} (p : Nat) : List (socow_vector α) → Nat
  | [] => 0
  | v :: vs => (if block_of v = some p then 1 else 0) + refs_in p vs

/-- The invariant of reachable worlds: every vector is well formed, every mapped block's
reference count is the number of vectors on it and is positive, and no fault is
injected. -/
def winv {α : Type} (SMALL_SIZE : Nat) (w : World α) : Prop :=
  (∀ v, v ∈ w.vecs → vwf SMALL_SIZE v w.mem) ∧
  (∀ p b, w.mem.blocks p = some b → b._refs_count = refs_in p w.vecs ∧ 1 ≤ b._refs_count) ∧
  w.mem.throw_at = none


/-- The ways a call on one vector `v` in memory `m` that returns normally can leave the
vector (`v2`) and the memory (`m2`): nothing changed; an Inline vector stays Inline; a
uniquely owned block is changed in place; an Inline vector moves to a fresh block; a Heap
vector releases its block and moves to a fresh block; a Heap vector releases its block and
becomes Inline. -/
inductive Eff {α : Type} (SMALL_SIZE : Nat) :
    socow_vector α → Mem α → socow_vector α → Mem α → Prop where
  | keep (v : socow_vector α) (m : Mem α) : Eff SMALL_SIZE v m v m
  | inline (l l2 : List α) (m : Mem α) (k : Nat) (h : l2.length ≤ SMALL_SIZE) :
      Eff SMALL_SIZE (inline_vec l) m (inline_vec l2) (m.bump 0 k)
  | inplace (n n2 p : Nat) (m : Mem α) (c : Nat) (d d2 : List α) (k : Nat)
      (hb : m.blocks p = some ⟨1, c, d⟩) (hn : d2.length = n2) (hc : n2 ≤ c) :
      Eff SMALL_SIZE (heap_vec n p) m (heap_vec n2 p)
        ((m.set_block p (some ⟨1, c, d2⟩)).bump 0 k)
  | grow (l : List α) (n2 : Nat) (m : Mem α) (c2 : Nat) (d2 : List α) (k : Nat)
      (hn : d2.length = n2) (hc : n2 ≤ c2) :
      Eff SMALL_SIZE (inline_vec l) m (heap_vec n2 m.allocated) (m.fresh ⟨1, c2, d2⟩ k)
  | realloc (n n2 p : Nat) (m : Mem α) (c2 : Nat) (d2 : List α) (k : Nat)
      (hn : d2.length = n2) (hc : n2 ≤ c2) :
      Eff SMALL_SIZE (heap_vec n p) m (heap_vec n2 m.allocated)
        ((m.release p).fresh ⟨1, c2, d2⟩ k)
  | to_inline (n p : Nat) (m : Mem α) (l2 : List α) (k : Nat) (h : l2.length ≤ SMALL_SIZE) :
      Eff SMALL_SIZE (heap_vec n p) m (inline_vec l2) ((m.release p).bump 0 k)

/-- Whether a vector is in Heap mode on the block at `p`, as a number. -/
def on_block {α : Type} (v : socow_vector α) (p : Nat) : Nat :=
  if block_of v = some p then 1 else 0


/-- The memory `m` with the fault armed: the copy-constructor call of index `t` (counted
from 0 over the whole run) throws. -/
def Mem.arm {α : Type} (m : Mem α) (t : Nat) : Mem α := { m with throw_at := some t }

/-- The operations of the strong exception guarantee: `insert`, `erase`, `push_back`,
`reserve`, copy assignment from `other`, and unsharing through the mutable `data()`. -/
inductive GuardedOp (α : Type) where
  | insert (p : Nat) (x : α)
  | erase (f t : Nat)
  | push_back (x : α)
  | reserve (n : Nat)
  | assign (other : socow_vector α)
  | data

/-- Running one of these operations (returned iterators are dropped). -/
def GuardedOp.run {α : Type} (SMALL_SIZE fuel : Nat) (op : GuardedOp α) (v : socow_vector α)
    (m : Mem α) : Res (St α) Unit :=
  match op with
  | .insert p x => drop_ret (Socow.insert SMALL_SIZE fuel p x v m)
  | .erase f t => drop_ret (Socow.erase SMALL_SIZE fuel f t v m)
  | .push_back x => Socow.push_back SMALL_SIZE fuel x v m
  | .reserve n => Socow.reserve SMALL_SIZE n v m
  | .assign other => Socow.assign SMALL_SIZE v other m
  | .data => Socow.data SMALL_SIZE v m

/-- The precondition of these operations on the vector `v`: positions inside the vector,
and a well-formed source of the assignment. -/
def GuardedOp.pre {α : Type} (SMALL_SIZE : Nat) (v : socow_vector α) (m : Mem α) :
    GuardedOp α → Prop
  | .insert p _ => p ≤ size v
  | .erase f t => f ≤ t ∧ t ≤ size v
  | .assign other => vwf SMALL_SIZE other m
  | _ => True

/-- The paths of the source that swap elements with `std::swap` / `std::iter_swap`: the
in-place branch of `insert` (the vector is neither full nor linked), the in-place branch of
`erase` (a non-empty range on a vector that is not linked), and the two branches of
`operator=` between two Inline vectors. -/
def GuardedOp.swaps {α : Type} (SMALL_SIZE : Nat) (v : socow_vector α) (m : Mem α) :
    GuardedOp α → Prop
  | .insert _ _ => ∃ c, capacity SMALL_SIZE v m = some c ∧ size v ≠ c ∧
      is_linked v m = some false
  | .erase f t => f ≠ t ∧ is_linked v m = some false
  | .assign other => is_small v = true ∧ is_small other = true
  | _ => False

/-- The empty memory for an element type whose `std::swap` goes through the copy
constructor (no move operations): no block, no copy made, no fault injected. -/
def copy_swap_mem : Mem Nat := ⟨fun _ => none, 0, 0, none, true⟩


/-! ## Sequences of calls on one vector -/

/-- The calls `v.push_back(x)` for the elements `x` of a list, in order; stops at the first
call that does not return normally. -/
def push_all {α : Type} (SMALL_SIZE fuel : Nat) :
    List α → socow_vector α → Mem α → Res (St α) Unit
  | [], v, m => .ok () (v, m)
  | x :: xs, v, m =>
    match push_back SMALL_SIZE fuel x v m with
    | .ok _ (v1, m1) => push_all SMALL_SIZE fuel xs v1 m1
    | r => r

/-! ## Basic facts about memories -/

theorem Mem.eq_iff {α : Type} (m1 m2 : Mem α) :
    m1 = m2 ↔ (∀ q, m1.blocks q = m2.blocks q) ∧ m1.allocated = m2.allocated ∧
      m1.copies = m2.copies ∧ m1.throw_at = m2.throw_at ∧ m1.swap_copies = m2.swap_copies := by
  constructor
  · rintro rfl; simp
  · rintro ⟨h1, h2, h3, h4, h5⟩
    cases m1; cases m2; simp at *
    exact ⟨funext h1, h2, h3, h4, h5⟩

@[simp] theorem bump_blocks {α : Type} (m : Mem α) (a k : Nat) :
    (m.bump a k).blocks = m.blocks := rfl
@[simp] theorem bump_allocated {α : Type} (m : Mem α) (a k : Nat) :
    (m.bump a k).allocated = m.allocated + a := rfl
@[simp] theorem bump_copies {α : Type} (m : Mem α) (a k : Nat) :
    (m.bump a k).copies = m.copies + k := rfl
@[simp] theorem bump_throw_at {α : Type} (m : Mem α) (a k : Nat) :
    (m.bump a k).throw_at = m.throw_at := rfl
@[simp] theorem bump_swap_copies {α : Type} (m : Mem α) (a k : Nat) :
    (m.bump a k).swap_copies = m.swap_copies := rfl
@[simp] theorem set_block_blocks {α : Type} (m : Mem α) (p : Nat) (b : Option (dynamic_buffer α))
    (q : Nat) : (m.set_block p b).blocks q = if q = p then b else m.blocks q := rfl
@[simp] theorem set_block_allocated {α : Type} (m : Mem α) (p : Nat)
    (b : Option (dynamic_buffer α)) : (m.set_block p b).allocated = m.allocated := rfl
@[simp] theorem set_block_copies {α : Type} (m : Mem α) (p : Nat)
    (b : Option (dynamic_buffer α)) : (m.set_block p b).copies = m.copies := rfl
@[simp] theorem set_block_throw_at {α : Type} (m : Mem α) (p : Nat)
    (b : Option (dynamic_buffer α)) : (m.set_block p b).throw_at = m.throw_at := rfl
@[simp] theorem set_block_swap_copies {α : Type} (m : Mem α) (p : Nat)
    (b : Option (dynamic_buffer α)) : (m.set_block p b).swap_copies = m.swap_copies := rfl

@[simp] theorem bump_zero {α : Type} (m : Mem α) : m.bump 0 0 = m := by
  simp [Mem.eq_iff]

@[simp] theorem bump_bump {α : Type} (m : Mem α) (a k a2 k2 : Nat) :
    (m.bump a k).bump a2 k2 = m.bump (a + a2) (k + k2) := by
  simp [Mem.eq_iff]; omega

theorem set_block_bump {α : Type} (m : Mem α) (a k p : Nat) (b : Option (dynamic_buffer α)) :
    (m.bump a k).set_block p b = (m.set_block p b).bump a k := by
  simp [Mem.eq_iff]

theorem copy_call_ok {α : Type} (m : Mem α) (h : m.throw_at = none) :
    m.copy_call = (false, m.bump 0 1) := by
  simp [Mem.copy_call, h, Mem.bump]

theorem uc_ok {α : Type} (xs : List α) (m : Mem α) (h : m.throw_at = none) :
    uninitialized_copy xs m = (some xs, m.bump 0 xs.length) := by
  induction xs generalizing m with
  | nil => simp [uninitialized_copy]
  | cons x xs ih =>
    have h2 : (m.bump 0 1).throw_at = none := h
    simp [uninitialized_copy, copy_call_ok m h, ih _ h2, Mem.eq_iff]
    omega

@[simp] theorem inline_vec_size {α : Type} (arr : List α) :
    (inline_vec arr)._size = arr.length := rfl
@[simp] theorem inline_vec_is_small {α : Type} (arr : List α) :
    (inline_vec arr)._is_small = true := rfl
@[simp] theorem inline_vec_union {α : Type} (arr : List α) :
    (inline_vec arr)._union = .small_array arr := rfl
@[simp] theorem heap_vec_size {α : Type} (n p : Nat) :
    (heap_vec n p : socow_vector α)._size = n := rfl
@[simp] theorem heap_vec_is_small {α : Type} (n p : Nat) :
    (heap_vec n p : socow_vector α)._is_small = false := rfl
@[simp] theorem heap_vec_union {α : Type} (n p : Nat) :
    (heap_vec n p : socow_vector α)._union = .ptr p := rfl

theorem vwf_cases {α : Type} {N : Nat} {v : socow_vector α} {m : Mem α} (h : vwf N v m) :
    (∃ arr, v = inline_vec arr ∧ arr.length ≤ N) ∨
    (∃ p r c d, v = heap_vec d.length p ∧ m.blocks p = some ⟨r, c, d⟩ ∧ d.length ≤ c ∧ 1 ≤ r
      ∧ p < m.allocated) := by
  obtain ⟨n, s, u⟩ := v
  cases s <;> cases u <;> simp [vwf] at h
  · rename_i p
    cases hb : m.blocks p with
    | none => simp [hb] at h
    | some b =>
      obtain ⟨r, c, d⟩ := b
      simp [hb] at h
      obtain ⟨h1, h2, h3, h4⟩ := h
      subst h1
      exact Or.inr ⟨p, r, c, d, rfl, hb, h2, h3, h4⟩
  · rename_i arr
    obtain ⟨h1, h2⟩ := h
    subst h1
    exact Or.inl ⟨arr, rfl, h2⟩

theorem vwf_inline {α : Type} (N : Nat) (arr : List α) (m : Mem α) :
    vwf N (inline_vec arr) m ↔ arr.length ≤ N := by
  simp [vwf, inline_vec]

theorem vwf_heap {α : Type} (N n p : Nat) (m : Mem α) (r c : Nat) (d : List α)
    (hb : m.blocks p = some ⟨r, c, d⟩) :
    vwf N (heap_vec n p) m ↔ d.length = n ∧ n ≤ c ∧ 1 ≤ r ∧ p < m.allocated := by
  simp [vwf, heap_vec, hb]

/-! ## The primitives without an injected fault -/

@[simp] theorem fresh_blocks {α : Type} (m : Mem α) (b : dynamic_buffer α) (k q : Nat) :
    (m.fresh b k).blocks q = if q = m.allocated then some b else m.blocks q := rfl
@[simp] theorem fresh_allocated {α : Type} (m : Mem α) (b : dynamic_buffer α) (k : Nat) :
    (m.fresh b k).allocated = m.allocated + 1 := rfl
@[simp] theorem fresh_copies {α : Type} (m : Mem α) (b : dynamic_buffer α) (k : Nat) :
    (m.fresh b k).copies = m.copies + k := rfl
@[simp] theorem fresh_throw_at {α : Type} (m : Mem α) (b : dynamic_buffer α) (k : Nat) :
    (m.fresh b k).throw_at = m.throw_at := rfl
@[simp] theorem fresh_swap_copies {α : Type} (m : Mem α) (b : dynamic_buffer α) (k : Nat) :
    (m.fresh b k).swap_copies = m.swap_copies := rfl
@[simp] theorem release_blocks {α : Type} (m : Mem α) (p q : Nat) :
    (m.release p).blocks q = if q = p then (m.blocks p).bind released else m.blocks q := rfl
@[simp] theorem release_allocated {α : Type} (m : Mem α) (p : Nat) :
    (m.release p).allocated = m.allocated := rfl
@[simp] theorem release_copies {α : Type} (m : Mem α) (p : Nat) :
    (m.release p).copies = m.copies := rfl
@[simp] theorem release_throw_at {α : Type} (m : Mem α) (p : Nat) :
    (m.release p).throw_at = m.throw_at := rfl
@[simp] theorem release_swap_copies {α : Type} (m : Mem α) (p : Nat) :
    (m.release p).swap_copies = m.swap_copies := rfl

theorem delete_vector_range_all {α : Type} (l : List α) :
    delete_vector_range l 0 l.length = some [] := by
  cases l <;> simp [delete_vector_range]

theorem release_ptr_ok {α : Type} (m : Mem α) (p r c : Nat) (d : List α)
    (hb : m.blocks p = some ⟨r, c, d⟩) (hr : 1 ≤ r) :
    release_ptr p d.length m = some (m.release p) := by
  have hr0 : r ≠ 0 := by omega
  by_cases h1 : r = 1
  · simp [release_ptr, hb, h1, delete_vector_range_all, Mem.release, released]
  · have h2 : r - 1 ≠ 0 := by omega
    simp [release_ptr, hb, hr0, h2, Mem.release, released, h1]

theorem destroy_inline {α : Type} (arr : List α) (m : Mem α) :
    destroy (inline_vec arr) m = some m := by
  simp [destroy, inline_vec, delete_vector_range_all]

theorem destroy_heap {α : Type} (m : Mem α) (p r c : Nat) (d : List α)
    (hb : m.blocks p = some ⟨r, c, d⟩) (hr : 1 ≤ r) :
    destroy (heap_vec d.length p) m = some (m.release p) := by
  simp [destroy, heap_vec, release_ptr0, release_ptr_ok m p r c d hb hr]

theorem construct_ok {α : Type} (l : List α) (n c : Nat) (m : Mem α) (h : m.throw_at = none)
    (hn : n ≤ l.length) (hc : n ≤ c) :
    construct (some l) n c m = .ok (heap_vec n m.allocated) (m.fresh ⟨1, c, l.take n⟩ n) := by
  have h2 : (create_ptr c m).2.throw_at = none := h
  simp [construct, slice, hn, Nat.not_lt.mpr hc, uc_ok _ _ h2, heap_vec]
  simp [create_ptr, Mem.eq_iff, Nat.min_eq_left hn]
  intro q; split_ifs <;> rfl

theorem add_ptr_ok {α : Type} (m : Mem α) (n p r c : Nat) (s : Bool) (d : List α)
    (hb : m.blocks p = some ⟨r, c, d⟩) :
    add_ptr ⟨n, s, .ptr p⟩ m = some (m.set_block p (some ⟨r + 1, c, d⟩)) := by
  simp [add_ptr, deref, hb]

theorem assign_last_ok {α : Type} (this : socow_vector α) (m m1 : Mem α) (n q r c : Nat)
    (d : List α) (hd : destroy this m = some m1) (hb : m1.blocks q = some ⟨r, c, d⟩) :
    assign_last this (heap_vec n q) m =
      some (heap_vec n q, m1.set_block q (some ⟨r + 1, c, d⟩)) := by
  simp only [assign_last, hd, heap_vec, add_ptr_ok m1 _ q r c _ d hb]

theorem set_capacity_inline {α : Type} (arr : List α) (c : Nat) (m : Mem α)
    (h : m.throw_at = none) (hc : arr.length ≤ c) :
    set_capacity c (inline_vec arr) m =
      .ok () (heap_vec arr.length m.allocated, m.fresh ⟨1, c, arr⟩ arr.length) := by
  have e : cdata (inline_vec arr) m = some arr := by simp [cdata, inline_vec]
  have hb : (m.fresh ⟨1, c, arr⟩ arr.length).blocks m.allocated = some ⟨1, c, arr⟩ := by simp
  have hb2 : ((m.fresh ⟨1, c, arr⟩ arr.length).set_block m.allocated
      (some ⟨1 + 1, c, arr⟩)).blocks m.allocated = some ⟨2, c, arr⟩ := by simp
  simp only [set_capacity, e, inline_vec_size, construct_ok arr arr.length c m h (le_refl _) hc,
    List.take_length, assign_last_ok _ _ _ _ _ _ _ _ (destroy_inline arr _) hb,
    destroy_heap _ _ _ _ _ hb2 (by omega)]
  simp [Mem.eq_iff, released]
  intro q; split_ifs <;> rfl

theorem set_capacity_heap {α : Type} (m : Mem α) (p r c : Nat) (d : List α) (c2 : Nat)
    (hb : m.blocks p = some ⟨r, c, d⟩) (hr : 1 ≤ r) (hp : p < m.allocated)
    (h : m.throw_at = none) (hc : d.length ≤ c2) :
    set_capacity c2 (heap_vec d.length p) m =
      .ok () (heap_vec d.length m.allocated, (m.release p).fresh ⟨1, c2, d⟩ d.length) := by
  have e : cdata (heap_vec d.length p) m = some d := by simp [cdata, heap_vec, deref, hb]
  have hne : p ≠ m.allocated := by omega
  have hne2 : m.allocated ≠ p := by omega
  have hb1 : (m.fresh ⟨1, c2, d⟩ d.length).blocks p = some ⟨r, c, d⟩ := by simp [hne, hb]
  have hb2 : ((m.fresh ⟨1, c2, d⟩ d.length).release p).blocks m.allocated = some ⟨1, c2, d⟩ := by
    simp [hne2]
  have hb3 : (((m.fresh ⟨1, c2, d⟩ d.length).release p).set_block m.allocated
      (some ⟨1 + 1, c2, d⟩)).blocks m.allocated = some ⟨2, c2, d⟩ := by simp
  simp only [set_capacity, e, heap_vec_size, construct_ok d d.length c2 m h (le_refl _) hc,
    List.take_length, assign_last_ok _ _ _ _ _ _ _ _ (destroy_heap _ _ _ _ _ hb1 hr) hb2,
    destroy_heap _ _ _ _ _ hb3 (by omega)]
  simp [Mem.eq_iff, released, hne, hne2]
  intro q; split_ifs <;> simp_all

theorem data_inline {α : Type} (N : Nat) (arr : List α) (m : Mem α) :
    data N (inline_vec arr) m = .ok () (inline_vec arr, m) := by
  simp [data, inline_vec]

theorem data_unique {α : Type} (N n p c : Nat) (d : List α) (m : Mem α)
    (hb : m.blocks p = some ⟨1, c, d⟩) :
    data N (heap_vec n p) m = .ok () (heap_vec n p, m) := by
  simp [data, heap_vec, unshare, is_linked, refs_count, deref, hb]

theorem data_shared {α : Type} (N : Nat) (m : Mem α) (p r c : Nat) (d : List α)
    (hb : m.blocks p = some ⟨r, c, d⟩) (hr : 1 < r) (hp : p < m.allocated)
    (h : m.throw_at = none) (hc : d.length ≤ c) :
    data N (heap_vec d.length p) m =
      .ok () (heap_vec d.length m.allocated, (m.release p).fresh ⟨1, c, d⟩ d.length) := by
  have e1 : is_linked (heap_vec d.length p) m = some true := by
    simp [is_linked, refs_count, deref, heap_vec, hb, hr]
  have e2 : capacity N (heap_vec d.length p) m = some c := by
    simp [capacity, deref, heap_vec, hb]
  have e3 : (heap_vec d.length p : socow_vector α)._is_small = false := rfl
  simp only [data, e3, unshare, e1, e2]
  simpa using set_capacity_heap m p r c d c hb (by omega) hp h hc

/-! ## Observations on canonical vectors -/

theorem slice_all {α : Type} (l : List α) : slice l 0 l.length = some l := by
  simp [slice]

theorem elems_inline {α : Type} (arr : List α) (m : Mem α) :
    elems (inline_vec arr) m = some arr := by
  simp [elems, cdata, slice_all]

theorem elems_heap {α : Type} (m : Mem α) (p r c : Nat) (d : List α)
    (hb : m.blocks p = some ⟨r, c, d⟩) : elems (heap_vec d.length p) m = some d := by
  simp [elems, cdata, deref, hb, slice_all]

theorem cdata_inline {α : Type} (arr : List α) (m : Mem α) :
    cdata (inline_vec arr) m = some arr := by
  simp [cdata]

theorem cdata_heap {α : Type} (m : Mem α) (n p r c : Nat) (d : List α)
    (hb : m.blocks p = some ⟨r, c, d⟩) : cdata (heap_vec n p) m = some d := by
  simp [cdata, deref, hb]

theorem capacity_inline {α : Type} (N : Nat) (arr : List α) (m : Mem α) :
    capacity N (inline_vec arr) m = some N := by
  simp [capacity]

theorem capacity_heap {α : Type} (N : Nat) (m : Mem α) (n p r c : Nat) (d : List α)
    (hb : m.blocks p = some ⟨r, c, d⟩) : capacity N (heap_vec n p) m = some c := by
  simp [capacity, deref, hb]

theorem is_linked_inline {α : Type} (arr : List α) (m : Mem α) :
    is_linked (inline_vec arr) m = some false := by
  simp [is_linked]

theorem is_linked_heap {α : Type} (m : Mem α) (n p r c : Nat) (d : List α)
    (hb : m.blocks p = some ⟨r, c, d⟩) : is_linked (heap_vec n p) m = some (decide (1 < r)) := by
  simp [is_linked, refs_count, deref, hb]

theorem refs_count_heap {α : Type} (m : Mem α) (n p r c : Nat) (d : List α)
    (hb : m.blocks p = some ⟨r, c, d⟩) : refs_count (heap_vec n p) m = some r := by
  simp [refs_count, deref, hb]

theorem set_storage_inline {α : Type} (arr l : List α) (m : Mem α) :
    set_storage (inline_vec arr) m l = (⟨arr.length, true, .small_array l⟩, m) := by
  simp [set_storage, inline_vec]

theorem set_storage_heap {α : Type} (m : Mem α) (n p r c : Nat) (d l : List α)
    (hb : m.blocks p = some ⟨r, c, d⟩) :
    set_storage (heap_vec n p) m l = (heap_vec n p, m.set_block p (some ⟨r, c, l⟩)) := by
  simp [set_storage, deref, hb]

/-! ## Mode transitions and capacity management without an injected fault -/

theorem delete_vector0_inline {α : Type} (N : Nat) (arr : List α) (m : Mem α) :
    delete_vector0 N (inline_vec arr) m = some (⟨arr.length, true, .small_array []⟩, m) := by
  simp only [delete_vector0, data_inline, cdata_inline, Option.bind, inline_vec_size,
    delete_vector_range_all, set_storage_inline]

theorem delete_vector0_unique {α : Type} (N : Nat) (m : Mem α) (p c : Nat) (d : List α)
    (hb : m.blocks p = some ⟨1, c, d⟩) :
    delete_vector0 N (heap_vec d.length p) m =
      some (heap_vec d.length p, m.set_block p (some ⟨1, c, []⟩)) := by
  simp only [delete_vector0, data_unique N _ p c d m hb, cdata_heap m _ p 1 c d hb, Option.bind,
    heap_vec_size, delete_vector_range_all, set_storage_heap m _ p 1 c d _ hb]

theorem copy_to_small_heap {α : Type} (N : Nat) (l : List α) (n k p : Nat) (m : Mem α)
    (h : m.throw_at = none) (hn : n ≤ N) (hl : n ≤ l.length) :
    copy_to_small N (some l) n (heap_vec k p) m =
      .ok () (⟨k, true, .small_array (l.take n)⟩, m.bump 0 n) := by
  have e : ¬ N < n := by omega
  simp [copy_to_small, e, slice, hl, uc_ok _ _ h, heap_vec, Nat.min_eq_left hl]

theorem to_small_heap {α : Type} (N : Nat) (m : Mem α) (p r c : Nat) (d : List α)
    (hb : m.blocks p = some ⟨r, c, d⟩) (hr : 1 ≤ r) (h : m.throw_at = none)
    (hn : d.length ≤ N) :
    to_small N (heap_vec d.length p) m = .ok () (inline_vec d, (m.release p).bump 0 d.length) := by
  have hb1 : (m.bump 0 d.length).blocks p = some ⟨r, c, d⟩ := hb
  simp only [to_small, deref, heap_vec_union, hb, Option.map, heap_vec_size,
    copy_to_small_heap N d d.length d.length p m h hn (le_refl _), List.take_length,
    release_ptr_ok _ p r c d hb1 hr]
  simp [inline_vec, Mem.eq_iff, hb]

theorem clear_inline {α : Type} (N : Nat) (arr : List α) (m : Mem α) :
    clear N (inline_vec arr) m = .ok () (inline_vec [], m) := by
  simp only [clear, inline_vec_is_small, if_true, delete_vector0_inline]
  rfl

theorem clear_unique {α : Type} (N : Nat) (m : Mem α) (p c : Nat) (d : List α)
    (hb : m.blocks p = some ⟨1, c, d⟩) :
    clear N (heap_vec d.length p) m = .ok () (heap_vec 0 p, m.set_block p (some ⟨1, c, []⟩)) := by
  simp [clear, refs_count_heap m _ p 1 c d hb, delete_vector0_unique N m p c d hb]
  rfl

theorem clear_shared {α : Type} (N : Nat) (m : Mem α) (p r c : Nat) (d : List α)
    (hb : m.blocks p = some ⟨r, c, d⟩) (hr : 1 < r) :
    clear N (heap_vec d.length p) m = .ok () (inline_vec [], m.release p) := by
  have h1 : r ≠ 1 := by omega
  simp [clear, refs_count_heap m _ p r c d hb, h1, release_ptr0,
    release_ptr_ok m p r c d hb (by omega)]
  rfl

/-! ## The element loops without an injected fault -/

theorem swap_cost_zero {α : Type} (m : Mem α) : swap_cost m 0 = 0 := by
  simp [swap_cost]

theorem swap_cost_succ {α : Type} (m : Mem α) (n : Nat) :
    swap_cost m (n + 1) = swap_cost m 1 + swap_cost m n := by
  simp [swap_cost]; split_ifs <;> omega

@[simp] theorem swap_cost_bump {α : Type} (m : Mem α) (a k n : Nat) :
    swap_cost (m.bump a k) n = swap_cost m n := rfl

theorem swap_elems_ok {α : Type} (l : List α) (i j : Nat) (x y : α) (m : Mem α)
    (h : m.throw_at = none) (hi : l[i]? = some x) (hj : l[j]? = some y) :
    swap_elems l i j m = (some (some ((l.set i y).set j x)), m.bump 0 (swap_cost m 1)) := by
  simp only [swap_elems, hi, hj, copy_call_ok m h]
  by_cases hs : m.swap_copies = true
  · simp [hs, swap_cost]
  · simp [hs, swap_cost]

theorem swap_elems2_ok {α : Type} (l k : List α) (i : Nat) (x y : α) (m : Mem α)
    (h : m.throw_at = none) (hi : l[i]? = some x) (hj : k[i]? = some y) :
    swap_elems2 l k i m = (some (some (l.set i y, k.set i x)), m.bump 0 (swap_cost m 1)) := by
  simp only [swap_elems2, hi, hj, copy_call_ok m h]
  by_cases hs : m.swap_copies = true
  · simp [hs, swap_cost]
  · simp [hs, swap_cost]

theorem swap_loop_ok {α : Type} (n : Nat) : ∀ (i : Nat) (l k : List α) (m : Mem α),
    m.throw_at = none → i + n ≤ l.length → i + n ≤ k.length →
    ∃ l2 k2, swap_loop i n l k m = (some (false, l2, k2), m.bump 0 (swap_cost m n)) ∧
      l2.length = l.length ∧ k2.length = k.length ∧
      (∀ j, l2[j]? = if i ≤ j ∧ j < i + n then k[j]? else l[j]?) ∧
      (∀ j, k2[j]? = if i ≤ j ∧ j < i + n then l[j]? else k[j]?) := by
  induction n with
  | zero =>
    intro i l k m _ _ _
    refine ⟨l, k, ?_, rfl, rfl, ?_, ?_⟩
    · simp [swap_loop, swap_cost_zero]
    · intro j
      have hc : ¬ (i ≤ j ∧ j < i + 0) := by omega
      rw [if_neg hc]
    · intro j
      have hc : ¬ (i ≤ j ∧ j < i + 0) := by omega
      rw [if_neg hc]
  | succ n ih =>
    intro i l k m h hl hk
    have hil : i < l.length := by omega
    have hik : i < k.length := by omega
    have e := swap_elems2_ok l k i l[i] k[i] m h (by simp [hil]) (by simp [hik])
    obtain ⟨l2, k2, e2, hl2, hk2, hlj, hkj⟩ :=
      ih (i + 1) (l.set i k[i]) (k.set i l[i]) (m.bump 0 (swap_cost m 1)) h
        (by simp; omega) (by simp; omega)
    refine ⟨l2, k2, ?_, by simpa using hl2, by simpa using hk2, ?_, ?_⟩
    · rw [swap_loop, e]
      simp only []
      rw [e2, swap_cost_succ m n]
      simp [Mem.eq_iff]
    · intro j
      rw [hlj j]
      by_cases hj : j = i
      · subst hj; simp [hil, hik]
      · have hj2 : ¬ i = j := fun e => hj e.symm
        simp [List.getElem?_set, hj2]
        split_ifs <;> first | rfl | omega
    · intro j
      rw [hkj j]
      by_cases hj : j = i
      · subst hj; simp [hil, hik]
      · have hj2 : ¬ i = j := fun e => hj e.symm
        simp [List.getElem?_set, hj2]
        split_ifs <;> first | rfl | omega

theorem place_ok {α : Type} (cap : Nat) (l xs : List α) (h : l.length + xs.length ≤ cap) :
    place cap l l.length xs = some (l ++ xs) := by
  cases xs with
  | nil => simp [place]
  | cons x xs =>
    have h2 : l.length + (xs.length + 1) ≤ cap := by simpa using h
    simp [place, h2]

theorem delete_tail {α : Type} (l : List α) (n : Nat) (h : n ≤ l.length) :
    delete_vector_range l n l.length = some (l.take n) := by
  by_cases e : l.length ≤ n
  · have : n = l.length := by omega
    simp [delete_vector_range, this]
  · simp [delete_vector_range, e]

theorem slice_drop {α : Type} (l : List α) (n : Nat) (h : n ≤ l.length) :
    slice l n l.length = some (l.drop n) := by
  simp [slice, h]

theorem slice_take {α : Type} (l : List α) (n : Nat) (h : n ≤ l.length) :
    slice l 0 n = some (l.take n) := by
  simp [slice, h]

theorem swap_arrays_inline {α : Type} (N : Nat) (l k : List α) (m : Mem α)
    (h : m.throw_at = none) (hlk : l.length ≤ k.length) (hk : k.length ≤ N) :
    swap_arrays N (inline_vec l) (inline_vec k) m =
      .ok () (⟨l.length, true, .small_array k⟩, ⟨k.length, true, .small_array l⟩,
        m.bump 0 (k.length - l.length + swap_cost m l.length)) := by
  have h2 : (m.bump 0 (k.drop l.length).length).throw_at = none := h
  obtain ⟨l2, k2, e, hl2, hk2, hlj, hkj⟩ :=
    swap_loop_ok l.length 0 (l ++ k.drop l.length) k _ h2 (by simp) (by simpa using hlk)
  have el2 : l2 = k := by
    apply List.ext_getElem?
    intro j
    rw [hlj j]
    by_cases hj : j < l.length
    · simp [hj]
    · have hj2 : l.length ≤ j := by omega
      have e3 : l.length + (j - l.length) = j := by omega
      simp [hj, List.getElem?_append_right hj2, e3]
  have ek2 : k2.take l.length = l := by
    apply List.ext_getElem?
    intro j
    rw [List.getElem?_take]
    by_cases hj : j < l.length
    · simp [hj, hkj j, List.getElem?_append_left hj]
    · have hj2 : l.length ≤ j := by omega
      simp [hj, List.getElem?_eq_none hj2]
  subst el2
  have hd : delete_vector_range k2 l.length l2.length = some l := by
    rw [← hk2, delete_tail k2 l.length (by omega), ek2]
  simp only [swap_arrays, data_inline, cdata_inline, capacity_inline, inline_vec_size,
    slice_drop l2 l.length hlk, uc_ok _ _ h,
    place_ok N l (l2.drop l.length) (by simp; omega), e, hd, set_storage_inline]
  simp [Mem.eq_iff]

/-! ## The method `swap` without an injected fault -/

theorem swap_inline_lt {α : Type} (N : Nat) (l k : List α) (m : Mem α)
    (h : m.throw_at = none) (hlk : l.length < k.length) (hk : k.length ≤ N) :
    swap N (inline_vec l) (inline_vec k) m =
      .ok () (inline_vec k, inline_vec l,
        m.bump 0 (k.length - l.length + swap_cost m l.length)) := by
  simp only [swap, swap_body, inline_vec_is_small, inline_vec_size, Bool.and_self, if_true, hlk,
    swap_arrays_inline N l k m h (le_of_lt hlk) hk, swap_fields]
  rfl

theorem swap_inline_ge {α : Type} (N : Nat) (l k : List α) (m : Mem α)
    (h : m.throw_at = none) (hlk : k.length ≤ l.length) (hl : l.length ≤ N) :
    swap N (inline_vec l) (inline_vec k) m =
      .ok () (inline_vec k, inline_vec l,
        m.bump 0 (l.length - k.length + swap_cost m k.length)) := by
  have hn : ¬ l.length < k.length := by omega
  simp only [swap, swap_body, inline_vec_is_small, inline_vec_size, Bool.and_self, if_true, hn,
    if_false, swap_arrays_inline N k l m h hlk hl, swap_fields]
  rfl

theorem swap_inline_inline {α : Type} (N : Nat) (l k : List α) (m : Mem α)
    (h : m.throw_at = none) (hl : l.length ≤ N) (hk : k.length ≤ N) :
    ∃ j, swap N (inline_vec l) (inline_vec k) m = .ok () (inline_vec k, inline_vec l, m.bump 0 j) := by
  by_cases hlk : l.length < k.length
  · exact ⟨_, swap_inline_lt N l k m h hlk hk⟩
  · exact ⟨_, swap_inline_ge N l k m h (by omega) hl⟩

theorem swap_heap_heap {α : Type} (N n1 p n2 q : Nat) (m : Mem α) :
    swap N (heap_vec n1 p) (heap_vec n2 q) m = .ok () (heap_vec n2 q, heap_vec n1 p, m) := by
  simp [swap, swap_body, swap_fields]
  simp [heap_vec]

theorem swap_inline_heap {α : Type} (N : Nat) (l : List α) (n q : Nat) (m : Mem α)
    (h : m.throw_at = none) (hl : l.length ≤ N) :
    swap N (inline_vec l) (heap_vec n q) m =
      .ok () (heap_vec n q, inline_vec l, m.bump 0 l.length) := by
  simp only [swap, swap_body, inline_vec_is_small, heap_vec_is_small, inline_vec_union,
    heap_vec_union, inline_vec_size, copy_to_small_heap N l l.length n q m h hl (le_refl _),
    delete_vector0_inline, swap_fields, List.take_length]
  simp [heap_vec, inline_vec]

theorem swap_heap_inline {α : Type} (N : Nat) (n p : Nat) (k : List α) (m : Mem α)
    (h : m.throw_at = none) (hk : k.length ≤ N) :
    swap N (heap_vec n p) (inline_vec k) m =
      .ok () (inline_vec k, heap_vec n p, m.bump 0 k.length) := by
  simp only [swap, swap_body, inline_vec_is_small, heap_vec_is_small, inline_vec_union,
    heap_vec_union, inline_vec_size, copy_to_small_heap N k k.length n p m h hk (le_refl _),
    delete_vector0_inline, swap_fields, List.take_length]
  simp [heap_vec, inline_vec]

/-! ## Copy assignment without an injected fault -/

@[simp] theorem share_blocks {α : Type} (m : Mem α) (p q : Nat) :
    (m.share p).blocks q =
      if q = p then (m.blocks p).map (fun b => { b with _refs_count := b._refs_count + 1 })
      else m.blocks q := rfl
@[simp] theorem share_allocated {α : Type} (m : Mem α) (p : Nat) :
    (m.share p).allocated = m.allocated := rfl
@[simp] theorem share_copies {α : Type} (m : Mem α) (p : Nat) :
    (m.share p).copies = m.copies := rfl
@[simp] theorem share_throw_at {α : Type} (m : Mem α) (p : Nat) :
    (m.share p).throw_at = m.throw_at := rfl
@[simp] theorem share_swap_copies {α : Type} (m : Mem α) (p : Nat) :
    (m.share p).swap_copies = m.swap_copies := rfl

theorem assign_first_ok {α : Type} (N : Nat) (l k : List α) (m : Mem α)
    (h : m.throw_at = none) (hlk : l.length ≤ k.length) (hk : k.length ≤ N) :
    assign_first N (inline_vec l) (inline_vec k) m =
      .ok () (inline_vec k, m.bump 0 (k.length + swap_cost m l.length)) := by
  have h2 : ((m.bump 0 (k.drop l.length).length).bump 0 (k.take l.length).length).throw_at
      = none := h
  obtain ⟨l2, k2, e, hl2, hk2, hlj, hkj⟩ :=
    swap_loop_ok l.length 0 (l ++ k.drop l.length) (k.take l.length) _ h2 (by simp)
      (by simpa using hlk)
  have el2 : l2 = k := by
    apply List.ext_getElem?
    intro j
    rw [hlj j]
    by_cases hj : j < l.length
    · simp [hj, List.getElem?_take]
    · have hj2 : l.length ≤ j := by omega
      have e3 : l.length + (j - l.length) = j := by omega
      simp [hj, List.getElem?_append_right hj2, e3]
  subst el2
  have hp2 : place N [] 0 (l2.take l.length) = some (l2.take l.length) := by
    have := place_ok N [] (l2.take l.length) (by simp; omega)
    simpa using this
  have h1 : (m.bump 0 (l2.drop l.length).length).throw_at = none := h
  simp only [assign_first, cdata_inline, inline_vec_size, slice_drop l2 l.length hlk,
    uc_ok _ _ h, uc_ok _ _ h1, place_ok N l (l2.drop l.length) (by simp; omega),
    slice_take l2 l.length hlk, hp2, e, inline_vec_is_small]
  simp [Mem.eq_iff, inline_vec]
  omega

theorem assign_inline_grow {α : Type} (N : Nat) (l k : List α) (m : Mem α)
    (h : m.throw_at = none) (hlk : l.length ≤ k.length) (hk : k.length ≤ N) :
    assign N (inline_vec l) (inline_vec k) m =
      .ok () (inline_vec k, m.bump 0 (k.length + swap_cost m l.length)) := by
  simp only [assign, inline_vec_is_small, inline_vec_size, Bool.and_self, hlk, decide_True,
    if_true, assign_first_ok N l k m h hlk hk]

theorem assign_inline_shrink {α : Type} (N : Nat) (l k : List α) (m : Mem α)
    (h : m.throw_at = none) (hlk : k.length < l.length) (hl : l.length ≤ N) :
    assign N (inline_vec l) (inline_vec k) m =
      .ok () (inline_vec k, m.bump 0 (l.length + swap_cost m k.length)) := by
  have hn : ¬ l.length ≤ k.length := by omega
  have e1 : assign_first N default_vector (inline_vec k) m =
      .ok () (inline_vec k, m.bump 0 (k.length + swap_cost m 0)) :=
    assign_first_ok N [] k m h (by simp) (by omega)
  have h1 : (m.bump 0 (k.length + swap_cost m 0)).throw_at = none := h
  simp only [assign, inline_vec_is_small, inline_vec_size, Bool.and_self, hn, decide_False,
    Bool.and_false, if_false, if_true, e1,
    swap_inline_lt N k l _ h1 hlk hl, destroy_inline]
  simp [Mem.eq_iff, inline_vec, swap_cost_zero]
  omega

theorem assign_heap_inline {α : Type} (N : Nat) (m : Mem α) (p r c : Nat) (d k : List α)
    (hb : m.blocks p = some ⟨r, c, d⟩) (hr : 1 ≤ r) (h : m.throw_at = none)
    (hk : k.length ≤ N) :
    assign N (heap_vec d.length p) (inline_vec k) m =
      .ok () (inline_vec k, (m.release p).bump 0 k.length) := by
  have hb1 : (m.bump 0 k.length).blocks p = some ⟨r, c, d⟩ := hb
  simp only [assign, inline_vec_is_small, heap_vec_is_small, inline_vec_size, heap_vec_size,
    heap_vec_union, Bool.false_and, Bool.not_false, Bool.and_self, if_true, cdata_inline,
    copy_to_small_heap N k k.length d.length p m h hk (le_refl _), List.take_length,
    release_ptr_ok _ p r c d hb1 hr]
  simp [Mem.eq_iff, inline_vec, hb]

theorem assign_inline_heap {α : Type} (N : Nat) (l : List α) (n q : Nat) (m : Mem α)
    (r c : Nat) (d : List α) (hb : m.blocks q = some ⟨r, c, d⟩) :
    assign N (inline_vec l) (heap_vec n q) m = .ok () (heap_vec n q, m.share q) := by
  simp only [assign, inline_vec_is_small, heap_vec_is_small, Bool.and_false, Bool.false_and,
    Bool.not_true, if_false, assign_last_ok _ _ _ n q r c d (destroy_inline l m) hb]
  simp [Mem.eq_iff, Mem.share, hb]

theorem assign_heap_heap {α : Type} (N : Nat) (m : Mem α) (p r1 c1 : Nat) (d1 : List α)
    (n q r c : Nat) (d : List α) (hp : m.blocks p = some ⟨r1, c1, d1⟩) (hr : 1 ≤ r1)
    (hq : m.blocks q = some ⟨r, c, d⟩) (hpq : p = q → 2 ≤ r1) :
    assign N (heap_vec d1.length p) (heap_vec n q) m =
      .ok () (heap_vec n q, (m.release p).share q) := by
  by_cases e : p = q
  · subst e
    have hr2 := hpq rfl
    rw [hp] at hq
    cases hq
    have hne : r1 ≠ 1 := by omega
    have hb : (m.release p).blocks p = some ⟨r1 - 1, c1, d1⟩ := by
      simp [hp, released, hne]
    simp only [assign, heap_vec_is_small, Bool.false_and, Bool.not_false, Bool.and_false,
      if_false, assign_last_ok _ _ _ n p _ _ _ (destroy_heap m p r1 c1 d1 hp hr) hb]
    simp [Mem.eq_iff, Mem.share, hp, released, hne]
  · have e2 : ¬ q = p := fun h => e h.symm
    have hb : (m.release p).blocks q = some ⟨r, c, d⟩ := by
      simp [e2, hq]
    simp only [assign, heap_vec_is_small, Bool.false_and, Bool.not_false, Bool.and_false,
      if_false, assign_last_ok _ _ _ n q _ _ _ (destroy_heap m p r1 c1 d1 hp hr) hb]
    simp [Mem.eq_iff, Mem.share, e2, hq]

/-! ## `push_back` and `insert` without an injected fault -/

theorem push_back_body_inline {α : Type}
    (ins : Nat → α → socow_vector α → Mem α → Res (St α) Nat) (N : Nat) (x : α) (l : List α)
    (m : Mem α) (h : m.throw_at = none) (hl : l.length < N) :
    push_back_body ins N x (inline_vec l) m = .ok () (inline_vec (l ++ [x]), m.bump 0 1) := by
  have hne : ¬ l.length = N := by omega
  simp only [push_back_body, capacity_inline, is_linked_inline, inline_vec_size, hne,
    decide_False, Bool.or_self, Bool.false_eq_true, if_false, data_inline, copy_call_ok m h,
    cdata_inline, place_ok N l [x] (by simpa using hl), set_storage_inline]
  simp [inline_vec]

theorem push_back_body_unique {α : Type}
    (ins : Nat → α → socow_vector α → Mem α → Res (St α) Nat) (N : Nat) (x : α)
    (m : Mem α) (p c : Nat) (d : List α) (hb : m.blocks p = some ⟨1, c, d⟩)
    (h : m.throw_at = none) (hl : d.length < c) :
    push_back_body ins N x (heap_vec d.length p) m =
      .ok () (heap_vec (d.length + 1) p, (m.set_block p (some ⟨1, c, d ++ [x]⟩)).bump 0 1) := by
  have hne : ¬ d.length = c := by omega
  have hb1 : (m.bump 0 1).blocks p = some ⟨1, c, d⟩ := hb
  simp only [push_back_body, capacity_heap N m _ p 1 c d hb, is_linked_heap m _ p 1 c d hb,
    heap_vec_size, hne, decide_False, Bool.or_self, Bool.false_eq_true, if_false,
    lt_irrefl, data_unique N _ p c d m hb, copy_call_ok m h, cdata_heap m _ p 1 c d hb,
    place_ok c d [x] (by simpa using hl), set_storage_heap _ _ p 1 c d _ hb1]
  simp [heap_vec, Mem.eq_iff]

theorem insert_copy_loop_ok {α : Type}
    (ins : Nat → α → socow_vector α → Mem α → Res (St α) Nat) (N : Nat)
    (this : socow_vector α) (src : List α) (a c : Nat) (n : Nat) :
    ∀ (i : Nat) (e : List α) (m : Mem α), m.throw_at = none →
      m.blocks a = some ⟨1, c, e⟩ → e.length + n ≤ c → i + n ≤ src.length →
      (∀ m2 : Mem α, (∀ q, q ≠ a → m2.blocks q = m.blocks q) → cdata this m2 = some src) →
      insert_copy_loop (push_back_body ins N) this i n (heap_vec e.length a) m =
        .ok () (heap_vec (e.length + n) a,
          (m.set_block a (some ⟨1, c, e ++ (src.drop i).take n⟩)).bump 0 n) := by
  induction n with
  | zero =>
    intro i e m _ hb _ _ _
    simp [insert_copy_loop, Mem.eq_iff]
    intro q; split_ifs with hq
    · rw [hq, hb]
    · rfl
  | succ n ih =>
    intro i e m h hb hc hi hsrc
    have hlt : i < src.length := by omega
    have e1 : (cdata this m).bind (fun l => l[i]?) = some src[i] := by
      rw [hsrc m (fun _ _ => rfl)]
      simp [hlt]
    have hb1 : ((m.set_block a (some ⟨1, c, e ++ [src[i]]⟩)).bump 0 1).blocks a =
        some ⟨1, c, e ++ [src[i]]⟩ := by simp
    have hsrc1 : ∀ m2 : Mem α, (∀ q, q ≠ a →
        m2.blocks q = ((m.set_block a (some ⟨1, c, e ++ [src[i]]⟩)).bump 0 1).blocks q) →
        cdata this m2 = some src := by
      intro m2 hm2
      apply hsrc
      intro q hq
      rw [hm2 q hq]
      simp [hq]
    have ih1 := ih (i + 1) (e ++ [src[i]])
      ((m.set_block a (some ⟨1, c, e ++ [src[i]]⟩)).bump 0 1) h hb1 (by simp; omega) (by omega)
      hsrc1
    simp only [List.length_append, List.length_singleton] at ih1
    rw [insert_copy_loop, e1]
    simp only []
    rw [push_back_body_unique ins N src[i] m a c e hb h (by omega)]
    simp only []
    rw [ih1]
    have e2 : e ++ [src[i]] ++ List.take n (List.drop (i + 1) src) =
        e ++ List.take (n + 1) (List.drop i src) := by
      rw [List.drop_eq_getElem_cons hlt, List.take_succ_cons, List.append_assoc]
      rfl
    simp only [e2]
    simp [Mem.eq_iff, heap_vec]
    refine ⟨by omega, ?_, by omega⟩
    intro q; split_ifs <;> rfl

theorem fresh_set_block_bump {α : Type} (m : Mem α) (b b2 : dynamic_buffer α) (k j : Nat) :
    ((m.fresh b k).set_block m.allocated (some b2)).bump 0 j = m.fresh b2 (k + j) := by
  simp [Mem.eq_iff]
  refine ⟨?_, by omega⟩
  intro q; split_ifs <;> rfl

theorem fresh_blocks_self {α : Type} (m : Mem α) (b : dynamic_buffer α) (k : Nat) :
    (m.fresh b k).blocks m.allocated = some b := by simp

theorem list_insert_length {α : Type} (l : List α) (pos : Nat) (x : α) :
    (list_insert l pos x).length = l.length + 1 := by
  simp [list_insert]; omega

/-- The three steps that build `new_vec` in the reallocating path of `insert`. -/
theorem insert_build {α : Type}
    (ins : Nat → α → socow_vector α → Mem α → Res (St α) Nat) (N : Nat)
    (this : socow_vector α) (src : List α) (pos c2 : Nat) (x : α) (m : Mem α)
    (h : m.throw_at = none) (hpos : pos ≤ src.length) (hc : src.length + 1 ≤ c2)
    (hsrc : ∀ m2 : Mem α, (∀ q, q ≠ m.allocated → m2.blocks q = m.blocks q) →
      cdata this m2 = some src) :
    construct (some src) pos c2 m
      = .ok (heap_vec pos m.allocated) (m.fresh ⟨1, c2, src.take pos⟩ pos) ∧
    push_back_body ins N x (heap_vec pos m.allocated) (m.fresh ⟨1, c2, src.take pos⟩ pos)
      = .ok () (heap_vec (pos + 1) m.allocated, m.fresh ⟨1, c2, src.take pos ++ [x]⟩ (pos + 1)) ∧
    insert_copy_loop (push_back_body ins N) this pos (src.length - pos)
        (heap_vec (pos + 1) m.allocated) (m.fresh ⟨1, c2, src.take pos ++ [x]⟩ (pos + 1))
      = .ok () (heap_vec (src.length + 1) m.allocated,
          m.fresh ⟨1, c2, list_insert src pos x⟩ (src.length + 1)) := by
  have hlen : (src.take pos).length = pos := by simp [hpos]
  have hlen2 : (src.take pos ++ [x]).length = pos + 1 := by simp [hpos]
  refine ⟨construct_ok src pos c2 m h hpos (by omega), ?_, ?_⟩
  · have e1 := push_back_body_unique ins N x (m.fresh ⟨1, c2, src.take pos⟩ pos) m.allocated c2
      (src.take pos) (fresh_blocks_self _ _ _) h (by rw [hlen]; omega)
    rw [hlen, fresh_set_block_bump] at e1
    exact e1
  · have e2 := insert_copy_loop_ok ins N this src m.allocated c2 (src.length - pos) pos
      (src.take pos ++ [x]) (m.fresh ⟨1, c2, src.take pos ++ [x]⟩ (pos + 1)) h
      (fresh_blocks_self _ _ _) (by rw [hlen2]; omega) (by omega)
      (fun m2 hm2 => hsrc m2 (fun q hq => by rw [hm2 q hq]; simp [hq]))
    rw [hlen2, fresh_set_block_bump] at e2
    rw [e2]
    have e3 : src.take pos ++ [x] ++ (src.drop pos).take (src.length - pos)
        = list_insert src pos x := by
      simp [list_insert]
    have e4 : pos + 1 + (src.length - pos) = src.length + 1 := by omega
    rw [e3, e4]

theorem insert_inline_full {α : Type} (N fuel pos : Nat) (x : α) (l : List α) (m : Mem α)
    (h : m.throw_at = none) (hl : l.length = N) (hN : 1 ≤ N) (hpos : pos ≤ l.length) :
    insert N (fuel + 1) pos x (inline_vec l) m =
      .ok pos (heap_vec (l.length + 1) m.allocated,
        m.fresh ⟨1, N * 2, list_insert l pos x⟩ (l.length + 1)) := by
  subst hl
  obtain ⟨e1, e2, e3⟩ := insert_build (insert l.length fuel) l.length (inline_vec l) l pos
    (l.length * 2) x m h hpos (by omega) (fun m2 _ => cdata_inline l m2)
  have h0 : (m.fresh ⟨1, l.length * 2, list_insert l pos x⟩ (l.length + 1)).throw_at = none := h
  have hb2 : ((m.fresh ⟨1, l.length * 2, list_insert l pos x⟩ (l.length + 1)).bump 0
      ([] : List α).length).blocks m.allocated
      = some ⟨1, l.length * 2, list_insert l pos x⟩ := by simp
  simp only [insert, capacity_inline, is_linked_inline, inline_vec_size, decide_True,
    Bool.true_or, if_true, cdata_inline, e1, e2, e3, inline_vec_is_small, clear_inline,
    swap_inline_heap l.length [] _ _ _ h0 (by simp),
    data_unique l.length _ m.allocated _ _ _ hb2, destroy_inline]
  simp [Mem.eq_iff]

theorem insert_heap_realloc {α : Type} (N fuel pos : Nat) (x : α) (m : Mem α)
    (p r c : Nat) (d : List α) (hb : m.blocks p = some ⟨r, c, d⟩) (hr : 1 ≤ r)
    (hp : p < m.allocated) (h : m.throw_at = none) (hc : 1 ≤ c) (hdc : d.length ≤ c)
    (hre : d.length = c ∨ 1 < r) (hpos : pos ≤ d.length) :
    insert N (fuel + 1) pos x (heap_vec d.length p) m =
      .ok pos (heap_vec (d.length + 1) m.allocated,
        (m.release p).fresh ⟨1, if d.length = c then c * 2 else c, list_insert d pos x⟩
          (d.length + 1)) := by
  have hne : p ≠ m.allocated := by omega
  have hc2 : d.length + 1 ≤ (if d.length = c then c * 2 else c) := by
    split_ifs <;> omega
  obtain ⟨e1, e2, e3⟩ := insert_build (insert N fuel) N (heap_vec d.length p) d pos
    (if d.length = c then c * 2 else c) x m h hpos hc2
    (fun m2 hm2 => cdata_heap m2 _ p r c d (by rw [hm2 p hne, hb]))
  have hcond : (decide (d.length = c) || decide (1 < r)) = true := by
    rcases hre with e | e <;> simp [e]
  have hb2 : (m.fresh ⟨1, if d.length = c then c * 2 else c, list_insert d pos x⟩
      (d.length + 1)).blocks m.allocated
      = some ⟨1, if d.length = c then c * 2 else c, list_insert d pos x⟩ := by simp
  have hb3 : (m.fresh ⟨1, if d.length = c then c * 2 else c, list_insert d pos x⟩
      (d.length + 1)).blocks p = some ⟨r, c, d⟩ := by simp [hne, hb]
  simp only [insert, capacity_heap N m _ p r c d hb, is_linked_heap m _ p r c d hb,
    heap_vec_size, hcond, if_true, cdata_heap m _ p r c d hb, e1, e2, e3,
    heap_vec_is_small, Bool.false_eq_true, if_false, swap_heap_heap,
    data_unique N _ m.allocated _ _ _ hb2, destroy_heap _ p r c d hb3 hr]
  simp [Mem.eq_iff]
  intro q; split_ifs <;> simp_all

theorem shift_loop_ok {α : Type} (it : Nat) : ∀ (i : Nat) (l : List α) (m : Mem α),
    m.throw_at = none → it ≤ i → i < l.length →
    ∃ l2, shift_loop it i l m = (some (false, l2), m.bump 0 (swap_cost m (i - it))) ∧
      l2.length = l.length ∧
      ∀ j, l2[j]? = if j = it then l[i]? else if it < j ∧ j ≤ i then l[j - 1]? else l[j]? := by
  intro i
  induction i with
  | zero =>
    intro l m _ hit _
    have e : it = 0 := by omega
    subst e
    refine ⟨l, by simp [shift_loop, swap_cost_zero], rfl, ?_⟩
    intro j
    split_ifs with h1 h2
    · rw [h1]
    · omega
    · rfl
  | succ k ih =>
    intro l m h hit hlen
    by_cases e : k + 1 = it
    · subst e
      refine ⟨l, by simp [shift_loop, swap_cost_zero], rfl, ?_⟩
      intro j
      split_ifs with h1 h2
      · rw [h1]
      · omega
      · rfl
    · have hk : k < l.length := by omega
      have es := swap_elems_ok l (k + 1) k l[k + 1] l[k] m h (by simp [hlen]) (by simp [hk])
      obtain ⟨l2, e2, hl2, hj2⟩ := ih ((l.set (k + 1) l[k]).set k l[k + 1])
        (m.bump 0 (swap_cost m 1)) h (by omega) (by simpa using hk)
      refine ⟨l2, ?_, by simpa using hl2, ?_⟩
      · rw [shift_loop, if_neg e, es]
        simp only []
        rw [e2]
        have e3 : k + 1 - it = (k - it) + 1 := by omega
        rw [e3, swap_cost_succ m (k - it)]
        simp [Mem.eq_iff]
      · intro j
        rw [hj2 j]
        by_cases h1 : j = it
        · simp [h1, List.getElem?_set, hk, hlen]
        · simp only [h1, if_false]
          by_cases h2 : j = k + 1
          · subst h2
            have h3 : ¬ (it < k + 1 ∧ k + 1 ≤ k) := by omega
            have h4 : it < k + 1 ∧ k + 1 ≤ k + 1 := by omega
            simp [h3, h4, List.getElem?_set, hk, hlen]
          · by_cases h3 : it < j ∧ j ≤ k
            · have h4 : it < j ∧ j ≤ k + 1 := by omega
              have h5 : ¬ k = j - 1 := by omega
              have h6 : ¬ k + 1 = j - 1 := by omega
              simp [h3, h4, List.getElem?_set, h5, h6]
            · have h4 : ¬ (it < j ∧ j ≤ k + 1) := by omega
              have h5 : ¬ k = j := by omega
              have h6 : ¬ k + 1 = j := by omega
              simp [h3, h4, List.getElem?_set, h5, h6]

theorem shift_insert {α : Type} (d : List α) (x : α) (pos : Nat) (l2 : List α)
    (hpos : pos ≤ d.length)
    (hj : ∀ j, l2[j]? = if j = pos then (d ++ [x])[d.length]?
      else if pos < j ∧ j ≤ d.length then (d ++ [x])[j - 1]? else (d ++ [x])[j]?) :
    l2 = list_insert d pos x := by
  apply List.ext_getElem?
  intro j
  rw [hj j]
  unfold list_insert
  by_cases h1 : j = pos
  · subst h1
    have h4 : (List.take j d).length ≤ j := by simp
    rw [if_pos rfl, List.getElem?_append_right (le_refl _), List.getElem?_append_right h4]
    simp [hpos]
  · simp only [h1, if_false]
    by_cases h2 : pos < j ∧ j ≤ d.length
    · have h3 : j - 1 < d.length := by omega
      have h4 : (List.take pos d).length ≤ j := by simp; omega
      have h5 : j - min pos d.length = (j - pos - 1) + 1 := by simp [hpos]; omega
      have h6 : pos + (j - pos - 1) = j - 1 := by omega
      simp [h2, List.getElem?_append_left h3, List.getElem?_append_right h4, h5, h6]
    · simp only [h2, if_false]
      by_cases h3 : j < pos
      · have h4 : j < d.length := by omega
        have h5 : j < (List.take pos d).length := by simp; omega
        simp [List.getElem?_append_left h4, List.getElem?_append_left h5, List.getElem?_take, h3]
      · have h4 : d.length < j := by omega
        have h5 : (d ++ [x]).length ≤ j := by simp; omega
        have h6 : (List.take pos d ++ x :: List.drop pos d).length ≤ j := by simp; omega
        rw [List.getElem?_eq_none h5, List.getElem?_eq_none h6]

theorem insert_inline_inplace {α : Type} (N fuel pos : Nat) (x : α) (l : List α) (m : Mem α)
    (h : m.throw_at = none) (hl : l.length < N) (hpos : pos ≤ l.length) :
    insert N (fuel + 1) pos x (inline_vec l) m =
      .ok pos (inline_vec (list_insert l pos x),
        m.bump 0 (1 + swap_cost m (l.length - pos))) := by
  have hne : ¬ l.length = N := by omega
  have h1 : (m.bump 0 1).throw_at = none := h
  obtain ⟨l2, e2, hl2, hj2⟩ := shift_loop_ok pos l.length (l ++ [x]) (m.bump 0 1) h1 hpos
    (by simp)
  have e3 := shift_insert l x pos l2 hpos hj2
  subst e3
  simp only [insert, capacity_inline, is_linked_inline, inline_vec_size, hne, decide_False,
    Bool.or_self, Bool.false_eq_true, if_false, push_back_body_inline _ N x l m h hl,
    data_inline, cdata_inline, List.length_append, List.length_singleton,
    Nat.add_sub_cancel, e2, set_storage_inline]
  simp [Mem.eq_iff, inline_vec, list_insert_length]

theorem insert_unique_inplace {α : Type} (N fuel pos : Nat) (x : α) (m : Mem α)
    (p c : Nat) (d : List α) (hb : m.blocks p = some ⟨1, c, d⟩)
    (h : m.throw_at = none) (hl : d.length < c) (hpos : pos ≤ d.length) :
    insert N (fuel + 1) pos x (heap_vec d.length p) m =
      .ok pos (heap_vec (d.length + 1) p,
        (m.set_block p (some ⟨1, c, list_insert d pos x⟩)).bump 0
          (1 + swap_cost m (d.length - pos))) := by
  have hne : ¬ d.length = c := by omega
  have h1 : ((m.set_block p (some ⟨1, c, d ++ [x]⟩)).bump 0 1).throw_at = none := h
  have hb1 : ((m.set_block p (some ⟨1, c, d ++ [x]⟩)).bump 0 1).blocks p
      = some ⟨1, c, d ++ [x]⟩ := by simp
  obtain ⟨l2, e2, hl2, hj2⟩ := shift_loop_ok pos d.length (d ++ [x]) _ h1 hpos (by simp)
  have e3 := shift_insert d x pos l2 hpos hj2
  subst e3
  have hb2 : (((m.set_block p (some ⟨1, c, d ++ [x]⟩)).bump 0 1).bump 0
      (swap_cost ((m.set_block p (some ⟨1, c, d ++ [x]⟩)).bump 0 1) (d.length - pos))).blocks p
      = some ⟨1, c, d ++ [x]⟩ := by simp
  simp only [insert, capacity_heap N m _ p 1 c d hb, is_linked_heap m _ p 1 c d hb,
    heap_vec_size, hne, decide_False, lt_irrefl, Bool.or_self, Bool.false_eq_true, if_false,
    push_back_body_unique _ N x m p c d hb h hl,
    data_unique N _ p c _ _ hb1, cdata_heap _ _ p 1 c _ hb1, Nat.add_sub_cancel, e2,
    set_storage_heap _ _ p 1 c _ _ hb2]
  simp [Mem.eq_iff, swap_cost]
  intro q; split_ifs <;> rfl

theorem push_back_inline_full {α : Type} (N fuel : Nat) (x : α) (l : List α) (m : Mem α)
    (h : m.throw_at = none) (hl : l.length = N) (hN : 1 ≤ N) :
    push_back N (fuel + 1) x (inline_vec l) m =
      .ok () (heap_vec (l.length + 1) m.allocated,
        m.fresh ⟨1, N * 2, l ++ [x]⟩ (l.length + 1)) := by
  subst hl
  simp only [push_back, push_back_body, capacity_inline, is_linked_inline, inline_vec_size,
    decide_True, Bool.true_or, if_true,
    insert_inline_full l.length fuel l.length x l m h rfl hN (le_refl _)]
  simp [drop_ret, list_insert]

theorem push_back_heap_realloc {α : Type} (N fuel : Nat) (x : α) (m : Mem α)
    (p r c : Nat) (d : List α) (hb : m.blocks p = some ⟨r, c, d⟩) (hr : 1 ≤ r)
    (hp : p < m.allocated) (h : m.throw_at = none) (hc : 1 ≤ c) (hdc : d.length ≤ c)
    (hre : d.length = c ∨ 1 < r) :
    push_back N (fuel + 1) x (heap_vec d.length p) m =
      .ok () (heap_vec (d.length + 1) m.allocated,
        (m.release p).fresh ⟨1, if d.length = c then c * 2 else c, d ++ [x]⟩
          (d.length + 1)) := by
  have hcond : (decide (d.length = c) || decide (1 < r)) = true := by
    rcases hre with e | e <;> simp [e]
  simp only [push_back, push_back_body, capacity_heap N m _ p r c d hb,
    is_linked_heap m _ p r c d hb, heap_vec_size, hcond, if_true,
    insert_heap_realloc N fuel d.length x m p r c d hb hr hp h hc hdc hre (le_refl _)]
  simp [drop_ret, list_insert]

/-! ## `pop_back`, `erase` and element writes without an injected fault -/

theorem list_erase_length {α : Type} (l : List α) (f t : Nat) (hft : f ≤ t) (ht : t ≤ l.length) :
    (list_erase l f t).length = l.length - (t - f) := by
  simp [list_erase]; omega

theorem pop_back_body_inline {α : Type}
    (ers : Nat → Nat → socow_vector α → Mem α → Res (St α) Nat) (N : Nat) (l : List α)
    (m : Mem α) (hl : 1 ≤ l.length) :
    pop_back_body ers N (inline_vec l) m =
      .ok () (inline_vec (l.take (l.length - 1)), m) := by
  have hne : ¬ l.length = 0 := by omega
  have e : delete_vector_range l (l.length - 1) l.length = some (l.take (l.length - 1)) :=
    delete_tail l (l.length - 1) (by omega)
  simp only [pop_back_body, is_linked_inline, data_inline, inline_vec_size, hne, if_false,
    cdata_inline, Option.bind, e, set_storage_inline]
  simp [inline_vec]

theorem pop_back_body_unique {α : Type}
    (ers : Nat → Nat → socow_vector α → Mem α → Res (St α) Nat) (N : Nat)
    (m : Mem α) (p c : Nat) (d : List α) (hb : m.blocks p = some ⟨1, c, d⟩)
    (hl : 1 ≤ d.length) :
    pop_back_body ers N (heap_vec d.length p) m =
      .ok () (heap_vec (d.length - 1) p,
        m.set_block p (some ⟨1, c, d.take (d.length - 1)⟩)) := by
  have hne : ¬ d.length = 0 := by omega
  have e : delete_vector_range d (d.length - 1) d.length = some (d.take (d.length - 1)) :=
    delete_tail d (d.length - 1) (by omega)
  simp only [pop_back_body, is_linked_heap m _ p 1 c d hb, lt_irrefl, decide_False,
    data_unique N _ p c d m hb, heap_vec_size, hne, if_false, cdata_heap m _ p 1 c d hb,
    Option.bind, e, set_storage_heap m _ p 1 c d _ hb]
  simp [heap_vec]

theorem pop_back_k_inline {α : Type}
    (ers : Nat → Nat → socow_vector α → Mem α → Res (St α) Nat) (N : Nat) (m : Mem α)
    (k : Nat) : ∀ (l : List α), k ≤ l.length →
    pop_back_k (pop_back_body ers N) k (inline_vec l) m =
      .ok () (inline_vec (l.take (l.length - k)), m) := by
  induction k with
  | zero => intro l _; simp [pop_back_k]
  | succ k ih =>
    intro l hk
    rw [pop_back_k, pop_back_body_inline ers N l m (by omega)]
    simp only []
    rw [ih (l.take (l.length - 1)) (by simp; omega)]
    have e : min (l.length - 1) l.length - k = l.length - (k + 1) := by omega
    have e5 : l.length - 1 - k = l.length - (k + 1) := by omega
    have e6 : min (l.length - (k + 1)) (l.length - 1) = l.length - (k + 1) := by omega
    simp [List.take_take, e, e5, e6]

theorem pop_back_k_unique {α : Type}
    (ers : Nat → Nat → socow_vector α → Mem α → Res (St α) Nat) (N : Nat) (p c : Nat)
    (k : Nat) : ∀ (d : List α) (m : Mem α), m.blocks p = some ⟨1, c, d⟩ → k ≤ d.length →
    pop_back_k (pop_back_body ers N) k (heap_vec d.length p) m =
      .ok () (heap_vec (d.length - k) p,
        m.set_block p (some ⟨1, c, d.take (d.length - k)⟩)) := by
  induction k with
  | zero =>
    intro d m hb _
    simp [pop_back_k, Mem.eq_iff]
    intro q; split_ifs with hq
    · rw [hq, hb]
    · rfl
  | succ k ih =>
    intro d m hb hk
    have hb1 : (m.set_block p (some ⟨1, c, d.take (d.length - 1)⟩)).blocks p
        = some ⟨1, c, d.take (d.length - 1)⟩ := by simp
    have e1 : (d.take (d.length - 1)).length = d.length - 1 := by simp
    have ih1 := ih (d.take (d.length - 1)) _ hb1 (by rw [e1]; omega)
    rw [e1] at ih1
    rw [pop_back_k, pop_back_body_unique ers N m p c d hb (by omega)]
    simp only []
    rw [ih1]
    have e2 : d.length - 1 - k = d.length - (k + 1) := by omega
    have e3 : min (d.length - (k + 1)) (d.length - 1) = d.length - (k + 1) := by omega
    simp [List.take_take, e2, e3, Mem.eq_iff]
    intro q; split_ifs <;> rfl

theorem erase_loop_ok {α : Type} (n : Nat) : ∀ (r lft : Nat) (l : List α) (m : Mem α),
    m.throw_at = none → lft < r → r + n ≤ l.length →
    ∃ l2, erase_loop r lft n l m = (some (false, l2), m.bump 0 (swap_cost m n)) ∧
      l2.length = l.length ∧ (∀ j, j < lft → l2[j]? = l[j]?) ∧
      (∀ s, s < n → l2[lft + s]? = l[r + s]?) := by
  induction n with
  | zero =>
    intro r lft l m _ _ _
    exact ⟨l, by simp [erase_loop, swap_cost_zero], rfl, fun _ _ => rfl,
      fun s hs => absurd hs (by omega)⟩
  | succ n ih =>
    intro r lft l m h hlr hlen
    have hr : r < l.length := by omega
    have hl : lft < l.length := by omega
    have es := swap_elems_ok l r lft l[r] l[lft] m h (by simp [hr]) (by simp [hl])
    obtain ⟨l2, e2, hl2, hj2, hs2⟩ := ih (r + 1) (lft + 1) ((l.set r l[lft]).set lft l[r])
      (m.bump 0 (swap_cost m 1)) h (by omega) (by simp; omega)
    refine ⟨l2, ?_, by simpa using hl2, ?_, ?_⟩
    · rw [erase_loop, es]
      simp only []
      rw [e2, swap_cost_succ m n]
      simp [Mem.eq_iff]
    · intro j hj
      rw [hj2 j (by omega)]
      have h1 : ¬ lft = j := by omega
      have h2 : ¬ r = j := by omega
      simp [List.getElem?_set, h1, h2]
    · intro s hs
      cases s with
      | zero =>
        rw [Nat.add_zero, Nat.add_zero, hj2 lft (by omega)]
        simp [List.getElem?_set, hl, hr]
      | succ s =>
        have e3 : lft + (s + 1) = lft + 1 + s := by omega
        have e4 : r + (s + 1) = r + 1 + s := by omega
        rw [e3, e4, hs2 s (by omega)]
        have h1 : ¬ lft = r + 1 + s := by omega
        have h2 : ¬ r = r + 1 + s := by omega
        simp [List.getElem?_set, h1, h2]

theorem erase_take {α : Type} (d l2 : List α) (f t : Nat) (hft : f < t) (ht : t ≤ d.length)
    (hl2 : l2.length = d.length) (hj : ∀ j, j < f → l2[j]? = d[j]?)
    (hs : ∀ s, s < d.length - t → l2[f + s]? = d[t + s]?) :
    l2.take (d.length - (t - f)) = list_erase d f t := by
  apply List.ext_getElem?
  intro j
  unfold list_erase
  rw [List.getElem?_take]
  by_cases h1 : j < f
  · have h2 : j < d.length - (t - f) := by omega
    have h3 : j < (List.take f d).length := by simp; omega
    simp [h2, hj j h1, List.getElem?_append_left h3, List.getElem?_take, h1]
  · have h3 : (List.take f d).length ≤ j := by simp; omega
    have h4 : min f d.length = f := by omega
    by_cases h2 : j < d.length - (t - f)
    · have h5 := hs (j - f) (by omega)
      have h6 : f + (j - f) = j := by omega
      rw [h6] at h5
      simp [h2, h5, List.getElem?_append_right h3, h4]
    · have h5 : d.length ≤ t + (j - f) := by omega
      simp [h2, List.getElem?_append_right h3, h4, List.getElem?_eq_none h5]

theorem erase_inline {α : Type} (N fuel f t : Nat) (l : List α) (m : Mem α)
    (h : m.throw_at = none) (hft : f < t) (ht : t ≤ l.length) :
    erase N (fuel + 1) f t (inline_vec l) m =
      .ok f (inline_vec (list_erase l f t), m.bump 0 (swap_cost m (l.length - t))) := by
  have hne : ¬ f = t := by omega
  have hcond : ¬ (l.length < t ∨ t < f) := by omega
  obtain ⟨l2, e2, hl2, hj2, hs2⟩ := erase_loop_ok (l.length - t) t f l m h hft (by omega)
  have e3 := erase_take l l2 f t hft ht hl2 hj2 hs2
  have e4 := pop_back_k_inline (erase N fuel) N (m.bump 0 (swap_cost m (l.length - t)))
    (t - f) l2 (by omega)
  rw [hl2, e3] at e4
  have e5 : (⟨l.length, true, .small_array l2⟩ : socow_vector α) = inline_vec l2 := by
    simp [inline_vec, hl2]
  simp only [erase, hne, if_false, is_linked_inline, capacity_inline, data_inline,
    cdata_inline, inline_vec_size, hcond, e2, set_storage_inline, e5, e4]

theorem erase_unique {α : Type} (N fuel f t : Nat) (m : Mem α) (p c : Nat) (d : List α)
    (hb : m.blocks p = some ⟨1, c, d⟩) (h : m.throw_at = none) (hft : f < t)
    (ht : t ≤ d.length) :
    erase N (fuel + 1) f t (heap_vec d.length p) m =
      .ok f (heap_vec (d.length - (t - f)) p,
        (m.set_block p (some ⟨1, c, list_erase d f t⟩)).bump 0 (swap_cost m (d.length - t))) := by
  have hne : ¬ f = t := by omega
  have hcond : ¬ (d.length < t ∨ t < f) := by omega
  obtain ⟨l2, e2, hl2, hj2, hs2⟩ := erase_loop_ok (d.length - t) t f d m h hft (by omega)
  have e3 := erase_take d l2 f t hft ht hl2 hj2 hs2
  have hb1 : (m.bump 0 (swap_cost m (d.length - t))).blocks p = some ⟨1, c, d⟩ := hb
  have hb2 : ((m.bump 0 (swap_cost m (d.length - t))).set_block p (some ⟨1, c, l2⟩)).blocks p
      = some ⟨1, c, l2⟩ := by simp
  have e4 := pop_back_k_unique (erase N fuel) N p c (t - f) l2 _ hb2 (by omega)
  rw [hl2, e3] at e4
  have hb3 : (((m.bump 0 (swap_cost m (d.length - t))).set_block p (some ⟨1, c, l2⟩)).set_block p
      (some ⟨1, c, list_erase d f t⟩)).blocks p = some ⟨1, c, list_erase d f t⟩ := by simp
  simp only [erase, hne, if_false, is_linked_heap m _ p 1 c d hb, lt_irrefl, decide_False,
    capacity_heap N m _ p 1 c d hb, data_unique N _ p c d m hb, cdata_heap m _ p 1 c d hb,
    heap_vec_size, hcond, e2, set_storage_heap _ _ p 1 c d _ hb1, e4,
    data_unique N _ p c _ _ hb3]
  simp [Mem.eq_iff]
  intro q; split_ifs <;> rfl

theorem erase_shared {α : Type} (N fuel f t : Nat) (m : Mem α) (p r c : Nat) (d : List α)
    (hb : m.blocks p = some ⟨r, c, d⟩) (hr : 1 < r) (hp : p < m.allocated)
    (h : m.throw_at = none) (hdc : d.length ≤ c) (hft : f < t) (ht : t ≤ d.length) :
    erase N (fuel + 1) f t (heap_vec d.length p) m =
      .ok f (heap_vec (d.length - (t - f)) m.allocated,
        (m.release p).fresh ⟨1, c, list_erase d f t⟩ (d.length - (t - f))) := by
  have hne : ¬ f = t := by omega
  have hnp : p ≠ m.allocated := by omega
  have hf : f ≤ d.length := by omega
  have hb0 : (m.fresh ⟨1, c, d.take f⟩ f).blocks m.allocated = some ⟨1, c, d.take f⟩ := by simp
  have hb1 : (m.fresh ⟨1, c, d.take f⟩ f).blocks p = some ⟨r, c, d⟩ := by simp [hnp, hb]
  have h1 : (m.fresh ⟨1, c, d.take f⟩ f).throw_at = none := h
  have hlen : (d.take f).length = f := by simp [hf]
  have hpl := place_ok c (d.take f) (d.drop t) (by simp [hf]; omega)
  rw [hlen] at hpl
  have hb2 : ((m.fresh ⟨1, c, d.take f⟩ f).bump 0 (d.drop t).length).blocks m.allocated
      = some ⟨1, c, d.take f⟩ := by simp
  have hb3 : (((m.fresh ⟨1, c, d.take f⟩ f).bump 0 (d.drop t).length).set_block m.allocated
      (some ⟨1, c, d.take f ++ d.drop t⟩)).blocks m.allocated
      = some ⟨1, c, d.take f ++ d.drop t⟩ := by simp
  have hb4 : (((m.fresh ⟨1, c, d.take f⟩ f).bump 0 (d.drop t).length).set_block m.allocated
      (some ⟨1, c, d.take f ++ d.drop t⟩)).blocks p = some ⟨r, c, d⟩ := by simp [hnp, hb]
  simp only [erase, hne, if_false, is_linked_heap m _ p r c d hb, hr, decide_True,
    capacity_heap N m _ p r c d hb, cdata_heap m _ p r c d hb,
    construct_ok d f c m h hf (by omega), data_unique N _ m.allocated c _ _ hb0,
    cdata_heap _ _ p r c d hb1, Option.bind, heap_vec_size, slice_drop d t ht,
    cdata_heap _ _ m.allocated 1 c _ hb0, capacity_heap N _ _ m.allocated 1 c _ hb0,
    uc_ok _ _ h1, hpl, set_storage_heap _ _ m.allocated 1 c _ _ hb2]
  have e5 : (⟨f + (d.length - t), (heap_vec f m.allocated : socow_vector α)._is_small,
      (heap_vec f m.allocated : socow_vector α)._union⟩ : socow_vector α)
      = heap_vec (f + (d.length - t)) m.allocated := rfl
  simp only [e5, swap_heap_heap, data_unique N _ m.allocated c _ _ hb3,
    destroy_heap _ p r c d hb4 (by omega)]
  simp [Mem.eq_iff, heap_vec, list_erase, hnp]
  refine ⟨by omega, ?_, by omega⟩
  intro q; split_ifs <;> simp_all

theorem pop_back_inline {α : Type} (N fuel : Nat) (l : List α) (m : Mem α)
    (hl : 1 ≤ l.length) :
    pop_back N fuel (inline_vec l) m = .ok () (inline_vec (l.take (l.length - 1)), m) :=
  pop_back_body_inline _ N l m hl

theorem pop_back_unique {α : Type} (N fuel : Nat) (m : Mem α) (p c : Nat) (d : List α)
    (hb : m.blocks p = some ⟨1, c, d⟩) (hl : 1 ≤ d.length) :
    pop_back N fuel (heap_vec d.length p) m =
      .ok () (heap_vec (d.length - 1) p,
        m.set_block p (some ⟨1, c, d.take (d.length - 1)⟩)) :=
  pop_back_body_unique _ N m p c d hb hl

theorem pop_back_shared {α : Type} (N fuel : Nat) (m : Mem α) (p r c : Nat) (d : List α)
    (hb : m.blocks p = some ⟨r, c, d⟩) (hr : 1 < r) (hp : p < m.allocated)
    (h : m.throw_at = none) (hdc : d.length ≤ c) (hl : 1 ≤ d.length) :
    pop_back N (fuel + 1) (heap_vec d.length p) m =
      .ok () (heap_vec (d.length - 1) m.allocated,
        (m.release p).fresh ⟨1, c, d.take (d.length - 1)⟩ (d.length - 1)) := by
  have hne : ¬ d.length = 0 := by omega
  have e := erase_shared N fuel (d.length - 1) d.length m p r c d hb hr hp h hdc (by omega)
    (le_refl _)
  have e1 : d.length - (d.length - (d.length - 1)) = d.length - 1 := by omega
  rw [e1] at e
  simp only [pop_back, pop_back_body, is_linked_heap m _ p r c d hb, hr, decide_True,
    heap_vec_size, hne, if_false, e, drop_ret]
  simp [list_erase]

theorem erase_empty_inline {α : Type} (N fuel f : Nat) (l : List α) (m : Mem α) :
    erase N (fuel + 1) f f (inline_vec l) m = .ok f (inline_vec l, m) := by
  simp only [erase, if_true, data_inline]

theorem erase_empty_unique {α : Type} (N fuel f n : Nat) (m : Mem α) (p c : Nat) (d : List α)
    (hb : m.blocks p = some ⟨1, c, d⟩) :
    erase N (fuel + 1) f f (heap_vec n p) m = .ok f (heap_vec n p, m) := by
  simp only [erase, if_true, data_unique N n p c d m hb]

theorem erase_empty_shared {α : Type} (N fuel f : Nat) (m : Mem α) (p r c : Nat) (d : List α)
    (hb : m.blocks p = some ⟨r, c, d⟩) (hr : 1 < r) (hp : p < m.allocated)
    (h : m.throw_at = none) (hc : d.length ≤ c) :
    erase N (fuel + 1) f f (heap_vec d.length p) m =
      .ok f (heap_vec d.length m.allocated, (m.release p).fresh ⟨1, c, d⟩ d.length) := by
  simp only [erase, if_true, data_shared N m p r c d hb hr hp h hc]

theorem write_at_inline {α : Type} (N i : Nat) (x : α) (l : List α) (m : Mem α)
    (hi : i < l.length) :
    write_at N i x (inline_vec l) m = .ok () (inline_vec (l.set i x), m) := by
  simp only [write_at, data_inline, cdata_inline, hi, if_true, set_storage_inline]
  simp [inline_vec]

theorem write_at_unique {α : Type} (N i : Nat) (x : α) (m : Mem α) (p c : Nat) (d : List α)
    (hb : m.blocks p = some ⟨1, c, d⟩) (hi : i < d.length) :
    write_at N i x (heap_vec d.length p) m =
      .ok () (heap_vec d.length p, m.set_block p (some ⟨1, c, d.set i x⟩)) := by
  simp only [write_at, data_unique N _ p c d m hb, cdata_heap m _ p 1 c d hb, hi, if_true,
    set_storage_heap m _ p 1 c d _ hb]

theorem write_at_shared {α : Type} (N i : Nat) (x : α) (m : Mem α) (p r c : Nat) (d : List α)
    (hb : m.blocks p = some ⟨r, c, d⟩) (hr : 1 < r) (hp : p < m.allocated)
    (h : m.throw_at = none) (hc : d.length ≤ c) (hi : i < d.length) :
    write_at N i x (heap_vec d.length p) m =
      .ok () (heap_vec d.length m.allocated,
        (m.release p).fresh ⟨1, c, d.set i x⟩ d.length) := by
  have hb1 : ((m.release p).fresh ⟨1, c, d⟩ d.length).blocks m.allocated = some ⟨1, c, d⟩ := by
    simp
  simp only [write_at, data_shared N m p r c d hb hr hp h hc,
    cdata_heap _ _ m.allocated 1 c d hb1, hi, if_true,
    set_storage_heap _ _ m.allocated 1 c d _ hb1]
  simp [Mem.eq_iff]
  intro q; split_ifs <;> rfl

/-! ## `reserve` and `shrink_to_fit` without an injected fault -/

theorem reserve_noop {α : Type} (N n : Nat) (v : socow_vector α) (m : Mem α)
    (hn : n < v._size ∨ (v._is_small = true ∧ n ≤ N)) :
    reserve N n v m = .ok () (v, m) := by
  have hc : (decide (n < v._size) || (v._is_small && decide (n ≤ N))) = true := by
    rcases hn with e | ⟨e1, e2⟩
    · simp [e]
    · simp [e1, e2]
  simp only [reserve, hc, if_true]

theorem reserve_to_small {α : Type} (N n : Nat) (m : Mem α) (p r c : Nat) (d : List α)
    (hb : m.blocks p = some ⟨r, c, d⟩) (hr : 1 ≤ r) (h : m.throw_at = none)
    (hn1 : d.length ≤ n) (hn2 : n ≤ N) :
    reserve N n (heap_vec d.length p) m =
      .ok () (inline_vec d, (m.release p).bump 0 d.length) := by
  have hc : ¬ n < d.length := by omega
  simp only [reserve, heap_vec_size, heap_vec_is_small, hc, decide_False, Bool.false_and,
    Bool.or_self, Bool.false_eq_true, if_false, Bool.not_false, hn2, decide_True,
    Bool.and_self, if_true, to_small_heap N m p r c d hb hr h (by omega)]

theorem reserve_inline_grow {α : Type} (N n : Nat) (l : List α) (m : Mem α)
    (h : m.throw_at = none) (hl : l.length ≤ N) (hn : N < n) :
    reserve N n (inline_vec l) m =
      .ok () (heap_vec l.length m.allocated, m.fresh ⟨1, n, l⟩ l.length) := by
  have hc1 : ¬ n < l.length := by omega
  have hc2 : ¬ n ≤ N := by omega
  simp only [reserve, inline_vec_size, inline_vec_is_small, hc1, hc2, decide_False,
    Bool.and_false, Bool.or_self, Bool.false_eq_true, if_false, Bool.not_true,
    Bool.false_and, capacity_inline, hn, if_true,
    set_capacity_inline l n m h (by omega)]

theorem reserve_heap_realloc {α : Type} (N n : Nat) (m : Mem α) (p r c : Nat) (d : List α)
    (hb : m.blocks p = some ⟨r, c, d⟩) (hr : 1 ≤ r) (hp : p < m.allocated)
    (h : m.throw_at = none) (hn1 : d.length ≤ n) (hn2 : N < n) (hre : c < n ∨ 1 < r) :
    reserve N n (heap_vec d.length p) m =
      .ok () (heap_vec d.length m.allocated, (m.release p).fresh ⟨1, n, d⟩ d.length) := by
  have hc1 : ¬ n < d.length := by omega
  have hc2 : ¬ n ≤ N := by omega
  have e := set_capacity_heap m p r c d n hb hr hp h hn1
  simp only [reserve, heap_vec_size, heap_vec_is_small, hc1, hc2, decide_False,
    Bool.false_and, Bool.and_false, Bool.or_self, Bool.false_eq_true, if_false,
    Bool.not_false, capacity_heap N m _ p r c d hb, refs_count_heap m _ p r c d hb, e]
  rcases hre with e1 | e1
  · simp [e1]
  · simp [e1]

theorem reserve_heap_keep {α : Type} (N n k : Nat) (m : Mem α) (p c : Nat) (d : List α)
    (hb : m.blocks p = some ⟨1, c, d⟩) (hn1 : k ≤ n) (hn2 : N < n) (hn3 : n ≤ c) :
    reserve N n (heap_vec k p) m = .ok () (heap_vec k p, m) := by
  have hc1 : ¬ n < k := by omega
  have hc2 : ¬ n ≤ N := by omega
  have hc3 : ¬ c < n := by omega
  simp only [reserve, heap_vec_size, heap_vec_is_small, hc1, hc2, hc3, decide_False,
    Bool.false_and, Bool.and_false, Bool.or_self, Bool.false_eq_true, if_false,
    Bool.not_false, capacity_heap N m _ p 1 c d hb, refs_count_heap m _ p 1 c d hb,
    lt_irrefl]

theorem shrink_inline {α : Type} (N : Nat) (l : List α) (m : Mem α) :
    shrink_to_fit N (inline_vec l) m = .ok () (inline_vec l, m) := by
  simp only [shrink_to_fit, inline_vec_is_small, if_true]

theorem shrink_to_small {α : Type} (N : Nat) (m : Mem α) (p r c : Nat) (d : List α)
    (hb : m.blocks p = some ⟨r, c, d⟩) (hr : 1 ≤ r) (h : m.throw_at = none)
    (hn : d.length ≤ N) :
    shrink_to_fit N (heap_vec d.length p) m =
      .ok () (inline_vec d, (m.release p).bump 0 d.length) := by
  simp only [shrink_to_fit, heap_vec_is_small, Bool.false_eq_true, if_false, heap_vec_size,
    hn, if_true, to_small_heap N m p r c d hb hr h hn]

theorem shrink_realloc {α : Type} (N : Nat) (m : Mem α) (p r c : Nat) (d : List α)
    (hb : m.blocks p = some ⟨r, c, d⟩) (hr : 1 ≤ r) (hp : p < m.allocated)
    (h : m.throw_at = none) (hn : N < d.length) (hre : 1 < r ∨ d.length ≠ c) :
    shrink_to_fit N (heap_vec d.length p) m =
      .ok () (heap_vec d.length m.allocated, (m.release p).fresh ⟨1, d.length, d⟩ d.length) := by
  have hc : ¬ d.length ≤ N := by omega
  simp only [shrink_to_fit, heap_vec_is_small, Bool.false_eq_true, if_false, heap_vec_size,
    hc, refs_count_heap m _ p r c d hb, capacity_heap N m _ p r c d hb, hre, if_true,
    set_capacity_heap m p r c d d.length hb hr hp h (le_refl _)]

theorem shrink_keep {α : Type} (N : Nat) (m : Mem α) (p : Nat) (d : List α)
    (hb : m.blocks p = some ⟨1, d.length, d⟩) (hn : N < d.length) :
    shrink_to_fit N (heap_vec d.length p) m = .ok () (heap_vec d.length p, m) := by
  have hc : ¬ d.length ≤ N := by omega
  have hc2 : ¬ (1 < 1 ∨ d.length ≠ d.length) := by simp
  simp only [shrink_to_fit, heap_vec_is_small, Bool.false_eq_true, if_false, heap_vec_size,
    hc, refs_count_heap m _ p 1 d.length d hb, capacity_heap N m _ p 1 d.length d hb, hc2]

/-! ## The cuts in the call graph agree with the source -/

/-- The destructor of an inline vector is `delete_vector()`: `delete_vector(data(), size())`
with the mutable `data()`. -/
theorem destroy_eq {α : Type} (N : Nat) (v : socow_vector α) (m : Mem α)
    (h : v._is_small = true) :
    destroy v m = (delete_vector0 N v m).map (fun st => st.2) := by
  obtain ⟨n, s, u⟩ := v
  simp only at h
  subst h
  cases u with
  | small_array arr =>
    simp only [destroy, delete_vector0, data, cdata, Bool.not_true, Bool.false_eq_true,
      if_false, if_true, Option.bind]
    cases delete_vector_range arr 0 n <;> simp [set_storage]
  | ptr p =>
    simp [destroy, delete_vector0, data, cdata]

/-- Copy assignment from a Heap vector is the last branch of `operator=`. -/
theorem assign_from_heap {α : Type} (N : Nat) (this other : socow_vector α) (m : Mem α)
    (h : other._is_small = false) :
    assign N this other m =
      match assign_last this other m with
      | some st => .ok () st
      | none => .undefined := by
  simp only [assign, h, Bool.and_false, Bool.false_and, Bool.false_eq_true, if_false,
    Bool.not_false, Bool.and_true, Bool.true_and]

/-- The method `set_capacity` as written in the source: construct the temporary, assign it
to `*this` with `operator=`, destroy the temporary. -/
theorem set_capacity_eq {α : Type} (N : Nat) (capacity_ : Nat) (v : socow_vector α)
    (m : Mem α) :
    set_capacity capacity_ v m =
      match construct (cdata v m) v._size capacity_ m with
      | .ok tmp m1 =>
        match assign N v tmp m1 with
        | .ok _ (v2, m2) =>
          match destroy tmp m2 with
          | none => .undefined
          | some m3 => .ok () (v2, m3)
        | .throw (v2, m2) =>
          match destroy tmp m2 with
          | none => .undefined
          | some m3 => .throw (v2, m3)
        | .undefined => .undefined
        | .out_of_fuel => .out_of_fuel
      | .throw m1 => .throw (v, m1)
      | .undefined => .undefined
      | .out_of_fuel => .out_of_fuel := by
  have hs : ∀ tmp m1, construct (cdata v m) v._size capacity_ m = .ok tmp m1 →
      tmp._is_small = false := by
    intro tmp m1 h
    simp only [construct] at h
    split at h
    · cases h
    · split at h
      · cases h
      · split at h
        · cases h
          rfl
        · cases h
  cases hc : construct (cdata v m) v._size capacity_ m with
  | ok tmp m1 =>
    simp only [set_capacity, hc, assign_from_heap N v tmp m1 (hs tmp m1 hc)]
    cases assign_last v tmp m1 with
    | none => rfl
    | some st => rfl
  | throw m1 => simp only [set_capacity, hc]
  | undefined => simp only [set_capacity, hc]
  | out_of_fuel => simp only [set_capacity, hc]

/-- The copy constructor on an inline source runs the first branch of `operator=` on an
empty inline vector. -/
theorem copy_construct_small {α : Type} (N : Nat) (other : socow_vector α) (m : Mem α)
    (h : other._is_small = true) :
    copy_construct N other m =
      match assign_first N default_vector other m with
      | .ok _ (v, m1) => .ok v m1
      | .throw (_, m1) => .throw m1
      | .undefined => .undefined
      | .out_of_fuel => .out_of_fuel := by
  simp only [copy_construct, assign, default_vector, h, Bool.and_self, Nat.zero_le,
    decide_True, if_true]

/-! ## Copy assignment and copy construction (claims C2, C3) -/

theorem observe_inline {α : Type} (N : Nat) (l : List α) (m : Mem α) :
    observe N (inline_vec l) m = (l.length, true, some N, some l) := by
  simp [observe, size, is_small, capacity_inline, elems_inline]

theorem observe_heap {α : Type} (N : Nat) (m : Mem α) (p r c : Nat) (d : List α)
    (hb : m.blocks p = some ⟨r, c, d⟩) :
    observe N (heap_vec d.length p) m = (d.length, false, some c, some d) := by
  simp [observe, size, is_small, capacity_heap N m _ p r c d hb, elems_heap m p r c d hb]

/-- Copy assignment on well-formed distinct vectors, by cases on the two modes. -/
theorem assign_observe {α : Type} (N : Nat) (r s : socow_vector α) (m : Mem α)
    (hr : vwf N r m) (hs : vwf N s m) (hd : counted_apart r s m) (hm : m.throw_at = none) :
    ∃ r2 m2 l c, assign N r s m = .ok () (r2, m2) ∧
      observe N s m = (l.length, s._is_small, some c, some l) ∧
      observe N r2 m2 = observe N s m ∧ observe N s m2 = observe N s m := by
  rcases vwf_cases hs with ⟨k, rfl, hk⟩ | ⟨q, rq, cq, dq, rfl, hbq, hcq, hrq, hpq⟩
  · rcases vwf_cases hr with ⟨l, rfl, hl⟩ | ⟨p, rp, cp, dp, rfl, hbp, hcp, hrp, hpp⟩
    · by_cases hlk : l.length ≤ k.length
      · exact ⟨_, _, k, N, assign_inline_grow N l k m hm hlk hk, observe_inline N k m,
          by simp [observe_inline], by simp [observe_inline]⟩
      · exact ⟨_, _, k, N, assign_inline_shrink N l k m hm (by omega) hl,
          observe_inline N k m, by simp [observe_inline], by simp [observe_inline]⟩
    · exact ⟨_, _, k, N, assign_heap_inline N m p rp cp dp k hbp hrp hm hk,
        observe_inline N k m, by simp [observe_inline], by simp [observe_inline]⟩
  · rcases vwf_cases hr with ⟨l, rfl, hl⟩ | ⟨p, rp, cp, dp, rfl, hbp, hcp, hrp, hpp⟩
    · have hb2 : (m.share q).blocks q = some ⟨rq + 1, cq, dq⟩ := by simp [hbq]
      exact ⟨_, _, dq, cq, assign_inline_heap N l dq.length q m rq cq dq hbq,
        observe_heap N m q rq cq dq hbq,
        by rw [observe_heap N _ q _ cq dq hb2, observe_heap N m q rq cq dq hbq],
        by rw [observe_heap N _ q _ cq dq hb2, observe_heap N m q rq cq dq hbq]⟩
    · have h2 : p = q → 2 ≤ rp := by
        intro e
        subst e
        exact hd rfl rfl rfl p _ rfl hbp
      have hrel : ∃ r3, (m.release p).blocks q = some ⟨r3, cq, dq⟩ := by
        by_cases e : q = p
        · subst e
          rw [hbp] at hbq
          cases hbq
          have : rq ≠ 1 := by have := h2 rfl; omega
          exact ⟨rq - 1, by simp [hbp, released, this]⟩
        · exact ⟨rq, by simp [e, hbq]⟩
      obtain ⟨r3, hrel⟩ := hrel
      have hb2 : ((m.release p).share q).blocks q = some ⟨r3 + 1, cq, dq⟩ := by
        rw [share_blocks, if_pos rfl, hrel]
        rfl
      exact ⟨_, _, dq, cq, assign_heap_heap N m p rp cp dp dq.length q rq cq dq hbp hrp hbq h2,
        observe_heap N m q rq cq dq hbq,
        by rw [observe_heap N _ q _ cq dq hb2, observe_heap N m q rq cq dq hbq],
        by rw [observe_heap N _ q _ cq dq hb2, observe_heap N m q rq cq dq hbq]⟩

theorem vwf_default {α : Type} (N : Nat) (m : Mem α) : vwf N (default_vector : socow_vector α) m := by
  simp [vwf, default_vector]

theorem counted_apart_default {α : Type} (s : socow_vector α) (m : Mem α) :
    counted_apart default_vector s m := by
  intro h; simp [default_vector] at h

/-- C2: for a well-formed receiver `r` and a distinct well-formed source `s` (Inline or
Heap, unique or shared, in all four mode combinations), `r = s` returns normally; afterwards
the receiver has the size, mode, capacity and element sequence of `s`, and `s` still has
its own; copy construction from `s` is the assignment of `s` to a default-constructed
vector and gives the same observations. -/
theorem C2_copy_assignment {α : Type} (N : Nat) (r s : socow_vector α) (m : Mem α)
    (hr : vwf N r m) (hs : vwf N s m) (hd : counted_apart r s m) (hm : m.throw_at = none) :
    ∃ r2 m2 l c, assign N r s m = .ok () (r2, m2) ∧
      observe N s m = (l.length, s._is_small, some c, some l) ∧
      observe N r2 m2 = observe N s m ∧ observe N s m2 = observe N s m ∧
      ∃ t mt, copy_construct N s m = .ok t mt ∧
        assign N default_vector s m = .ok () (t, mt) ∧
        observe N t mt = observe N s m ∧ observe N s mt = observe N s m := by
  obtain ⟨r2, m2, l, c, e1, e2, e3, e4⟩ := assign_observe N r s m hr hs hd hm
  obtain ⟨t, mt, _, _, f1, _, f3, f4⟩ :=
    assign_observe N default_vector s m (vwf_default N m) hs (counted_apart_default s m) hm
  exact ⟨r2, m2, l, c, e1, e2, e3, e4, t, mt, by simp [copy_construct, f1], f1, f3, f4⟩

theorem C2_witness :
    vwf 4 (inline_vec [1, 2, 3]) (sample_mem 1) ∧ vwf 4 (heap_vec 5 0) (sample_mem 1) ∧
    counted_apart (inline_vec [1, 2, 3]) (heap_vec 5 0) (sample_mem 1) ∧
    (sample_mem 1).throw_at = none ∧
    ∃ r2 m2 l c, assign 4 (inline_vec [1, 2, 3]) (heap_vec 5 0) (sample_mem 1) = .ok () (r2, m2) ∧
      observe 4 (heap_vec 5 0) (sample_mem 1)
        = (l.length, (heap_vec 5 0 : socow_vector Nat)._is_small, some c, some l) ∧
      observe 4 r2 m2 = observe 4 (heap_vec 5 0) (sample_mem 1) ∧
      observe 4 (heap_vec 5 0) m2 = observe 4 (heap_vec 5 0) (sample_mem 1) ∧
      ∃ t mt, copy_construct 4 (heap_vec 5 0) (sample_mem 1) = .ok t mt ∧
        assign 4 default_vector (heap_vec 5 0) (sample_mem 1) = .ok () (t, mt) ∧
        observe 4 t mt = observe 4 (heap_vec 5 0) (sample_mem 1) ∧
        observe 4 (heap_vec 5 0) mt = observe 4 (heap_vec 5 0) (sample_mem 1) :=
  have h1 : vwf 4 (inline_vec [1, 2, 3]) (sample_mem 1) := by simp [vwf, inline_vec]
  have h2 : vwf 4 (heap_vec 5 0) (sample_mem 1) := by simp [vwf, heap_vec, sample_mem]
  have h3 : counted_apart (inline_vec [1, 2, 3]) (heap_vec 5 0) (sample_mem 1) := by
    intro h; simp [inline_vec] at h
  ⟨h1, h2, h3, rfl, C2_copy_assignment 4 _ _ _ h1 h2 h3 rfl⟩

/-- C3: for a well-formed Heap-mode source `s` on the block at `q` and a well-formed
receiver `r` that does not reference that block, `r = s` (and copy construction from `s`)
returns normally with the receiver in Heap mode on the same block `q`; the block's reference
count is exactly one larger, its capacity and elements are untouched, no element copy
constructor was called, and `is_linked()` holds for both vectors. -/
theorem C3_heap_copy_shares {α : Type} (N : Nat) (r s : socow_vector α) (m : Mem α)
    (q rc c : Nat) (d : List α) (hr : vwf N r m) (hs : vwf N s m)
    (hq : block_of s = some q) (hb : m.blocks q = some ⟨rc, c, d⟩)
    (hne : block_of r ≠ some q) :
    (∃ r2 m2, assign N r s m = .ok () (r2, m2) ∧ block_of r2 = some q ∧
      m2.blocks q = some ⟨rc + 1, c, d⟩ ∧ m2.copies = m.copies ∧
      is_linked r2 m2 = some true ∧ is_linked s m2 = some true) ∧
    (∃ t mt, copy_construct N s m = .ok t mt ∧ block_of t = some q ∧
      mt.blocks q = some ⟨rc + 1, c, d⟩ ∧ mt.copies = m.copies ∧
      is_linked t mt = some true ∧ is_linked s mt = some true) := by
  rcases vwf_cases hs with ⟨k, rfl, hk⟩ | ⟨q2, rq, cq, dq, rfl, hbq, hcq, hrq, hpq⟩
  · simp [block_of] at hq
  · have e : q2 = q := by simpa [block_of] using hq
    subst e
    rw [hb] at hbq
    cases hbq
    have hl : decide (1 < rc + 1) = true := by simp; omega
    have key : ∀ l : List α, ∃ r2 m2, assign N (inline_vec l) (heap_vec d.length q2) m
        = .ok () (r2, m2) ∧ block_of r2 = some q2 ∧
        m2.blocks q2 = some ⟨rc + 1, c, d⟩ ∧ m2.copies = m.copies ∧
        is_linked r2 m2 = some true ∧ is_linked (heap_vec d.length q2) m2 = some true := by
      intro l
      have hb2 : (m.share q2).blocks q2 = some ⟨rc + 1, c, d⟩ := by simp [hb]
      exact ⟨_, _, assign_inline_heap N l d.length q2 m rc c d hb, by simp [block_of], hb2, rfl,
        by rw [is_linked_heap _ _ q2 _ c d hb2, hl],
        by rw [is_linked_heap _ _ q2 _ c d hb2, hl]⟩
    constructor
    · rcases vwf_cases hr with ⟨l, rfl, _⟩ | ⟨p, rp, cp, dp, rfl, hbp, hcp, hrp, hpp⟩
      · exact key l
      · have hpq2 : p ≠ q2 := by
          intro e
          apply hne
          simp [block_of, e]
        have hqp : ¬ q2 = p := fun e => hpq2 e.symm
        have hb2 : ((m.release p).share q2).blocks q2 = some ⟨rc + 1, c, d⟩ := by
          simp [hqp, hb]
        exact ⟨_, _, assign_heap_heap N m p rp cp dp d.length q2 rc c d hbp hrp hb
            (fun e => absurd e hpq2), by simp [block_of], hb2, rfl,
          by rw [is_linked_heap _ _ q2 _ c d hb2, hl],
          by rw [is_linked_heap _ _ q2 _ c d hb2, hl]⟩
    · obtain ⟨r2, m2, e1, e2, e3, e4, e5, e6⟩ := key []
      have e0 : (default_vector : socow_vector α) = inline_vec [] := rfl
      exact ⟨r2, m2, by simp [copy_construct, e0, e1], e2, e3, e4, e5, e6⟩

theorem C3_witness :
    vwf 4 (heap_vec 3 1) sample_mem2 ∧ vwf 4 (heap_vec 5 0) sample_mem2 ∧
    block_of (heap_vec 5 0 : socow_vector Nat) = some 0 ∧
    sample_mem2.blocks 0 = some ⟨1, 8, [1, 2, 3, 4, 5]⟩ ∧
    block_of (heap_vec 3 1 : socow_vector Nat) ≠ some 0 ∧
    ((∃ r2 m2, assign 4 (heap_vec 3 1) (heap_vec 5 0) sample_mem2 = .ok () (r2, m2) ∧
      block_of r2 = some 0 ∧
      m2.blocks 0 = some ⟨1 + 1, 8, [1, 2, 3, 4, 5]⟩ ∧ m2.copies = sample_mem2.copies ∧
      is_linked r2 m2 = some true ∧ is_linked (heap_vec 5 0) m2 = some true) ∧
    (∃ t mt, copy_construct 4 (heap_vec 5 0) sample_mem2 = .ok t mt ∧ block_of t = some 0 ∧
      mt.blocks 0 = some ⟨1 + 1, 8, [1, 2, 3, 4, 5]⟩ ∧ mt.copies = sample_mem2.copies ∧
      is_linked t mt = some true ∧ is_linked (heap_vec 5 0) mt = some true)) :=
  have h1 : vwf 4 (heap_vec 3 1) sample_mem2 := by simp [vwf, heap_vec, sample_mem2]
  have h2 : vwf 4 (heap_vec 5 0) sample_mem2 := by simp [vwf, heap_vec, sample_mem2]
  have h3 : block_of (heap_vec 3 1 : socow_vector Nat) ≠ some 0 := by simp [block_of, heap_vec]
  ⟨h1, h2, rfl, rfl, h3, C3_heap_copy_shares 4 _ _ _ 0 1 8 [1, 2, 3, 4, 5] h1 h2 rfl rfl h3⟩

/-! ## `insert`, `erase` and `swap` in every state (claims C4, C5, C6) -/

theorem elems_heap_len {α : Type} (m : Mem α) (n p r c : Nat) (d : List α)
    (hb : m.blocks p = some ⟨r, c, d⟩) (hn : n = d.length) :
    elems (heap_vec n p) m = some d := by
  subst hn
  exact elems_heap m p r c d hb

/-- C4: for every well-formed vector (Inline, unique Heap or shared Heap, full or not) with
`capacity() >= 1`, every position `p <= size()` and every value `x`, `insert(begin()+p, x)`
returns normally for every recursion bound `fuel + 1`, the returned iterator is at index `p`,
the element sequence is the old one with `x` inserted before index `p`, and `size()` has
grown by exactly 1. -/
theorem C4_insert_is_list_insert {α : Type} (N fuel p : Nat) (x : α) (v : socow_vector α)
    (m : Mem α) (l : List α) (c : Nat) (hv : vwf N v m) (hm : m.throw_at = none)
    (hl : elems v m = some l) (hc : capacity N v m = some c) (hc1 : 1 ≤ c)
    (hp : p ≤ size v) :
    ∃ v2 m2, insert N (fuel + 1) p x v m = .ok p (v2, m2) ∧
      elems v2 m2 = some (list_insert l p x) ∧ size v2 = size v + 1 := by
  rcases vwf_cases hv with ⟨arr, rfl, harr⟩ | ⟨q, r, cq, d, rfl, hb, hdc, hr, hq⟩
  · rw [elems_inline] at hl
    cases hl
    rw [capacity_inline] at hc
    cases hc
    have hp2 : p ≤ l.length := hp
    by_cases hfull : l.length = N
    · exact ⟨_, _, insert_inline_full N fuel p x l m hm hfull hc1 hp2,
        elems_heap_len _ _ _ 1 (N * 2) _ (by simp) (by simp [list_insert_length]), rfl⟩
    · exact ⟨_, _, insert_inline_inplace N fuel p x l m hm (by omega) hp2,
        elems_inline _ _, by simp [size, list_insert_length]⟩
  · rw [elems_heap m q r cq d hb] at hl
    cases hl
    rw [capacity_heap N m _ q r cq l hb] at hc
    cases hc
    have hp2 : p ≤ l.length := hp
    by_cases hre : l.length = c ∨ 1 < r
    · exact ⟨_, _, insert_heap_realloc N fuel p x m q r c l hb hr hq hm hc1 hdc hre hp2,
        elems_heap_len _ _ _ 1 (if l.length = c then c * 2 else c) _ (by simp)
          (by simp [list_insert_length]), rfl⟩
    · have hr1 : r = 1 := by omega
      subst hr1
      exact ⟨_, _, insert_unique_inplace N fuel p x m q c l hb hm (by omega) hp2,
        elems_heap_len _ _ _ 1 c _ (by simp) (by simp [list_insert_length]), rfl⟩

theorem C4_witness :
    vwf 4 (heap_vec 5 0) (sample_mem 2) ∧ (sample_mem 2).throw_at = none ∧
    elems (heap_vec 5 0) (sample_mem 2) = some [1, 2, 3, 4, 5] ∧
    capacity 4 (heap_vec 5 0) (sample_mem 2) = some 8 ∧ 1 ≤ 8 ∧
    2 ≤ size (heap_vec 5 0 : socow_vector Nat) ∧
    ∃ v2 m2, insert 4 (0 + 1) 2 9 (heap_vec 5 0) (sample_mem 2) = .ok 2 (v2, m2) ∧
      elems v2 m2 = some (list_insert [1, 2, 3, 4, 5] 2 9) ∧
      size v2 = size (heap_vec 5 0 : socow_vector Nat) + 1 :=
  have h1 : vwf 4 (heap_vec 5 0) (sample_mem 2) := by simp [vwf, heap_vec, sample_mem]
  have h2 : elems (heap_vec 5 0) (sample_mem 2) = some [1, 2, 3, 4, 5] := by
    simp [elems, cdata, deref, heap_vec, sample_mem, slice]
  have h3 : capacity 4 (heap_vec 5 0) (sample_mem 2) = some 8 := by
    simp [capacity, deref, heap_vec, sample_mem]
  have h4 : 2 ≤ size (heap_vec 5 0 : socow_vector Nat) := by simp [size, heap_vec]
  ⟨h1, rfl, h2, h3, by decide, h4,
    C4_insert_is_list_insert 4 0 2 9 _ _ _ 8 h1 rfl h2 h3 (by decide) h4⟩

/-- C5: for every well-formed vector (Inline, unique Heap or shared Heap) and all indices
`f < t <= size()`, `erase(begin()+f, begin()+t)` returns normally for every recursion bound
`fuel + 1`, the returned iterator is at index `f`, the element sequence is the old one
without the elements at `[f, t)`, `size()` has dropped by exactly `t - f`, and when
the vector was sharing its block that block keeps its capacity and elements with a
reference count one smaller, so every other sharer still observes the original sequence. -/
theorem C5_erase_is_list_erase {α : Type} (N fuel f t : Nat) (v : socow_vector α)
    (m : Mem α) (l : List α) (hv : vwf N v m) (hm : m.throw_at = none)
    (hl : elems v m = some l) (hft : f < t) (ht : t ≤ size v) :
    ∃ v2 m2, erase N (fuel + 1) f t v m = .ok f (v2, m2) ∧
      elems v2 m2 = some (list_erase l f t) ∧ size v2 + (t - f) = size v ∧
      ∀ q r c d, block_of v = some q → m.blocks q = some ⟨r, c, d⟩ → 1 < r →
        m2.blocks q = some ⟨r - 1, c, d⟩ ∧
        ∀ w, block_of w = some q → size w = size v → observe N w m2 = observe N w m := by
  rcases vwf_cases hv with ⟨arr, rfl, harr⟩ | ⟨q, r, cq, d, rfl, hb, hdc, hr, hq⟩
  · rw [elems_inline] at hl
    cases hl
    have ht2 : t ≤ l.length := ht
    refine ⟨_, _, erase_inline N fuel f t l m hm hft ht2, elems_inline _ _, ?_, ?_⟩
    · simp [size, list_erase_length l f t (le_of_lt hft) ht2]; omega
    · intro q r c d hq
      simp [block_of] at hq
  · rw [elems_heap m q r cq d hb] at hl
    cases hl
    have ht2 : t ≤ l.length := ht
    by_cases hre : 1 < r
    · refine ⟨_, _, erase_shared N fuel f t m q r cq l hb hre hq hm hdc hft ht2,
        elems_heap_len _ _ _ 1 cq _ (by simp)
          (by simp [list_erase_length l f t (le_of_lt hft) ht2]), ?_, ?_⟩
      · simp [size]; omega
      · intro q2 r2 c2 d2 hq2 hb2 _
        have e : q = q2 := by simpa [block_of] using hq2
        subst e
        rw [hb] at hb2
        cases hb2
        have hne : q ≠ m.allocated := by omega
        have hr1 : r ≠ 1 := by omega
        have hb3 : ((m.release q).fresh ⟨1, cq, list_erase l f t⟩ (l.length - (t - f))).blocks q
            = some ⟨r - 1, cq, l⟩ := by simp [hne, hb, released, hr1]
        refine ⟨hb3, ?_⟩
        intro w hw hsz
        obtain ⟨n, s, u⟩ := w
        cases s
        · cases u with
          | small_array a => simp [block_of] at hw
          | ptr pw =>
            have e : pw = q := by simpa [block_of] using hw
            subst e
            have e2 : n = l.length := hsz
            subst e2
            exact (observe_heap N _ pw _ cq l hb3).trans (observe_heap N m pw r cq l hb).symm
        · simp [block_of] at hw
    · have hr1 : r = 1 := by omega
      subst hr1
      refine ⟨_, _, erase_unique N fuel f t m q cq l hb hm hft ht2,
        elems_heap_len _ _ _ 1 cq _ (by simp)
          (by simp [list_erase_length l f t (le_of_lt hft) ht2]), ?_, ?_⟩
      · simp [size]; omega
      · intro q2 r2 c2 d2 hq2 hb2 hr2
        have e : q = q2 := by simpa [block_of] using hq2
        subst e
        rw [hb] at hb2
        cases hb2
        omega

theorem C5_witness :
    vwf 4 (heap_vec 4 0) (sample_mem4 2) ∧ (sample_mem4 2).throw_at = none ∧
    elems (heap_vec 4 0) (sample_mem4 2) = some [1, 2, 3, 4] ∧ 1 < 2 ∧
    2 ≤ size (heap_vec 4 0 : socow_vector Nat) ∧
    ∃ v2 m2, erase 4 (0 + 1) 1 2 (heap_vec 4 0) (sample_mem4 2) = .ok 1 (v2, m2) ∧
      elems v2 m2 = some (list_erase [1, 2, 3, 4] 1 2) ∧
      size v2 + (2 - 1) = size (heap_vec 4 0 : socow_vector Nat) ∧
      ∀ q r c d, block_of (heap_vec 4 0 : socow_vector Nat) = some q →
        (sample_mem4 2).blocks q = some ⟨r, c, d⟩ → 1 < r →
        m2.blocks q = some ⟨r - 1, c, d⟩ ∧
        ∀ w, block_of w = some q → size w = size (heap_vec 4 0 : socow_vector Nat) →
          observe 4 w m2 = observe 4 w (sample_mem4 2) :=
  have h1 : vwf 4 (heap_vec 4 0) (sample_mem4 2) := by simp [vwf, heap_vec, sample_mem4]
  have h2 : elems (heap_vec 4 0) (sample_mem4 2) = some [1, 2, 3, 4] := by
    simp [elems, cdata, deref, heap_vec, sample_mem4, slice]
  have h4 : 2 ≤ size (heap_vec 4 0 : socow_vector Nat) := by simp [size, heap_vec]
  ⟨h1, rfl, h2, by decide, h4,
    C5_erase_is_list_erase 4 0 1 2 _ _ _ h1 rfl h2 (by decide) h4⟩

/-- C6: for every pair of distinct well-formed vectors `a` and `b` (Inline/Inline of any
two lengths, Heap/Heap, Inline/Heap, Heap/Inline), `a.swap(b)` returns normally; afterwards
`a` has the former size, mode, capacity and element sequence of `b` and `b` those of `a`,
a Heap side's block pointer has moved to the other vector, and no block of the heap has
changed, so no reference count has changed. -/
theorem C6_swap_exchanges {α : Type} (N : Nat) (a b : socow_vector α) (m : Mem α)
    (ha : vwf N a m) (hb : vwf N b m) (hm : m.throw_at = none) :
    ∃ a2 b2 m2, swap N a b m = .ok () (a2, b2, m2) ∧
      observe N a2 m2 = observe N b m ∧ observe N b2 m2 = observe N a m ∧
      block_of a2 = block_of b ∧ block_of b2 = block_of a ∧
      (∀ q, m2.blocks q = m.blocks q) ∧ m2.allocated = m.allocated := by
  rcases vwf_cases ha with ⟨l, rfl, hl⟩ | ⟨p, rp, cp, dp, rfl, hbp, hcp, hrp, hpp⟩
  · rcases vwf_cases hb with ⟨k, rfl, hk⟩ | ⟨q, rq, cq, dq, rfl, hbq, hcq, hrq, hpq⟩
    · obtain ⟨j, e⟩ := swap_inline_inline N l k m hm hl hk
      exact ⟨_, _, _, e, by simp [observe_inline], by simp [observe_inline], rfl, rfl,
        fun _ => rfl, rfl⟩
    · exact ⟨_, _, _, swap_inline_heap N l dq.length q m hm hl,
        (observe_heap N (m.bump 0 l.length) q rq cq dq hbq).trans
          (observe_heap N m q rq cq dq hbq).symm,
        by simp [observe_inline], rfl, rfl, fun _ => rfl, rfl⟩
  · rcases vwf_cases hb with ⟨k, rfl, hk⟩ | ⟨q, rq, cq, dq, rfl, hbq, hcq, hrq, hpq⟩
    · exact ⟨_, _, _, swap_heap_inline N dp.length p k m hm hk,
        by simp [observe_inline],
        (observe_heap N (m.bump 0 k.length) p rp cp dp hbp).trans
          (observe_heap N m p rp cp dp hbp).symm,
        rfl, rfl, fun _ => rfl, rfl⟩
    · exact ⟨_, _, _, swap_heap_heap N dp.length p dq.length q m, rfl, rfl, rfl, rfl,
        fun _ => rfl, rfl⟩

theorem C6_witness :
    vwf 4 (heap_vec 5 0) (sample_mem 1) ∧ vwf 4 (inline_vec [7, 8]) (sample_mem 1) ∧
    (sample_mem 1).throw_at = none ∧
    ∃ a2 b2 m2, swap 4 (heap_vec 5 0) (inline_vec [7, 8]) (sample_mem 1) = .ok () (a2, b2, m2) ∧
      observe 4 a2 m2 = observe 4 (inline_vec [7, 8]) (sample_mem 1) ∧
      observe 4 b2 m2 = observe 4 (heap_vec 5 0) (sample_mem 1) ∧
      block_of a2 = block_of (inline_vec [7, 8]) ∧
      block_of b2 = block_of (heap_vec 5 0 : socow_vector Nat) ∧
      (∀ q, m2.blocks q = (sample_mem 1).blocks q) ∧ m2.allocated = (sample_mem 1).allocated :=
  have h1 : vwf 4 (heap_vec 5 0) (sample_mem 1) := by simp [vwf, heap_vec, sample_mem]
  have h2 : vwf 4 (inline_vec [7, 8]) (sample_mem 1) := by simp [vwf, inline_vec]
  ⟨h1, h2, rfl, C6_swap_exchanges 4 _ _ _ h1 h2 rfl⟩

/-! ## Capacity under `reserve` (claim C10) -/

/-- A mutating operation on a vector that shares its block (reference count at least 2,
capacity at least 1) leaves the block with its capacity and elements and a reference count
one smaller, and the vector holds the result of the operation. -/
theorem shared_op_isolated {α : Type} (N fuel : Nat) (op : MutOp α) (m : Mem α)
    (p r c : Nat) (d : List α) (hb : m.blocks p = some ⟨r, c, d⟩) (hr : 1 < r)
    (hp : p < m.allocated) (hm : m.throw_at = none) (hc : 1 ≤ c) (hdc : d.length ≤ c)
    (hpre : op.pre d.length) :
    ∃ v2 m2, op.run N (fuel + 1) (heap_vec d.length p) m = .ok () (v2, m2) ∧
      m2.blocks p = some ⟨r - 1, c, d⟩ ∧ elems v2 m2 = some (op.spec d) := by
  have hne : p ≠ m.allocated := by omega
  have hr1 : r ≠ 1 := by omega
  have hrel : ∀ (b : dynamic_buffer α) (k : Nat),
      ((m.release p).fresh b k).blocks p = some ⟨r - 1, c, d⟩ := by
    intro b k
    simp [hne, hb, released, hr1]
  cases op with
  | push_back x =>
    exact ⟨_, _, push_back_heap_realloc N fuel x m p r c d hb (by omega) hp hm hc hdc
      (Or.inr hr), hrel _ _,
      elems_heap_len _ _ _ 1 (if d.length = c then c * 2 else c) (d ++ [x])
        (fresh_blocks_self _ _ _) (by simp)⟩
  | pop_back =>
    exact ⟨_, _, pop_back_shared N fuel m p r c d hb hr hp hm hdc hpre, hrel _ _,
      elems_heap_len _ _ _ 1 c (d.take (d.length - 1)) (fresh_blocks_self _ _ _) (by simp)⟩
  | insert q x =>
    have e := insert_heap_realloc N fuel q x m p r c d hb (by omega) hp hm hc hdc (Or.inr hr)
      hpre
    have e2 : (MutOp.insert q x).run N (fuel + 1) (heap_vec d.length p) m =
        .ok () (heap_vec (d.length + 1) m.allocated,
          (m.release p).fresh ⟨1, if d.length = c then c * 2 else c, list_insert d q x⟩
            (d.length + 1)) := by
      simp only [MutOp.run, e, drop_ret]
    exact ⟨_, _, e2, hrel _ _,
      elems_heap_len _ _ _ 1 (if d.length = c then c * 2 else c) (list_insert d q x)
        (fresh_blocks_self _ _ _) (by simp [list_insert_length])⟩
  | erase f t =>
    obtain ⟨hft, ht⟩ := hpre
    have e := erase_shared N fuel f t m p r c d hb hr hp hm hdc hft ht
    have e2 : (MutOp.erase f t).run N (fuel + 1) (heap_vec d.length p) m =
        .ok () (heap_vec (d.length - (t - f)) m.allocated,
          (m.release p).fresh ⟨1, c, list_erase d f t⟩ (d.length - (t - f))) := by
      simp only [MutOp.run, e, drop_ret]
    exact ⟨_, _, e2, hrel _ _,
      elems_heap_len _ _ _ 1 c (list_erase d f t) (fresh_blocks_self _ _ _)
        (by simp [list_erase_length d f t (le_of_lt hft) ht])⟩
  | clear =>
    exact ⟨_, _, clear_shared N m p r c d hb hr, by simp [hb, released, hr1],
      elems_inline _ _⟩
  | write i x =>
    exact ⟨_, _, write_at_shared N i x m p r c d hb hr hp hm hdc hpre, hrel _ _,
      elems_heap_len _ _ _ 1 c (d.set i x) (fresh_blocks_self _ _ _) (by simp)⟩

/-- Copy-on-write isolation for blocks of capacity at least 1: after `b = a` with `a` a
well-formed Heap vector, one mutating operation on `b` (within its precondition) returns
normally, `a` still observes its old size, capacity and elements and `b` holds the result of
the operation; the same with the operation applied to `a` and observed through `b`. -/
theorem cow_isolation {α : Type} (N fuel : Nat) (op : MutOp α) (a b0 : socow_vector α)
    (m : Mem α) (l : List α) (c : Nat) (ha : vwf N a m) (hb0 : vwf N b0 m)
    (hd : counted_apart b0 a m) (hsmall : is_small a = false) (hm : m.throw_at = none)
    (hl : elems a m = some l) (hcap : capacity N a m = some c) (hc : 1 ≤ c)
    (hpre : op.pre l.length) :
    ∃ b m1, assign N b0 a m = .ok () (b, m1) ∧ observe N b m1 = observe N a m ∧
      (∃ b2 m2, op.run N (fuel + 1) b m1 = .ok () (b2, m2) ∧
        observe N a m2 = observe N a m ∧ elems b2 m2 = some (op.spec l)) ∧
      (∃ a2 m2, op.run N (fuel + 1) a m1 = .ok () (a2, m2) ∧
        observe N b m2 = observe N a m ∧ elems a2 m2 = some (op.spec l)) := by
  rcases vwf_cases ha with ⟨arr, rfl, _⟩ | ⟨q, r, cq, d, rfl, hbq, hdc, hr, hq⟩
  · simp [is_small] at hsmall
  · rw [elems_heap m q r cq d hbq] at hl
    cases hl
    rw [capacity_heap N m _ q r cq l hbq] at hcap
    cases hcap
    have key : ∀ m1 : Mem α, (∃ r1, m1.blocks q = some ⟨r1 + 2, c, l⟩) →
        m1.allocated = m.allocated → m1.throw_at = none →
        observe N (heap_vec l.length q) m1 = observe N (heap_vec l.length q) m ∧
        ∃ b2 m2, op.run N (fuel + 1) (heap_vec l.length q) m1 = .ok () (b2, m2) ∧
          observe N (heap_vec l.length q) m2 = observe N (heap_vec l.length q) m ∧
          elems b2 m2 = some (op.spec l) := by
      rintro m1 ⟨r1, hb1⟩ ha1 ht1
      obtain ⟨b2, m2, e1, e2, e3⟩ := shared_op_isolated N fuel op m1 q (r1 + 2) c l hb1
        (by omega) (by omega) ht1 hc hdc hpre
      exact ⟨(observe_heap N m1 q _ c l hb1).trans (observe_heap N m q r c l hbq).symm,
        b2, m2, e1, (observe_heap N m2 q _ c l e2).trans (observe_heap N m q r c l hbq).symm, e3⟩
    rcases vwf_cases hb0 with ⟨k, rfl, _⟩ | ⟨p, rp, cp, dp, rfl, hbp, hcp, hrp, hpp⟩
    · have hb1 : ∃ r1, (m.share q).blocks q = some ⟨r1 + 2, c, l⟩ :=
        ⟨r - 1, by simp [hbq]; omega⟩
      obtain ⟨o1, b2, m2, e1, e2, e3⟩ := key (m.share q) hb1 rfl hm
      exact ⟨_, _, assign_inline_heap N k l.length q m r c l hbq, o1,
        ⟨b2, m2, e1, e2, e3⟩, ⟨b2, m2, e1, e2, e3⟩⟩
    · have h2 : p = q → 2 ≤ rp := by
        intro e
        subst e
        exact hd rfl rfl rfl p _ rfl hbp
      have hb1 : ∃ r1, ((m.release p).share q).blocks q = some ⟨r1 + 2, c, l⟩ := by
        by_cases e : q = p
        · subst e
          rw [hbp] at hbq
          cases hbq
          have h3 := h2 rfl
          have h4 : r ≠ 1 := by omega
          exact ⟨r - 2, by simp [hbp, released, h4]; omega⟩
        · exact ⟨r - 1, by simp [e, hbq]; omega⟩
      obtain ⟨o1, b2, m2, e1, e2, e3⟩ := key ((m.release p).share q) hb1 rfl hm
      exact ⟨_, _, assign_heap_heap N m p rp cp dp l.length q r c l hbp hrp hbq h2, o1,
        ⟨b2, m2, e1, e2, e3⟩, ⟨b2, m2, e1, e2, e3⟩⟩

/-- With capacity 0 the reallocating path of `insert` asks for a block of capacity
`0 * 2 = 0`, whose `push_back` calls `insert` again: no recursion bound suffices. -/
theorem insert_capacity_zero {α : Type} (N : Nat) (x : α) (fuel : Nat) :
    ∀ (m : Mem α) (p r : Nat), m.blocks p = some ⟨r, 0, []⟩ →
      insert N fuel 0 x (heap_vec 0 p) m = .out_of_fuel := by
  induction fuel with
  | zero => intro m p r _; rfl
  | succ fuel ih =>
    intro m p r hb
    have hb1 : (create_ptr 0 m).2.blocks m.allocated = some ⟨1, 0, []⟩ := by
      simp [create_ptr]
    have hb2 : ((create_ptr 0 m).2.set_block m.allocated (some ⟨1, 0, []⟩)).blocks m.allocated
        = some ⟨1, 0, []⟩ := by simp
    have e1 : construct (cdata (heap_vec 0 p) m) 0 (0 * 2) m = .ok (heap_vec 0 m.allocated)
        ((create_ptr 0 m).2.set_block m.allocated (some ⟨1, 0, []⟩)) := by
      rw [cdata_heap m 0 p r 0 [] hb]
      simp [construct, slice, uninitialized_copy, create_ptr, heap_vec]
    have e2 : push_back_body (insert N fuel) N x (heap_vec 0 m.allocated)
        ((create_ptr 0 m).2.set_block m.allocated (some ⟨1, 0, []⟩)) = .out_of_fuel := by
      simp only [push_back_body, capacity_heap N _ 0 _ 1 0 [] hb2,
        is_linked_heap _ 0 _ 1 0 [] hb2, heap_vec_size, decide_True, Bool.true_or, if_true,
        ih _ m.allocated 1 hb2, drop_ret]
    simp only [insert, capacity_heap N m 0 p r 0 [] hb, is_linked_heap m 0 p r 0 [] hb,
      heap_vec_size, decide_True, Bool.true_or, if_true, e1, e2]

/-- C1 at the failing input: `a` is the Heap vector built by the raw constructor with
length 0 and capacity 0, `b` is copy-constructed from `a`, and `b.push_back(7)` does not
return under any recursion bound. -/
theorem C1_push_back_capacity_zero_diverges :
    ∃ a m1 b m2, construct (some []) 0 0 empty_mem = .ok a m1 ∧ is_small a = false ∧
      copy_construct 4 a m1 = .ok b m2 ∧
      ∀ fuel, push_back 4 fuel 7 b m2 = .out_of_fuel := by
  have hb : (empty_mem.fresh ⟨1, 0, []⟩ 0).blocks 0 = some ⟨1, 0, []⟩ := rfl
  have hb2 : ((empty_mem.fresh ⟨1, 0, []⟩ 0).share 0).blocks 0 = some ⟨2, 0, []⟩ := rfl
  refine ⟨heap_vec 0 0, empty_mem.fresh ⟨1, 0, []⟩ 0, heap_vec 0 0,
    (empty_mem.fresh ⟨1, 0, []⟩ 0).share 0, ?_, rfl, ?_, ?_⟩
  · exact construct_ok [] 0 0 empty_mem rfl (le_refl _) (le_refl _)
  · have e := assign_inline_heap 4 [] 0 0 (empty_mem.fresh ⟨1, 0, []⟩ 0) 1 0 [] hb
    have e0 : (default_vector : socow_vector Nat) = inline_vec [] := rfl
    simp only [copy_construct, e0, e]
  · intro fuel
    simp only [push_back, push_back_body, capacity_heap 4 _ 0 0 2 0 [] hb2,
      is_linked_heap _ 0 0 2 0 [] hb2, heap_vec_size, decide_True, Bool.true_or, if_true,
      insert_capacity_zero 4 7 fuel _ 0 2 hb2, drop_ret]

/-! ## Counting the vectors on a block -/

theorem refs_in_cons {α : Type} (p : Nat) (v : socow_vector α) (vs : List (socow_vector α)) :
    refs_in p (v :: vs) = on_block v p + refs_in p vs := rfl

theorem refs_in_append {α : Type} (p : Nat) (vs ws : List (socow_vector α)) :
    refs_in p (vs ++ ws) = refs_in p vs + refs_in p ws := by
  induction vs with
  | nil => simp [refs_in]
  | cons v vs ih => simp [refs_in_cons, ih]; omega

theorem refs_in_single {α : Type} (p : Nat) (v : socow_vector α) :
    refs_in p [v] = on_block v p := by
  simp [refs_in, on_block]

theorem refs_in_set {α : Type} (p : Nat) (v2 : socow_vector α) :
    ∀ (vs : List (socow_vector α)) (i : Nat) (h : i < vs.length),
      refs_in p (vs.set i v2) + on_block vs[i] p = refs_in p vs + on_block v2 p := by
  intro vs
  induction vs with
  | nil => intro i h; simp at h
  | cons v vs ih =>
    intro i h
    cases i with
    | zero => simp [refs_in_cons]; omega
    | succ i =>
      have := ih i (by simpa using h)
      simp [refs_in_cons] at this ⊢
      omega

theorem refs_in_eraseIdx {α : Type} (p : Nat) :
    ∀ (vs : List (socow_vector α)) (i : Nat) (h : i < vs.length),
      refs_in p (vs.eraseIdx i) + on_block vs[i] p = refs_in p vs := by
  intro vs
  induction vs with
  | nil => intro i h; simp at h
  | cons v vs ih =>
    intro i h
    cases i with
    | zero => simp [refs_in_cons]; omega
    | succ i =>
      have := ih i (by simpa using h)
      simp [refs_in_cons] at this ⊢
      omega

theorem on_block_le_refs_in {α : Type} (p : Nat) :
    ∀ (vs : List (socow_vector α)) (i : Nat) (h : i < vs.length),
      on_block vs[i] p ≤ refs_in p vs := by
  intro vs
  induction vs with
  | nil => intro i h; simp at h
  | cons v vs ih =>
    intro i h
    cases i with
    | zero => simp [refs_in_cons]
    | succ i =>
      have := ih i (by simpa using h)
      simp [refs_in_cons] at this ⊢
      omega

theorem refs_in_two {α : Type} (p : Nat) :
    ∀ (vs : List (socow_vector α)) (i j : Nat) (hi : i < vs.length) (hj : j < vs.length),
      i ≠ j → on_block vs[i] p + on_block vs[j] p ≤ refs_in p vs := by
  intro vs
  induction vs with
  | nil => intro i j hi; simp at hi
  | cons v vs ih =>
    intro i j hi hj hij
    cases i with
    | zero =>
      cases j with
      | zero => exact absurd rfl hij
      | succ j =>
        have h1 := on_block_le_refs_in p vs j (by simpa using hj)
        simp [refs_in_cons] at h1 ⊢
        omega
    | succ i =>
      cases j with
      | zero =>
        have h1 := on_block_le_refs_in p vs i (by simpa using hi)
        simp [refs_in_cons] at h1 ⊢
        omega
      | succ j =>
        have := ih i j (by simpa using hi) (by simpa using hj) (by omega)
        simp [refs_in_cons] at this ⊢
        omega

theorem refs_in_zero {α : Type} (p : Nat) (vs : List (socow_vector α))
    (h : ∀ v, v ∈ vs → block_of v ≠ some p) : refs_in p vs = 0 := by
  induction vs with
  | nil => rfl
  | cons v vs ih =>
    have h1 : on_block v p = 0 := by simp [on_block, h v (by simp)]
    rw [refs_in_cons, h1, ih (fun w hw => h w (by simp [hw]))]

theorem on_block_inline {α : Type} (l : List α) (p : Nat) : on_block (inline_vec l) p = 0 := by
  simp [on_block, block_of]

theorem on_block_heap {α : Type} (n q p : Nat) :
    on_block (heap_vec n q : socow_vector α) p = if q = p then 1 else 0 := by
  simp [on_block, block_of]

theorem block_of_lt {α : Type} (N : Nat) (v : socow_vector α) (m : Mem α) (q : Nat)
    (hv : vwf N v m) (hq : block_of v = some q) : q < m.allocated := by
  rcases vwf_cases hv with ⟨l, rfl, _⟩ | ⟨p, r, c, d, rfl, hb, _, _, hp⟩
  · simp [block_of] at hq
  · have : p = q := by simpa [block_of] using hq
    omega

/-- Well-formedness only depends on the block the vector is on. -/
theorem vwf_transfer {α : Type} (N : Nat) (v : socow_vector α) (m m2 : Mem α)
    (hv : vwf N v m) (ha : m.allocated ≤ m2.allocated)
    (hb : ∀ q b, block_of v = some q → m.blocks q = some b →
      ∃ r2, 1 ≤ r2 ∧ m2.blocks q = some ⟨r2, b._capacity, b._data⟩) : vwf N v m2 := by
  rcases vwf_cases hv with ⟨l, rfl, hl⟩ | ⟨p, r, c, d, rfl, hbp, hdc, hr, hp⟩
  · exact (vwf_inline N l m2).mpr hl
  · obtain ⟨r2, hr2, e⟩ := hb p _ (by simp [block_of]) hbp
    exact (vwf_heap N d.length p m2 r2 c d e).mpr ⟨rfl, hdc, hr2, by omega⟩

/-! ## The invariant is kept by a call on one vector -/

theorem mem_set_cases {α : Type} (vs : List (socow_vector α)) (i : Nat) (v2 w : socow_vector α)
    (hw : w ∈ vs.set i v2) :
    w = v2 ∨ ∃ j, ∃ h : j < vs.length, j ≠ i ∧ vs[j] = w := by
  obtain ⟨j, hj, e⟩ := List.mem_iff_getElem.mp hw
  have hj2 : j < vs.length := by simpa using hj
  rw [List.getElem_set] at e
  by_cases hij : i = j
  · left
    rw [if_pos hij] at e
    exact e.symm
  · right
    rw [if_neg hij] at e
    exact ⟨j, hj2, fun h => hij h.symm, e⟩

theorem list_set_self {α : Type} (vs : List α) (i : Nat) (h : i < vs.length) :
    vs.set i vs[i] = vs := by
  apply List.ext_getElem?
  intro j
  by_cases e : i = j
  · subst e
    simp [h]
  · simp [List.getElem?_set, e]

theorem on_block_eq_one {α : Type} (v : socow_vector α) (p : Nat) :
    on_block v p = 1 ↔ block_of v = some p := by
  simp [on_block]

theorem on_block_eq_zero {α : Type} (v : socow_vector α) (p : Nat) :
    on_block v p = 0 ↔ block_of v ≠ some p := by
  simp [on_block]

theorem winv_update {α : Type} (N : Nat) (vs : List (socow_vector α)) (m : Mem α) (i : Nat)
    (hi : i < vs.length) (v v2 : socow_vector α) (m2 : Mem α) (hv : vs[i] = v)
    (hw : winv N ⟨vs, m⟩) (he : Eff N v m v2 m2) : winv N ⟨vs.set i v2, m2⟩ := by
  obtain ⟨hwf, hcnt, hth⟩ := hw
  simp only at hwf hcnt hth
  have hvwf : vwf N v m := hv ▸ hwf _ (List.getElem_mem hi)
  have hset : ∀ q, refs_in q (vs.set i v2) + on_block v q = refs_in q vs + on_block v2 q := by
    intro q
    rw [← hv]
    exact refs_in_set q v2 vs i hi
  have hother : ∀ q j (h : j < vs.length), j ≠ i → on_block v q = 1 → refs_in q vs = 1 →
      block_of vs[j] ≠ some q := by
    intro q j h hji h1 h2
    have h3 := refs_in_two q vs i j hi h (fun e => hji e.symm)
    rw [hv, h1, h2] at h3
    rw [← on_block_eq_zero]
    omega
  cases he with
  | keep =>
    have e : vs.set i v = vs := by
      rw [← hv]
      exact list_set_self vs i hi
    rw [e]
    exact ⟨hwf, hcnt, hth⟩
  | inline l l2 _ k hl2 =>
    refine ⟨?_, ?_, hth⟩
    · intro w hw
      rcases mem_set_cases vs i _ w hw with rfl | ⟨j, hj, _, rfl⟩
      · exact (vwf_inline N l2 _).mpr hl2
      · exact vwf_transfer N _ m _ (hwf _ (List.getElem_mem hj)) (le_refl _)
          (fun q b _ hb => ⟨b._refs_count, (hcnt q b hb).2, hb⟩)
    · intro q b hb
      have h1 := hset q
      rw [on_block_inline, on_block_inline] at h1
      simp only [Nat.add_zero] at h1
      rw [h1]
      exact hcnt q b hb
  | inplace n n2 p _ c d d2 k hb hn hc =>
    have hp : p < m.allocated := block_of_lt N _ m p hvwf (by simp [block_of])
    have hr1 : refs_in p vs = 1 := ((hcnt p _ hb).1).symm
    refine ⟨?_, ?_, hth⟩
    · intro w hw
      rcases mem_set_cases vs i _ w hw with rfl | ⟨j, hj, hji, rfl⟩
      · exact (vwf_heap N n2 p _ 1 c d2 (by simp)).mpr ⟨hn, hc, le_refl _, hp⟩
      · have hne := hother p j hj hji (by simp [on_block_heap]) hr1
        refine vwf_transfer N _ m _ (hwf _ (List.getElem_mem hj)) (le_refl _) ?_
        intro q b hq hbq
        have hqp : q ≠ p := fun e => hne (e ▸ hq)
        exact ⟨b._refs_count, (hcnt q b hbq).2, by simp [hqp, hbq]⟩
    · intro q b hbq
      have h1 := hset q
      rw [on_block_heap, on_block_heap] at h1
      have h2 : refs_in q (vs.set i (heap_vec n2 p)) = refs_in q vs := by omega
      rw [h2]
      by_cases hqp : q = p
      · subst hqp
        have e : b = ⟨1, c, d2⟩ := by simpa using hbq.symm
        subst e
        exact ⟨hr1.symm, le_refl _⟩
      · exact hcnt q b (by simpa [hqp] using hbq)
  | grow l n2 _ c2 d2 k hn hc =>
    have hfresh : refs_in m.allocated vs = 0 := by
      apply refs_in_zero
      intro w hw hq
      have := block_of_lt N w m _ (hwf w hw) hq
      omega
    refine ⟨?_, ?_, hth⟩
    · intro w hw
      rcases mem_set_cases vs i _ w hw with rfl | ⟨j, hj, hji, rfl⟩
      · exact (vwf_heap N n2 _ _ 1 c2 d2 (by simp)).mpr
          ⟨hn, hc, le_refl _, by simp⟩
      · refine vwf_transfer N _ m _ (hwf _ (List.getElem_mem hj)) (by simp) ?_
        intro q b hq hbq
        have hlt := block_of_lt N _ m q (hwf _ (List.getElem_mem hj)) hq
        have hqa : q ≠ m.allocated := by omega
        exact ⟨b._refs_count, (hcnt q b hbq).2, by simp [hqa, hbq]⟩
    · intro q b hbq
      have h1 := hset q
      rw [on_block_inline, on_block_heap] at h1
      by_cases hqa : q = m.allocated
      · subst hqa
        have e : b = ⟨1, c2, d2⟩ := by simpa using hbq.symm
        subst e
        simp only [if_true] at h1
        exact ⟨by simp only; omega, le_refl _⟩
      · have hqa2 : ¬ m.allocated = q := fun e => hqa e.symm
        rw [if_neg hqa2] at h1
        have h2 : refs_in q (vs.set i (heap_vec n2 m.allocated)) = refs_in q vs := by omega
        rw [h2]
        exact hcnt q b (by simpa [hqa] using hbq)
  | realloc n n2 p _ c2 d2 k hn hc =>
    have hp : p < m.allocated := block_of_lt N _ m p hvwf (by simp [block_of])
    have hpa : p ≠ m.allocated := by omega
    have hfresh : refs_in m.allocated vs = 0 := by
      apply refs_in_zero
      intro w hw hq
      have := block_of_lt N w m _ (hwf w hw) hq
      omega
    obtain ⟨bp, hbp⟩ : ∃ bp, m.blocks p = some bp := by
      rcases vwf_cases hvwf with ⟨l, e, _⟩ | ⟨p2, r, c, d, e, hb, _, _, _⟩
      · simp [heap_vec, inline_vec] at e
      · have : p = p2 := (by simpa [heap_vec] using e : _ ∧ _).2
        subst this
        exact ⟨_, hb⟩
    have hrp := hcnt p bp hbp
    refine ⟨?_, ?_, hth⟩
    · intro w hw
      rcases mem_set_cases vs i _ w hw with rfl | ⟨j, hj, hji, rfl⟩
      · exact (vwf_heap N n2 _ _ 1 c2 d2 (by simp)).mpr
          ⟨hn, hc, le_refl _, by simp⟩
      · refine vwf_transfer N _ m _ (hwf _ (List.getElem_mem hj)) (by simp) ?_
        intro q b hq hbq
        have hlt := block_of_lt N _ m q (hwf _ (List.getElem_mem hj)) hq
        have hqa : q ≠ m.allocated := by omega
        by_cases hqp : q = p
        · subst hqp
          rw [hbp] at hbq
          cases hbq
          have h3 := refs_in_two q vs i j hi hj (fun e => hji e.symm)
          rw [hv, on_block_heap, if_pos rfl, (on_block_eq_one _ _).mpr hq] at h3
          have hne : bp._refs_count ≠ 1 := by omega
          exact ⟨bp._refs_count - 1, by omega, by simp [hqa, hbp, released, hne]⟩
        · exact ⟨b._refs_count, (hcnt q b hbq).2, by simp [hqa, hqp, hbq]⟩
    · intro q b hbq
      have h1 := hset q
      rw [on_block_heap, on_block_heap] at h1
      by_cases hqa : q = m.allocated
      · subst hqa
        have e : b = ⟨1, c2, d2⟩ := by simpa using hbq.symm
        subst e
        rw [if_neg hpa, if_pos rfl] at h1
        exact ⟨by simp only; omega, le_refl _⟩
      · have hqa2 : ¬ m.allocated = q := fun e => hqa e.symm
        rw [if_neg hqa2] at h1
        by_cases hqp : q = p
        · subst hqp
          rw [if_pos rfl] at h1
          have e : (released bp) = some b := by simpa [hqa, hbp] using hbq
          unfold released at e
          split_ifs at e with h5
          cases e
          simp only
          omega
        · have hqp2 : ¬ p = q := fun e => hqp e.symm
          rw [if_neg hqp2] at h1
          have h2 : refs_in q (vs.set i (heap_vec n2 m.allocated)) = refs_in q vs := by omega
          rw [h2]
          exact hcnt q b (by simpa [hqa, hqp] using hbq)
  | to_inline n p _ l2 k hl2 =>
    obtain ⟨bp, hbp⟩ : ∃ bp, m.blocks p = some bp := by
      rcases vwf_cases hvwf with ⟨l, e, _⟩ | ⟨p2, r, c, d, e, hb, _, _, _⟩
      · simp [heap_vec, inline_vec] at e
      · have : p = p2 := (by simpa [heap_vec] using e : _ ∧ _).2
        subst this
        exact ⟨_, hb⟩
    have hrp := hcnt p bp hbp
    refine ⟨?_, ?_, hth⟩
    · intro w hw
      rcases mem_set_cases vs i _ w hw with rfl | ⟨j, hj, hji, rfl⟩
      · exact (vwf_inline N l2 _).mpr hl2
      · refine vwf_transfer N _ m _ (hwf _ (List.getElem_mem hj)) (le_refl _) ?_
        intro q b hq hbq
        by_cases hqp : q = p
        · subst hqp
          rw [hbp] at hbq
          cases hbq
          have h3 := refs_in_two q vs i j hi hj (fun e => hji e.symm)
          rw [hv, on_block_heap, if_pos rfl, (on_block_eq_one _ _).mpr hq] at h3
          have hne : bp._refs_count ≠ 1 := by omega
          exact ⟨bp._refs_count - 1, by omega, by simp [hbp, released, hne]⟩
        · exact ⟨b._refs_count, (hcnt q b hbq).2, by simp [hqp, hbq]⟩
    · intro q b hbq
      have h1 := hset q
      rw [on_block_heap, on_block_inline] at h1
      by_cases hqp : q = p
      · subst hqp
        rw [if_pos rfl] at h1
        have e : (released bp) = some b := by simpa [hbp] using hbq
        unfold released at e
        split_ifs at e with h5
        cases e
        simp only
        omega
      · have hqp2 : ¬ p = q := fun e => hqp e.symm
        rw [if_neg hqp2] at h1
        have h2 : refs_in q (vs.set i (inline_vec l2)) = refs_in q vs := by omega
        rw [h2]
        exact hcnt q b (by simpa [hqp] using hbq)

/-! ## The effect of each call on one vector -/

theorem Eff.inline0 {α : Type} (N : Nat) (l l2 : List α) (m : Mem α) (h : l2.length ≤ N) :
    Eff N (inline_vec l) m (inline_vec l2) m := by
  simpa using Eff.inline l l2 m 0 h

theorem Eff.inplace0 {α : Type} (N n n2 p : Nat) (m : Mem α) (c : Nat) (d d2 : List α)
    (hb : m.blocks p = some ⟨1, c, d⟩) (hn : d2.length = n2) (hc : n2 ≤ c) :
    Eff N (heap_vec n p) m (heap_vec n2 p) (m.set_block p (some ⟨1, c, d2⟩)) := by
  simpa using Eff.inplace n n2 p m c d d2 0 hb hn hc

theorem data_eff {α : Type} (N : Nat) (v v2 : socow_vector α) (m m2 : Mem α)
    (hv : vwf N v m) (hm : m.throw_at = none) (h : data N v m = .ok () (v2, m2)) :
    Eff N v m v2 m2 := by
  rcases vwf_cases hv with ⟨l, rfl, hl⟩ | ⟨p, r, c, d, rfl, hb, hdc, hr, hp⟩
  · rw [data_inline] at h
    cases h
    exact Eff.keep _ _
  · by_cases h1 : 1 < r
    · rw [data_shared N m p r c d hb h1 hp hm hdc] at h
      cases h
      exact Eff.realloc _ _ _ _ _ _ _ rfl hdc
    · have : r = 1 := by omega
      subst this
      rw [data_unique N _ p c d m hb] at h
      cases h
      exact Eff.keep _ _

theorem write_eff {α : Type} (N ind : Nat) (x : α) (v v2 : socow_vector α) (m m2 : Mem α)
    (hv : vwf N v m) (hm : m.throw_at = none) (hi : ind < size v)
    (h : write_at N ind x v m = .ok () (v2, m2)) : Eff N v m v2 m2 := by
  rcases vwf_cases hv with ⟨l, rfl, hl⟩ | ⟨p, r, c, d, rfl, hb, hdc, hr, hp⟩
  · rw [write_at_inline N ind x l m hi] at h
    cases h
    exact Eff.inline0 N _ _ _ (by simpa using hl)
  · by_cases h1 : 1 < r
    · rw [write_at_shared N ind x m p r c d hb h1 hp hm hdc hi] at h
      cases h
      exact Eff.realloc _ _ _ _ _ _ _ (by simp) hdc
    · have : r = 1 := by omega
      subst this
      rw [write_at_unique N ind x m p c d hb hi] at h
      cases h
      exact Eff.inplace0 N _ _ _ _ _ _ _ hb (by simp) hdc

theorem clear_eff {α : Type} (N : Nat) (v v2 : socow_vector α) (m m2 : Mem α)
    (hv : vwf N v m) (h : clear N v m = .ok () (v2, m2)) : Eff N v m v2 m2 := by
  rcases vwf_cases hv with ⟨l, rfl, hl⟩ | ⟨p, r, c, d, rfl, hb, hdc, hr, hp⟩
  · rw [clear_inline] at h
    cases h
    exact Eff.inline0 N _ _ _ (by simp)
  · by_cases h1 : 1 < r
    · rw [clear_shared N m p r c d hb h1] at h
      cases h
      simpa using Eff.to_inline d.length p m [] 0 (by simp)
    · have : r = 1 := by omega
      subst this
      rw [clear_unique N m p c d hb] at h
      cases h
      exact Eff.inplace0 N _ _ _ _ _ _ _ hb rfl (by simp)

theorem reserve_eff {α : Type} (N n : Nat) (v v2 : socow_vector α) (m m2 : Mem α)
    (hv : vwf N v m) (hm : m.throw_at = none) (h : reserve N n v m = .ok () (v2, m2)) :
    Eff N v m v2 m2 := by
  rcases vwf_cases hv with ⟨l, rfl, hl⟩ | ⟨p, r, c, d, rfl, hb, hdc, hr, hp⟩
  · by_cases h1 : n ≤ N
    · rw [reserve_noop N n _ m (Or.inr ⟨rfl, h1⟩)] at h
      cases h
      exact Eff.keep _ _
    · rw [reserve_inline_grow N n l m hm hl (by omega)] at h
      cases h
      exact Eff.grow _ _ _ _ _ _ rfl (by omega)
  · by_cases h0 : n < d.length
    · rw [reserve_noop N n _ m (Or.inl h0)] at h
      cases h
      exact Eff.keep _ _
    · by_cases h1 : n ≤ N
      · rw [reserve_to_small N n m p r c d hb hr hm (by omega) h1] at h
        cases h
        exact Eff.to_inline _ _ _ _ _ (by omega)
      · by_cases h2 : c < n ∨ 1 < r
        · rw [reserve_heap_realloc N n m p r c d hb hr hp hm (by omega) (by omega) h2] at h
          cases h
          exact Eff.realloc _ _ _ _ _ _ _ rfl (by omega)
        · have hr1 : r = 1 := by omega
          subst hr1
          rw [reserve_heap_keep N n d.length m p c d hb (by omega) (by omega) (by omega)] at h
          cases h
          exact Eff.keep _ _

theorem shrink_eff {α : Type} (N : Nat) (v v2 : socow_vector α) (m m2 : Mem α)
    (hv : vwf N v m) (hm : m.throw_at = none) (h : shrink_to_fit N v m = .ok () (v2, m2)) :
    Eff N v m v2 m2 := by
  rcases vwf_cases hv with ⟨l, rfl, hl⟩ | ⟨p, r, c, d, rfl, hb, hdc, hr, hp⟩
  · rw [shrink_inline] at h
    cases h
    exact Eff.keep _ _
  · by_cases h1 : d.length ≤ N
    · rw [shrink_to_small N m p r c d hb hr hm h1] at h
      cases h
      exact Eff.to_inline _ _ _ _ _ h1
    · by_cases h2 : 1 < r ∨ d.length ≠ c
      · rw [shrink_realloc N m p r c d hb hr hp hm (by omega) h2] at h
        cases h
        exact Eff.realloc _ _ _ _ _ _ _ rfl (le_refl _)
      · have hr1 : r = 1 := by omega
        have hc1 : c = d.length := by omega
        subst hr1
        subst hc1
        rw [shrink_keep N m p d hb (by omega)] at h
        cases h
        exact Eff.keep _ _

/-- With capacity 0 the reallocating path of `insert` never ends, also from an Inline
vector with `SMALL_SIZE = 0`. -/
theorem insert_inline_zero {α : Type} (x : α) (fuel : Nat) (m : Mem α) :
    insert 0 fuel 0 x (inline_vec []) m = .out_of_fuel := by
  cases fuel with
  | zero => rfl
  | succ fuel =>
    have hb2 : ((create_ptr 0 m).2.set_block m.allocated (some ⟨1, 0, []⟩)).blocks m.allocated
        = some (⟨1, 0, []⟩ : dynamic_buffer α) := by simp
    have e1 : construct (cdata (inline_vec ([] : List α)) m) 0 (0 * 2) m
        = .ok (heap_vec 0 m.allocated)
          ((create_ptr 0 m).2.set_block m.allocated (some ⟨1, 0, []⟩)) := by
      rw [cdata_inline]
      simp [construct, slice, uninitialized_copy, create_ptr, heap_vec]
    have e2 : push_back_body (insert 0 fuel) 0 x (heap_vec 0 m.allocated)
        ((create_ptr 0 m).2.set_block m.allocated (some ⟨1, 0, []⟩)) = .out_of_fuel := by
      simp only [push_back_body, capacity_heap 0 _ 0 _ 1 0 [] hb2,
        is_linked_heap _ 0 _ 1 0 [] hb2, heap_vec_size, decide_True, Bool.true_or, if_true,
        insert_capacity_zero 0 x fuel _ m.allocated 1 hb2, drop_ret]
    have e0 : (inline_vec ([] : List α))._size = 0 := rfl
    simp only [insert, capacity_inline, is_linked_inline, e0, decide_True, Bool.true_or,
      if_true, e1, e2]

theorem insert_eff {α : Type} (N fuel pos : Nat) (x : α) (v v2 : socow_vector α) (m m2 : Mem α)
    (ret : Nat) (hv : vwf N v m) (hm : m.throw_at = none) (hpos : pos ≤ size v)
    (h : insert N fuel pos x v m = .ok ret (v2, m2)) : Eff N v m v2 m2 := by
  cases fuel with
  | zero => simp [insert] at h
  | succ fuel =>
    rcases vwf_cases hv with ⟨l, rfl, hl⟩ | ⟨p, r, c, d, rfl, hb, hdc, hr, hp⟩
    · have hpos2 : pos ≤ l.length := hpos
      by_cases hfull : l.length = N
      · by_cases hN : N = 0
        · subst hN
          have hl0 : l = [] := List.length_eq_zero.mp hfull
          subst hl0
          have hp0 : pos = 0 := by simpa using hpos2
          subst hp0
          rw [insert_inline_zero] at h
          cases h
        · rw [insert_inline_full N fuel pos x l m hm hfull (by omega) hpos2] at h
          cases h
          exact Eff.grow _ _ _ _ _ _ (list_insert_length _ _ _) (by omega)
      · rw [insert_inline_inplace N fuel pos x l m hm (by omega) hpos2] at h
        cases h
        exact Eff.inline _ _ _ _ (by rw [list_insert_length]; omega)
    · have hpos2 : pos ≤ d.length := hpos
      by_cases hre : d.length = c ∨ 1 < r
      · by_cases hc0 : c = 0
        · subst hc0
          have hd0 : d = [] := List.length_eq_zero.mp (by omega)
          subst hd0
          have hp0 : pos = 0 := by simpa using hpos2
          subst hp0
          have := insert_capacity_zero N x (fuel + 1) m p r hb
          rw [show (([] : List α).length) = 0 from rfl] at h
          rw [this] at h
          cases h
        · rw [insert_heap_realloc N fuel pos x m p r c d hb hr hp hm (by omega) hdc hre
            hpos2] at h
          cases h
          exact Eff.realloc _ _ _ _ _ _ _ (list_insert_length _ _ _)
            (by split_ifs <;> omega)
      · have hr1 : r = 1 := by omega
        subst hr1
        rw [insert_unique_inplace N fuel pos x m p c d hb hm (by omega) hpos2] at h
        cases h
        exact Eff.inplace _ _ _ _ _ _ _ _ hb (list_insert_length _ _ _) (by omega)

theorem push_back_eff {α : Type} (N fuel : Nat) (x : α) (v v2 : socow_vector α) (m m2 : Mem α)
    (hv : vwf N v m) (hm : m.throw_at = none)
    (h : push_back N fuel x v m = .ok () (v2, m2)) : Eff N v m v2 m2 := by
  rcases vwf_cases hv with ⟨l, rfl, hl⟩ | ⟨p, r, c, d, rfl, hb, hdc, hr, hp⟩
  · by_cases hfull : l.length = N
    · have e : push_back N fuel x (inline_vec l) m
          = drop_ret (insert N fuel l.length x (inline_vec l) m) := by
        simp only [push_back, push_back_body, capacity_inline, is_linked_inline,
          inline_vec_size, hfull, decide_True, Bool.true_or, if_true]
      rw [e] at h
      cases hins : insert N fuel l.length x (inline_vec l) m with
      | ok ret st =>
        rw [hins] at h
        simp only [drop_ret] at h
        cases h
        exact insert_eff N fuel l.length x _ _ m _ ret hv hm (le_refl _) hins
      | throw st => rw [hins] at h; simp [drop_ret] at h
      | undefined => rw [hins] at h; simp [drop_ret] at h
      | out_of_fuel => rw [hins] at h; simp [drop_ret] at h
    · rw [show push_back N fuel x (inline_vec l) m = _ from
        push_back_body_inline _ N x l m hm (by omega)] at h
      cases h
      exact Eff.inline _ _ _ _ (by simp; omega)
  · by_cases hre : d.length = c ∨ 1 < r
    · have hcond : (decide (d.length = c) || decide (1 < r)) = true := by
        rcases hre with e | e <;> simp [e]
      have e : push_back N fuel x (heap_vec d.length p) m
          = drop_ret (insert N fuel d.length x (heap_vec d.length p) m) := by
        simp only [push_back, push_back_body, capacity_heap N m _ p r c d hb,
          is_linked_heap m _ p r c d hb, heap_vec_size, hcond, if_true]
      rw [e] at h
      cases hins : insert N fuel d.length x (heap_vec d.length p) m with
      | ok ret st =>
        rw [hins] at h
        simp only [drop_ret] at h
        cases h
        exact insert_eff N fuel d.length x _ _ m _ ret hv hm (le_refl _) hins
      | throw st => rw [hins] at h; simp [drop_ret] at h
      | undefined => rw [hins] at h; simp [drop_ret] at h
      | out_of_fuel => rw [hins] at h; simp [drop_ret] at h
    · have hr1 : r = 1 := by omega
      subst hr1
      rw [show push_back N fuel x (heap_vec d.length p) m = _ from
        push_back_body_unique _ N x m p c d hb hm (by omega)] at h
      cases h
      exact Eff.inplace _ _ _ _ _ _ _ _ hb (by simp) (by omega)

theorem erase_eff {α : Type} (N fuel f t : Nat) (v v2 : socow_vector α) (m m2 : Mem α)
    (ret : Nat) (hv : vwf N v m) (hm : m.throw_at = none) (hft : f ≤ t) (ht : t ≤ size v)
    (h : erase N fuel f t v m = .ok ret (v2, m2)) : Eff N v m v2 m2 := by
  cases fuel with
  | zero => simp [erase] at h
  | succ fuel =>
    rcases vwf_cases hv with ⟨l, rfl, hl⟩ | ⟨p, r, c, d, rfl, hb, hdc, hr, hp⟩
    · have ht2 : t ≤ l.length := ht
      by_cases e : f = t
      · subst e
        rw [erase_empty_inline] at h
        cases h
        exact Eff.keep _ _
      · rw [erase_inline N fuel f t l m hm (by omega) ht2] at h
        cases h
        exact Eff.inline _ _ _ _ (by rw [list_erase_length l f t hft ht2]; omega)
    · have ht2 : t ≤ d.length := ht
      by_cases h1 : 1 < r
      · by_cases e : f = t
        · subst e
          rw [erase_empty_shared N fuel f m p r c d hb h1 hp hm hdc] at h
          cases h
          exact Eff.realloc _ _ _ _ _ _ _ rfl hdc
        · rw [erase_shared N fuel f t m p r c d hb h1 hp hm hdc (by omega) ht2] at h
          cases h
          exact Eff.realloc _ _ _ _ _ _ _ (list_erase_length d f t hft ht2) (by omega)
      · have hr1 : r = 1 := by omega
        subst hr1
        by_cases e : f = t
        · subst e
          rw [erase_empty_unique N fuel f _ m p c d hb] at h
          cases h
          exact Eff.keep _ _
        · rw [erase_unique N fuel f t m p c d hb hm (by omega) ht2] at h
          cases h
          exact Eff.inplace _ _ _ _ _ _ _ _ hb (list_erase_length d f t hft ht2) (by omega)

theorem pop_back_eff {α : Type} (N fuel : Nat) (v v2 : socow_vector α) (m m2 : Mem α)
    (hv : vwf N v m) (hm : m.throw_at = none) (hs : 1 ≤ size v)
    (h : pop_back N fuel v m = .ok () (v2, m2)) : Eff N v m v2 m2 := by
  rcases vwf_cases hv with ⟨l, rfl, hl⟩ | ⟨p, r, c, d, rfl, hb, hdc, hr, hp⟩
  · rw [pop_back_inline N fuel l m hs] at h
    cases h
    exact Eff.inline0 N _ _ _ (by simp; omega)
  · have hs2 : 1 ≤ d.length := hs
    by_cases h1 : 1 < r
    · cases fuel with
      | zero =>
        have hne : ¬ d.length = 0 := by omega
        simp [pop_back, pop_back_body, is_linked_heap m _ p r c d hb, h1, hne, erase,
          drop_ret] at h
      | succ fuel =>
        rw [pop_back_shared N fuel m p r c d hb h1 hp hm hdc hs2] at h
        cases h
        exact Eff.realloc _ _ _ _ _ _ _ (by simp) (by omega)
    · have hr1 : r = 1 := by omega
      subst hr1
      rw [pop_back_unique N fuel m p c d hb hs2] at h
      cases h
      exact Eff.inplace0 N _ _ _ _ _ _ _ hb (by simp) (by omega)

/-! ## The invariant is kept by every operation -/

theorem update_some {α β : Type} (w w2 : World α) (i : Nat) (r : Res (St α) β)
    (h : w.update i r = some w2) :
    ∃ ret v2 m2, r = .ok ret (v2, m2) ∧ w2 = ⟨w.vecs.set i v2, m2⟩ := by
  cases r with
  | ok ret st =>
    obtain ⟨v2, m2⟩ := st
    simp only [World.update, Option.some.injEq] at h
    exact ⟨ret, v2, m2, rfl, h.symm⟩
  | throw st => simp [World.update] at h
  | undefined => simp [World.update] at h
  | out_of_fuel => simp [World.update] at h

theorem getElem?_some_lt {α : Type} (vs : List α) (i : Nat) (v : α) (h : vs[i]? = some v) :
    ∃ hi : i < vs.length, vs[i] = v := by
  have hi : i < vs.length := by
    by_contra hc
    rw [List.getElem?_eq_none (by omega)] at h
    cases h
  refine ⟨hi, ?_⟩
  rw [List.getElem?_eq_getElem hi] at h
  exact Option.some.inj h

theorem winv_append_inline {α : Type} (N : Nat) (vs : List (socow_vector α)) (m : Mem α)
    (l : List α) (k : Nat) (hw : winv N ⟨vs, m⟩) (hl : l.length ≤ N) :
    winv N ⟨vs ++ [inline_vec l], m.bump 0 k⟩ := by
  obtain ⟨hwf, hcnt, hth⟩ := hw
  refine ⟨?_, ?_, hth⟩
  · intro w hw
    rcases List.mem_append.mp hw with h1 | h1
    · exact vwf_transfer N w m _ (hwf w h1) (le_refl _)
        (fun q b _ hb => ⟨b._refs_count, (hcnt q b hb).2, hb⟩)
    · have : w = inline_vec l := by simpa using h1
      subst this
      exact (vwf_inline N l _).mpr hl
  · intro q b hb
    have : refs_in q (vs ++ [inline_vec l]) = refs_in q vs := by
      rw [refs_in_append, refs_in_single, on_block_inline]
      rfl
    simp only [this]
    exact hcnt q b hb

theorem winv_erase_inline {α : Type} (N : Nat) (vs : List (socow_vector α)) (m : Mem α)
    (i : Nat) (hi : i < vs.length) (l : List α) (hv : vs[i] = inline_vec l)
    (hw : winv N ⟨vs, m⟩) : winv N ⟨vs.eraseIdx i, m⟩ := by
  obtain ⟨hwf, hcnt, hth⟩ := hw
  refine ⟨fun w hw => hwf w (List.mem_of_mem_eraseIdx hw), ?_, hth⟩
  intro q b hb
  have h1 := refs_in_eraseIdx q vs i hi
  rw [hv, on_block_inline] at h1
  simp only [Nat.add_zero] at h1
  simp only [h1]
  exact hcnt q b hb

theorem winv_share {α : Type} (N : Nat) (vs : List (socow_vector α)) (m : Mem α)
    (i j : Nat) (hi : i < vs.length) (hj : j < vs.length) (l : List α)
    (n q : Nat) (hvi : vs[i] = inline_vec l) (hvj : vs[j] = heap_vec n q)
    (hw : winv N ⟨vs, m⟩) : winv N ⟨vs.set i (heap_vec n q), m.share q⟩ := by
  obtain ⟨hwf, hcnt, hth⟩ := hw
  simp only at hwf hcnt hth
  have hvq : vwf N (heap_vec n q) m := hvj ▸ hwf _ (List.getElem_mem hj)
  rcases vwf_cases hvq with ⟨l2, e, _⟩ | ⟨q2, r, c, d, e, hb, hdc, hr, hq⟩
  · simp [heap_vec, inline_vec] at e
  · have e2 : d.length = n ∧ q2 = q := by
      have : n = d.length ∧ q = q2 := by simpa [heap_vec] using e
      exact ⟨this.1.symm, this.2.symm⟩
    obtain ⟨e3, e4⟩ := e2
    subst e3
    subst e4
    refine ⟨?_, ?_, hth⟩
    · intro w hw
      rcases mem_set_cases vs i _ w hw with rfl | ⟨k, hk, _, rfl⟩
      · exact (vwf_heap N d.length q2 _ (r + 1) c d (by simp [hb])).mpr
          ⟨rfl, hdc, by omega, hq⟩
      · refine vwf_transfer N _ m _ (hwf _ (List.getElem_mem hk)) (le_refl _) ?_
        intro p b _ hbp
        by_cases hpq : p = q2
        · subst hpq
          exact ⟨b._refs_count + 1, by omega, by simp [hbp]⟩
        · exact ⟨b._refs_count, (hcnt p b hbp).2, by simp [hpq, hbp]⟩
    · intro p b hbp
      have h1 := refs_in_set p (heap_vec d.length q2) vs i hi
      rw [hvi, on_block_inline, on_block_heap] at h1
      by_cases hpq : p = q2
      · subst hpq
        have e5 : b = ⟨r + 1, c, d⟩ := by simpa [hb] using hbp.symm
        subst e5
        have h2 := (hcnt p _ hb).1
        simp only [if_true] at h1
        simp only at h2 ⊢
        omega
      · have hpq2 : ¬ q2 = p := fun e => hpq e.symm
        rw [if_neg hpq2] at h1
        have h2 : refs_in p (vs.set i (heap_vec d.length q2)) = refs_in p vs := by omega
        simp only [h2]
        exact hcnt p b (by simpa [hpq] using hbp)

theorem winv_swap {α : Type} (N : Nat) (vs : List (socow_vector α)) (m : Mem α)
    (i j : Nat) (hi : i < vs.length) (hj : j < vs.length) (hij : i ≠ j) (k : Nat)
    (hw : winv N ⟨vs, m⟩) : winv N ⟨(vs.set i vs[j]).set j vs[i], m.bump 0 k⟩ := by
  obtain ⟨hwf, hcnt, hth⟩ := hw
  simp only at hwf hcnt hth
  refine ⟨?_, ?_, hth⟩
  · intro w hw
    have hmem : w ∈ vs := by
      rcases List.mem_or_eq_of_mem_set hw with h1 | h1
      · rcases List.mem_or_eq_of_mem_set h1 with h2 | h2
        · exact h2
        · exact h2 ▸ List.getElem_mem hj
      · exact h1 ▸ List.getElem_mem hi
    exact vwf_transfer N w m _ (hwf w hmem) (le_refl _)
      (fun q b _ hb => ⟨b._refs_count, (hcnt q b hb).2, hb⟩)
  · intro q b hb
    have h1 := refs_in_set q vs[j] vs i hi
    have hj2 : j < (vs.set i vs[j]).length := by simpa using hj
    have h2 := refs_in_set q vs[i] (vs.set i vs[j]) j hj2
    have e : (vs.set i vs[j])[j] = vs[j] := by
      rw [List.getElem_set]
      simp [hij]
    rw [e] at h2
    have h3 : refs_in q ((vs.set i vs[j]).set j vs[i]) = refs_in q vs := by omega
    simp only [h3]
    exact hcnt q b hb

theorem swap_exact {α : Type} (N : Nat) (a b : socow_vector α) (m : Mem α)
    (ha : vwf N a m) (hb : vwf N b m) (hm : m.throw_at = none) :
    ∃ k, swap N a b m = .ok () (b, a, m.bump 0 k) := by
  rcases vwf_cases ha with ⟨l, rfl, hl⟩ | ⟨p, rp, cp, dp, rfl, hbp, hcp, hrp, hpp⟩
  · rcases vwf_cases hb with ⟨k, rfl, hk⟩ | ⟨q, rq, cq, dq, rfl, hbq, hcq, hrq, hpq⟩
    · exact swap_inline_inline N l k m hm hl hk
    · exact ⟨_, swap_inline_heap N l dq.length q m hm hl⟩
  · rcases vwf_cases hb with ⟨k, rfl, hk⟩ | ⟨q, rq, cq, dq, rfl, hbq, hcq, hrq, hpq⟩
    · exact ⟨_, swap_heap_inline N dp.length p k m hm hk⟩
    · exact ⟨0, by simpa using swap_heap_heap N dp.length p dq.length q m⟩

theorem eraseIdx_set_self {α : Type} (vs : List α) (i : Nat) (x : α) :
    (vs.set i x).eraseIdx i = vs.eraseIdx i := by
  induction vs generalizing i with
  | nil => simp
  | cons v vs ih =>
    cases i with
    | zero => simp
    | succ i => simp [ih]

theorem set_append_last {α : Type} (vs : List α) (x y : α) :
    (vs ++ [x]).set vs.length y = vs ++ [y] := by
  induction vs with
  | nil => simp
  | cons v vs ih => simp [ih]

/-- The destructor on a well-formed vector keeps the invariant. -/
theorem winv_destroy {α : Type} (N : Nat) (vs : List (socow_vector α)) (m m2 : Mem α)
    (i : Nat) (hi : i < vs.length) (hw : winv N ⟨vs, m⟩)
    (h : destroy vs[i] m = some m2) : winv N ⟨vs.eraseIdx i, m2⟩ := by
  have hv : vwf N vs[i] m := hw.1 _ (List.getElem_mem hi)
  rcases vwf_cases hv with ⟨l, e, hl⟩ | ⟨p, r, c, d, e, hb, hdc, hr, hp⟩
  · rw [e, destroy_inline] at h
    cases h
    exact winv_erase_inline N vs m i hi l e hw
  · rw [e, destroy_heap m p r c d hb hr] at h
    cases h
    have h1 := winv_update N vs m i hi _ _ _ e hw (Eff.to_inline d.length p m [] 0 (by simp))
    have h2 := winv_erase_inline N _ _ i (by simpa using hi) [] (by simp) h1
    simpa [eraseIdx_set_self] using h2

/-- Assignment from a Heap vector keeps the invariant. -/
theorem winv_assign_heap {α : Type} (N : Nat) (vs : List (socow_vector α)) (m : Mem α)
    (i j : Nat) (hi : i < vs.length) (hj : j < vs.length) (hij : i ≠ j) (n q : Nat)
    (hvj : vs[j] = heap_vec n q) (hw : winv N ⟨vs, m⟩) :
    ∃ m2, assign N vs[i] vs[j] m = .ok () (heap_vec n q, m2) ∧
      winv N ⟨vs.set i (heap_vec n q), m2⟩ := by
  have hvi : vwf N vs[i] m := hw.1 _ (List.getElem_mem hi)
  have hvq : vwf N (heap_vec n q) m := hvj ▸ hw.1 _ (List.getElem_mem hj)
  have hbq : ∃ rq cq dq, m.blocks q = some ⟨rq, cq, dq⟩ := by
    rcases vwf_cases hvq with ⟨l2, e, _⟩ | ⟨q2, r, c, d, e, hb, _, _, _⟩
    · simp [heap_vec, inline_vec] at e
    · have : q = q2 := (by simpa [heap_vec] using e : _ ∧ _).2
      subst this
      exact ⟨r, c, d, hb⟩
  obtain ⟨rq, cq, dq, hbq⟩ := hbq
  rw [hvj]
  rcases vwf_cases hvi with ⟨l, e, hl⟩ | ⟨p, r, c, d, e, hb, hdc, hr, hp⟩
  · rw [e]
    exact ⟨_, assign_inline_heap N l n q m rq cq dq hbq,
      winv_share N vs m i j hi hj l n q e hvj hw⟩
  · rw [e]
    have h2 : p = q → 2 ≤ r := by
      intro epq
      subst epq
      have h3 := refs_in_two p vs i j hi hj hij
      simp only [e, hvj, on_block_heap, if_true] at h3
      have h4 := (hw.2.1 p _ hb).1
      simp only at h4
      omega
    refine ⟨_, assign_heap_heap N m p r c d n q rq cq dq hb hr hbq h2, ?_⟩
    have h1 := winv_update N vs m i hi _ _ _ e hw (Eff.to_inline d.length p m [] 0 (by simp))
    have h3 := winv_share N _ _ i j (by simpa using hi) (by simpa using hj) [] n q
      (by simp) (by rw [List.getElem_set]; simp [hij, hvj]) h1
    simpa using h3

theorem winv_unary {α β : Type} (N : Nat) (w w2 : World α) (i : Nat) (v : socow_vector α)
    (r : Res (St α) β) (hw : winv N w) (hv : w.vecs[i]? = some v)
    (he : ∀ ret v2 m2, r = .ok ret (v2, m2) → Eff N v w.mem v2 m2)
    (h : w.update i r = some w2) : winv N w2 := by
  obtain ⟨hi, e⟩ := getElem?_some_lt w.vecs i v hv
  obtain ⟨ret, v2, m2, hr, rfl⟩ := update_some w w2 i r h
  exact winv_update N w.vecs w.mem i hi v v2 m2 e hw (he ret v2 m2 hr)

/-- Every public operation that returns normally keeps the invariant. -/
theorem winv_step {α : Type} (N fuel : Nat) (op : Op α) (w w2 : World α) (hw : winv N w)
    (h : World.step N fuel op w = some w2) : winv N w2 := by
  obtain ⟨vs, m⟩ := w
  have hm : m.throw_at = none := hw.2.2
  have hvwf : ∀ (i : Nat) (v : socow_vector α), vs[i]? = some v → vwf N v m := by
    intro i v hv
    obtain ⟨hi, e⟩ := getElem?_some_lt vs i v hv
    exact e ▸ hw.1 _ (List.getElem_mem hi)
  cases op with
  | default_construct =>
    simp only [World.step, Option.some.injEq] at h
    subst h
    simpa using winv_append_inline N vs m [] 0 hw (by simp)
  | raw_construct src size capacity =>
    simp only [World.step] at h
    split_ifs at h with hsc
    by_cases hss : size ≤ src.length
    · rw [construct_ok src size capacity m hm hss hsc] at h
      simp only [Option.some.injEq] at h
      subst h
      have h1 := winv_append_inline N vs m [] 0 hw (by simp)
      have h2 := winv_update N _ _ vs.length (by simp) _ _ _ (by simp) h1
        (Eff.grow [] size (m.bump 0 0) capacity (src.take size) size (by simp [hss]) hsc)
      simpa [set_append_last] using h2
    · have : construct (some src) size capacity m = .undefined := by
        simp [construct, slice, hss]
      rw [this] at h
      cases h
  | copy_construct j =>
    simp only [World.step] at h
    cases hj : vs[j]? with
    | none => simp [hj] at h
    | some s =>
      simp only [hj] at h
      obtain ⟨hjl, ej⟩ := getElem?_some_lt vs j s hj
      rcases vwf_cases (hvwf j s hj) with ⟨k, rfl, hk⟩ | ⟨q, r, c, d, rfl, hb, hdc, hr, hq⟩
      · have e0 : (default_vector : socow_vector α) = inline_vec [] := rfl
        simp only [copy_construct, e0,
          assign_inline_grow N [] k m hm (by simp) hk, Option.some.injEq] at h
        subst h
        exact winv_append_inline N vs m k _ hw hk
      · have e0 : (default_vector : socow_vector α) = inline_vec [] := rfl
        simp only [copy_construct, e0, assign_inline_heap N [] d.length q m r c d hb,
          Option.some.injEq] at h
        subst h
        have h1 := winv_append_inline N vs m [] 0 hw (by simp)
        have h2 := winv_share N _ _ vs.length j (by simp) (by simp; omega) [] d.length q
          (by simp) (by rw [List.getElem_append_left hjl]; exact ej) h1
        simpa [set_append_last] using h2
  | assign i j =>
    simp only [World.step] at h
    cases hi : vs[i]? with
    | none => simp [hi] at h
    | some r =>
      cases hj : vs[j]? with
      | none => simp [hi, hj] at h
      | some s =>
        simp only [hi, hj] at h
        split_ifs at h with hij
        · cases h
          exact hw
        · obtain ⟨hil, ei⟩ := getElem?_some_lt vs i r hi
          obtain ⟨hjl, ej⟩ := getElem?_some_lt vs j s hj
          rcases vwf_cases (hvwf j s hj) with ⟨k, rfl, hk⟩ | ⟨q, rq, cq, dq, rfl, hb, _, _, _⟩
          · refine winv_unary N ⟨vs, m⟩ w2 i r _ hw hi ?_ h
            intro ret v2 m2 hr
            rcases vwf_cases (hvwf i r hi) with ⟨l, rfl, hl⟩ | ⟨p, rp, cp, dp, rfl, hbp, _, hrp, _⟩
            · by_cases hlk : l.length ≤ k.length
              · rw [assign_inline_grow N l k m hm hlk hk] at hr
                cases hr
                exact Eff.inline _ _ _ _ hk
              · rw [assign_inline_shrink N l k m hm (by omega) hl] at hr
                cases hr
                exact Eff.inline _ _ _ _ hk
            · rw [assign_heap_inline N m p rp cp dp k hbp hrp hm hk] at hr
              cases hr
              exact Eff.to_inline _ _ _ _ _ hk
          · obtain ⟨m3, e3, hw3⟩ := winv_assign_heap N vs m i j hil hjl hij dq.length q ej hw
            rw [ei, ej] at e3
            rw [e3] at h
            simp only [World.update, Option.some.injEq] at h
            subst h
            exact hw3
  | swap i j =>
    simp only [World.step] at h
    cases hi : vs[i]? with
    | none => simp [hi] at h
    | some a =>
      cases hj : vs[j]? with
      | none => simp [hi, hj] at h
      | some b =>
        simp only [hi, hj] at h
        split_ifs at h with hij
        · cases h
          exact hw
        · obtain ⟨hil, ei⟩ := getElem?_some_lt vs i a hi
          obtain ⟨hjl, ej⟩ := getElem?_some_lt vs j b hj
          obtain ⟨k, e⟩ := swap_exact N a b m (hvwf i a hi) (hvwf j b hj) hm
          rw [e] at h
          simp only [Option.some.injEq] at h
          subst h
          have := winv_swap N vs m i j hil hjl hij k hw
          rw [ei, ej] at this
          exact this
  | destroy i =>
    simp only [World.step] at h
    cases hi : vs[i]? with
    | none => simp [hi] at h
    | some v =>
      simp only [hi] at h
      obtain ⟨hil, ei⟩ := getElem?_some_lt vs i v hi
      cases hd : destroy v m with
      | none => simp [hd] at h
      | some m3 =>
        simp only [hd, Option.some.injEq] at h
        subst h
        exact winv_destroy N vs m m3 i hil hw (ei ▸ hd)
  | data i =>
    simp only [World.step] at h
    cases hi : vs[i]? with
    | none => simp [hi] at h
    | some v =>
      simp only [hi] at h
      exact winv_unary N ⟨vs, m⟩ w2 i v _ hw hi
        (fun _ v2 m2 hr => data_eff N v v2 m m2 (hvwf i v hi) hm hr) h
  | write i ind x =>
    simp only [World.step] at h
    cases hi : vs[i]? with
    | none => simp [hi] at h
    | some v =>
      simp only [hi] at h
      split_ifs at h with hpre
      exact winv_unary N ⟨vs, m⟩ w2 i v _ hw hi
        (fun _ v2 m2 hr => write_eff N ind x v v2 m m2 (hvwf i v hi) hm hpre hr) h
  | push_back i x =>
    simp only [World.step] at h
    cases hi : vs[i]? with
    | none => simp [hi] at h
    | some v =>
      simp only [hi] at h
      exact winv_unary N ⟨vs, m⟩ w2 i v _ hw hi
        (fun _ v2 m2 hr => push_back_eff N fuel x v v2 m m2 (hvwf i v hi) hm hr) h
  | pop_back i =>
    simp only [World.step] at h
    cases hi : vs[i]? with
    | none => simp [hi] at h
    | some v =>
      simp only [hi] at h
      split_ifs at h with hpre
      exact winv_unary N ⟨vs, m⟩ w2 i v _ hw hi
        (fun _ v2 m2 hr => pop_back_eff N fuel v v2 m m2 (hvwf i v hi) hm hpre hr) h
  | insert i p x =>
    simp only [World.step] at h
    cases hi : vs[i]? with
    | none => simp [hi] at h
    | some v =>
      simp only [hi] at h
      split_ifs at h with hpre
      exact winv_unary N ⟨vs, m⟩ w2 i v _ hw hi
        (fun ret v2 m2 hr => insert_eff N fuel p x v v2 m m2 ret (hvwf i v hi) hm hpre hr) h
  | erase i f t =>
    simp only [World.step] at h
    cases hi : vs[i]? with
    | none => simp [hi] at h
    | some v =>
      simp only [hi] at h
      split_ifs at h with hpre
      exact winv_unary N ⟨vs, m⟩ w2 i v _ hw hi
        (fun ret v2 m2 hr =>
          erase_eff N fuel f t v v2 m m2 ret (hvwf i v hi) hm hpre.1 hpre.2 hr) h
  | clear i =>
    simp only [World.step] at h
    cases hi : vs[i]? with
    | none => simp [hi] at h
    | some v =>
      simp only [hi] at h
      exact winv_unary N ⟨vs, m⟩ w2 i v _ hw hi
        (fun _ v2 m2 hr => clear_eff N v v2 m m2 (hvwf i v hi) hr) h
  | reserve i n =>
    simp only [World.step] at h
    cases hi : vs[i]? with
    | none => simp [hi] at h
    | some v =>
      simp only [hi] at h
      exact winv_unary N ⟨vs, m⟩ w2 i v _ hw hi
        (fun _ v2 m2 hr => reserve_eff N n v v2 m m2 (hvwf i v hi) hm hr) h
  | shrink_to_fit i =>
    simp only [World.step] at h
    cases hi : vs[i]? with
    | none => simp [hi] at h
    | some v =>
      simp only [hi] at h
      exact winv_unary N ⟨vs, m⟩ w2 i v _ hw hi
        (fun _ v2 m2 hr => shrink_eff N v v2 m m2 (hvwf i v hi) hm hr) h

theorem winv_init {α : Type} (N : Nat) (sc : Bool) : winv N (World.init α sc) := by
  refine ⟨?_, ?_, rfl⟩
  · intro v hv
    simp [World.init] at hv
  · intro p b hb
    simp [World.init] at hb

theorem reachable_winv {α : Type} (N : Nat) (w : World α) (h : reachable N w) : winv N w := by
  induction h with
  | init sc => exact winv_init N sc
  | step fuel op w w2 _ hs ih => exact winv_step N fuel op w w2 ih hs

/-- C8: in every state reachable from no vectors by the public operations that return
normally (raw constructor with length <= capacity, `pop_back` on non-empty vectors, `insert`
positions and `erase` ranges inside the vector, writes below `size()`), every live vector
has a defined capacity with `size() <= capacity()`, and `is_small()` implies
`size() <= SMALL_SIZE` and `capacity() == SMALL_SIZE`. -/
theorem C8_capacity_mode_invariant {α : Type} (N : Nat) (w : World α) (v : socow_vector α)
    (hr : reachable N w) (hv : v ∈ w.vecs) :
    ∃ c, capacity N v w.mem = some c ∧ size v ≤ c ∧
      (is_small v = true → size v ≤ N ∧ c = N) := by
  have hw := (reachable_winv N w hr).1 v hv
  rcases vwf_cases hw with ⟨l, rfl, hl⟩ | ⟨p, r, c, d, rfl, hb, hdc, _, _⟩
  · exact ⟨N, capacity_inline N l _, hl, fun _ => ⟨hl, rfl⟩⟩
  · exact ⟨c, capacity_heap N _ _ p r c d hb, hdc, fun h => by simp [is_small] at h⟩

theorem C8_witness :
    reachable 4 (⟨[heap_vec 5 0, heap_vec 5 0],
      (empty_mem.fresh ⟨1, 8, [1, 2, 3, 4, 5]⟩ 5).share 0⟩ : World Nat) ∧
    (heap_vec 5 0 : socow_vector Nat) ∈ (⟨[heap_vec 5 0, heap_vec 5 0],
      (empty_mem.fresh ⟨1, 8, [1, 2, 3, 4, 5]⟩ 5).share 0⟩ : World Nat).vecs ∧
    ∃ c, capacity 4 (heap_vec 5 0 : socow_vector Nat)
        ((empty_mem.fresh ⟨1, 8, [1, 2, 3, 4, 5]⟩ 5).share 0) = some c ∧
      size (heap_vec 5 0 : socow_vector Nat) ≤ c ∧
      (is_small (heap_vec 5 0 : socow_vector Nat) = true →
        size (heap_vec 5 0 : socow_vector Nat) ≤ 4 ∧ c = 4) := by
  have h1 : World.step 4 0 (.raw_construct [1, 2, 3, 4, 5] 5 8) (World.init Nat false)
      = some ⟨[heap_vec 5 0], empty_mem.fresh ⟨1, 8, [1, 2, 3, 4, 5]⟩ 5⟩ := by
    simp only [World.step, World.init,
      construct_ok [1, 2, 3, 4, 5] 5 8 ⟨fun _ => none, 0, 0, none, false⟩ rfl (by decide)
        (by decide)]
    rfl
  have hb : (empty_mem.fresh ⟨1, 8, [1, 2, 3, 4, 5]⟩ 5).blocks 0
      = some ⟨1, 8, [1, 2, 3, 4, 5]⟩ := rfl
  have h2 : World.step 4 0 (.copy_construct 0)
        ⟨[heap_vec 5 0], empty_mem.fresh ⟨1, 8, [1, 2, 3, 4, 5]⟩ 5⟩
      = some ⟨[heap_vec 5 0, heap_vec 5 0],
          (empty_mem.fresh ⟨1, 8, [1, 2, 3, 4, 5]⟩ 5).share 0⟩ := by
    have e0 : (default_vector : socow_vector Nat) = inline_vec [] := rfl
    simp only [World.step, List.getElem?_cons_zero, copy_construct, e0,
      assign_inline_heap 4 [] 5 0 (empty_mem.fresh ⟨1, 8, [1, 2, 3, 4, 5]⟩ 5) 1 8
        [1, 2, 3, 4, 5] hb]
    rfl
  have hr : reachable 4 (⟨[heap_vec 5 0, heap_vec 5 0],
      (empty_mem.fresh ⟨1, 8, [1, 2, 3, 4, 5]⟩ 5).share 0⟩ : World Nat) :=
    reachable.step 0 _ _ _ (reachable.step 0 _ _ _ (reachable.init false) h1) h2
  exact ⟨hr, by simp, C8_capacity_mode_invariant 4 _ _ hr (by simp)⟩

/-! ## Allocation -/

@[simp] theorem arm_blocks {α : Type} (m : Mem α) (t : Nat) : (m.arm t).blocks = m.blocks := rfl
@[simp] theorem arm_allocated {α : Type} (m : Mem α) (t : Nat) :
    (m.arm t).allocated = m.allocated := rfl
@[simp] theorem arm_copies {α : Type} (m : Mem α) (t : Nat) : (m.arm t).copies = m.copies := rfl
@[simp] theorem arm_throw_at {α : Type} (m : Mem α) (t : Nat) :
    (m.arm t).throw_at = some t := rfl
@[simp] theorem arm_swap_copies {α : Type} (m : Mem α) (t : Nat) :
    (m.arm t).swap_copies = m.swap_copies := rfl

theorem copy_call_before {α : Type} (m : Mem α) (t : Nat) (hth : m.throw_at = some t)
    (h : m.copies < t) : m.copy_call = (false, m.bump 0 1) := by
  have : ¬ t = m.copies := by omega
  simp [Mem.copy_call, hth, Mem.bump, this]

theorem copy_call_at {α : Type} (m : Mem α) (hth : m.throw_at = some m.copies) :
    m.copy_call = (true, m.bump 0 1) := by
  simp [Mem.copy_call, hth, Mem.bump]

theorem uc_before {α : Type} (xs : List α) (m : Mem α) (t : Nat) (hth : m.throw_at = some t)
    (h : m.copies + xs.length ≤ t) :
    uninitialized_copy xs m = (some xs, m.bump 0 xs.length) := by
  induction xs generalizing m with
  | nil => simp [uninitialized_copy]
  | cons x xs ih =>
    have h1 : m.copies < t := by simp at h; omega
    have h2 : (m.bump 0 1).throw_at = some t := hth
    have h3 : (m.bump 0 1).copies + xs.length ≤ t := by simp at h ⊢; omega
    simp [uninitialized_copy, copy_call_before m t hth h1, ih _ h2 h3, Mem.eq_iff]
    omega

theorem uc_at {α : Type} (xs : List α) (m : Mem α) (t : Nat) (hth : m.throw_at = some t)
    (h1 : m.copies ≤ t) (h2 : t < m.copies + xs.length) :
    uninitialized_copy xs m = (none, m.bump 0 (t - m.copies + 1)) := by
  induction xs generalizing m with
  | nil => simp at h2; omega
  | cons x xs ih =>
    by_cases e : t = m.copies
    · subst e
      simp [uninitialized_copy, copy_call_at m hth]
    · have h3 : (m.bump 0 1).throw_at = some t := hth
      have e2 := ih (m.bump 0 1) h3 (by simp; omega) (by simp at h2 ⊢; omega)
      simp [uninitialized_copy, copy_call_before m t hth (by omega), e2, Mem.eq_iff]
      omega

/-- Unmapping the next fresh address changes nothing in a well-formed memory. -/
theorem mwf_fresh_none {α : Type} (m : Mem α) (h : mwf m) : m.blocks m.allocated = none :=
  h _ (le_refl _)

theorem construct_before {α : Type} (l : List α) (n c : Nat) (m : Mem α) (t : Nat)
    (hth : m.throw_at = some t) (h : m.copies + n ≤ t) (hn : n ≤ l.length) (hc : n ≤ c) :
    construct (some l) n c m = .ok (heap_vec n m.allocated) (m.fresh ⟨1, c, l.take n⟩ n) := by
  have h2 : (create_ptr c m).2.throw_at = some t := hth
  have h3 : (create_ptr c m).2.copies + (l.take n).length ≤ t := by
    simp [create_ptr, Nat.min_eq_left hn]
    exact h
  have e : slice l 0 n = some (l.take n) := by simp [slice, hn]
  simp only [construct, Option.bind, e, Nat.not_lt.mpr hc, if_false, uc_before _ _ t h2 h3]
  simp [create_ptr, Mem.eq_iff, Nat.min_eq_left hn, heap_vec]
  intro q; split_ifs <;> rfl

theorem construct_at {α : Type} (l : List α) (n c : Nat) (m : Mem α) (t : Nat)
    (hth : m.throw_at = some t) (h1 : m.copies ≤ t) (h2 : t < m.copies + n)
    (hn : n ≤ l.length) (hc : n ≤ c) :
    construct (some l) n c m
      = .throw ((m.set_block m.allocated none).bump 1 (t - m.copies + 1)) := by
  have h3 : (create_ptr c m).2.throw_at = some t := hth
  have h4 : (create_ptr c m).2.copies ≤ t := h1
  have h5 : t < (create_ptr c m).2.copies + (l.take n).length := by
    simp [create_ptr, Nat.min_eq_left hn]
    exact h2
  have e : slice l 0 n = some (l.take n) := by simp [slice, hn]
  simp only [construct, Option.bind, e, Nat.not_lt.mpr hc, if_false, uc_at _ _ t h3 h4 h5]
  simp [create_ptr, Mem.eq_iff]
  intro q; split_ifs <;> rfl

theorem set_none_blocks {α : Type} (m : Mem α) (h : mwf m) (a k : Nat) :
    ((m.set_block m.allocated none).bump a k).blocks = m.blocks := by
  funext q
  simp only [bump_blocks, set_block_blocks]
  split_ifs with e
  · rw [e, mwf_fresh_none m h]
  · rfl

/-- Releasing a uniquely owned block that sits at an address unmapped in `m` gives back
the blocks of `m`. -/
theorem release_fresh_blocks {α : Type} (m m2 : Mem α) (a c : Nat) (e : List α)
    (ha : m.blocks a = none) (hb : m2.blocks a = some ⟨1, c, e⟩)
    (hq : ∀ q, q ≠ a → m2.blocks q = m.blocks q) : (m2.release a).blocks = m.blocks := by
  funext q
  simp only [release_blocks]
  split_ifs with e1
  · rw [e1, hb, ha]
    rfl
  · exact hq q e1

theorem unwind_fresh {α β : Type} (v : socow_vector α) (m2 : Mem α) (a c : Nat) (e : List α)
    (hb : m2.blocks a = some ⟨1, c, e⟩) :
    (unwind v (heap_vec e.length a) m2 : Res (St α) β) = .throw (v, m2.release a) := by
  simp only [unwind, destroy_heap m2 a 1 c e hb (le_refl _)]

/-! ## `push_back` and `insert` with an injected fault -/

theorem push_back_body_inline_at {α : Type}
    (ins : Nat → α → socow_vector α → Mem α → Res (St α) Nat) (N : Nat) (x : α) (l : List α)
    (m : Mem α) (hth : m.throw_at = some m.copies) (hl : l.length < N) :
    push_back_body ins N x (inline_vec l) m = .throw (inline_vec l, m.bump 0 1) := by
  have hne : ¬ l.length = N := by omega
  simp only [push_back_body, capacity_inline, is_linked_inline, inline_vec_size, hne,
    decide_False, Bool.or_self, Bool.false_eq_true, if_false, data_inline,
    copy_call_at m hth, if_true]

theorem push_back_body_unique_at {α : Type}
    (ins : Nat → α → socow_vector α → Mem α → Res (St α) Nat) (N : Nat) (x : α)
    (m : Mem α) (p c : Nat) (d : List α) (hb : m.blocks p = some ⟨1, c, d⟩)
    (hth : m.throw_at = some m.copies) (hl : d.length < c) :
    push_back_body ins N x (heap_vec d.length p) m
      = .throw (heap_vec d.length p, m.bump 0 1) := by
  have hne : ¬ d.length = c := by omega
  simp only [push_back_body, capacity_heap N m _ p 1 c d hb, is_linked_heap m _ p 1 c d hb,
    heap_vec_size, hne, decide_False, Bool.or_self, Bool.false_eq_true, if_false,
    lt_irrefl, data_unique N _ p c d m hb, copy_call_at m hth, if_true]

theorem push_back_body_unique_before {α : Type}
    (ins : Nat → α → socow_vector α → Mem α → Res (St α) Nat) (N : Nat) (x : α)
    (m : Mem α) (p c : Nat) (d : List α) (t : Nat) (hb : m.blocks p = some ⟨1, c, d⟩)
    (hth : m.throw_at = some t) (h : m.copies < t) (hl : d.length < c) :
    push_back_body ins N x (heap_vec d.length p) m =
      .ok () (heap_vec (d.length + 1) p, (m.set_block p (some ⟨1, c, d ++ [x]⟩)).bump 0 1) := by
  have hne : ¬ d.length = c := by omega
  have hb1 : (m.bump 0 1).blocks p = some ⟨1, c, d⟩ := hb
  simp only [push_back_body, capacity_heap N m _ p 1 c d hb, is_linked_heap m _ p 1 c d hb,
    heap_vec_size, hne, decide_False, Bool.or_self, Bool.false_eq_true, if_false,
    lt_irrefl, data_unique N _ p c d m hb, copy_call_before m t hth h, cdata_heap m _ p 1 c d hb,
    place_ok c d [x] (by simpa using hl), set_storage_heap _ _ p 1 c d _ hb1]
  simp [heap_vec, Mem.eq_iff]

/-- The copying loop of `insert` with the fault among its copies: the exception leaves the
loop with `new_vec` still owning its block alone, every other block untouched. -/
theorem insert_copy_loop_at {α : Type}
    (ins : Nat → α → socow_vector α → Mem α → Res (St α) Nat) (N : Nat)
    (this : socow_vector α) (src : List α) (a c t : Nat) (n : Nat) :
    ∀ (i : Nat) (e : List α) (m : Mem α), m.throw_at = some t → m.copies ≤ t →
      t < m.copies + n →
      m.blocks a = some ⟨1, c, e⟩ → e.length + n ≤ c → i + n ≤ src.length →
      (∀ m2 : Mem α, (∀ q, q ≠ a → m2.blocks q = m.blocks q) → cdata this m2 = some src) →
      ∃ (e2 : List α) (m3 : Mem α),
        insert_copy_loop (push_back_body ins N) this i n (heap_vec e.length a) m
          = .throw (heap_vec e2.length a, m3) ∧
        m3.blocks a = some ⟨1, c, e2⟩ ∧ ∀ q, q ≠ a → m3.blocks q = m.blocks q := by
  induction n with
  | zero =>
    intro i e m _ h1 h2
    omega
  | succ n ih =>
    intro i e m hth h1 h2 hb hc hi hsrc
    have hlt : i < src.length := by omega
    have e1 : (cdata this m).bind (fun l => l[i]?) = some src[i] := by
      rw [hsrc m (fun _ _ => rfl)]
      simp [hlt]
    by_cases ht : t = m.copies
    · subst ht
      refine ⟨e, m.bump 0 1, ?_, hb, fun _ _ => rfl⟩
      rw [insert_copy_loop, e1]
      simp only []
      rw [push_back_body_unique_at ins N src[i] m a c e hb hth (by omega)]
    · have hb1 : ((m.set_block a (some ⟨1, c, e ++ [src[i]]⟩)).bump 0 1).blocks a =
          some ⟨1, c, e ++ [src[i]]⟩ := by simp
      have hsrc1 : ∀ m2 : Mem α, (∀ q, q ≠ a →
          m2.blocks q = ((m.set_block a (some ⟨1, c, e ++ [src[i]]⟩)).bump 0 1).blocks q) →
          cdata this m2 = some src := by
        intro m2 hm2
        apply hsrc
        intro q hq
        rw [hm2 q hq]
        simp [hq]
      obtain ⟨e2, m3, ih1, ih2, ih3⟩ := ih (i + 1) (e ++ [src[i]])
        ((m.set_block a (some ⟨1, c, e ++ [src[i]]⟩)).bump 0 1) hth (by simp; omega)
        (by simp; omega) hb1 (by simp; omega) (by omega) hsrc1
      simp only [List.length_append, List.length_singleton] at ih1
      refine ⟨e2, m3, ?_, ih2, ?_⟩
      · rw [insert_copy_loop, e1]
        simp only []
        rw [push_back_body_unique_before ins N src[i] m a c e t hb hth (by omega) (by omega)]
        simp only []
        rw [ih1]
      · intro q hq
        rw [ih3 q hq]
        simp [hq]

/-- The reallocating path of `insert` with the fault among its copies (the prefix, the new
element, the suffix): the exception leaves `insert` with the vector as it was and the
blocks as they were. -/
theorem insert_realloc_at {α : Type} (N fuel pos : Nat) (x : α) (v : socow_vector α)
    (src : List α) (c : Nat) (lk : Bool) (m : Mem α) (t : Nat)
    (hth : m.throw_at = some t) (hmw : mwf m) (h1 : m.copies ≤ t)
    (h2 : t < m.copies + (src.length + 1))
    (hcap : capacity N v m = some c) (hlk : is_linked v m = some lk)
    (hsz : v._size = src.length) (hcond : (decide (v._size = c) || lk) = true)
    (hpos : pos ≤ src.length) (hc2 : src.length + 1 ≤ if v._size = c then c * 2 else c)
    (hsrc : ∀ m2 : Mem α, (∀ q, q ≠ m.allocated → m2.blocks q = m.blocks q) →
      cdata v m2 = some src) :
    ∃ m3, insert N (fuel + 1) pos x v m = .throw (v, m3) ∧ m3.blocks = m.blocks := by
  have ha : m.blocks m.allocated = none := mwf_fresh_none m hmw
  have hlen : (src.take pos).length = pos := by simp [hpos]
  have hlen2 : (src.take pos ++ [x]).length = pos + 1 := by simp [hpos]
  have hsrc0 : cdata v m = some src := hsrc m (fun _ _ => rfl)
  generalize hC : (if v._size = c then c * 2 else c) = C2 at hc2
  by_cases hA : t < m.copies + pos
  · refine ⟨_, ?_, set_none_blocks m hmw 1 (t - m.copies + 1)⟩
    simp only [insert, hcap, hlk, hcond, if_true, hsrc0, hC,
      construct_at src pos C2 m t hth h1 hA hpos (by omega)]
  · have e1 := construct_before src pos C2 m t hth (by omega) hpos (by omega)
    have hb1 : (m.fresh ⟨1, C2, src.take pos⟩ pos).blocks m.allocated
        = some ⟨1, C2, src.take pos⟩ := by simp
    by_cases hB : t = m.copies + pos
    · have e2 := push_back_body_unique_at (insert N fuel) N x
        (m.fresh ⟨1, C2, src.take pos⟩ pos) m.allocated C2
        (src.take pos) hb1 (by simp [hth, hB]) (by rw [hlen]; omega)
      rw [hlen] at e2
      have e3 := unwind_fresh (β := Nat) v ((m.fresh ⟨1, C2, src.take pos⟩ pos).bump 0 1)
        m.allocated C2 (src.take pos) hb1
      rw [hlen] at e3
      refine ⟨((m.fresh ⟨1, C2, src.take pos⟩ pos).bump 0 1).release m.allocated, ?_,
        release_fresh_blocks m ((m.fresh ⟨1, C2, src.take pos⟩ pos).bump 0 1) m.allocated C2
          (src.take pos) ha hb1 (fun q hq => by simp [hq])⟩
      simp only [insert, hcap, hlk, hcond, if_true, hsrc0, hC, e1, e2, e3]
    · have e2 := push_back_body_unique_before (insert N fuel) N x
        (m.fresh ⟨1, C2, src.take pos⟩ pos) m.allocated C2
        (src.take pos) t hb1 hth (by simp; omega) (by rw [hlen]; omega)
      rw [hlen] at e2
      have hb2 : (((m.fresh ⟨1, C2, src.take pos⟩ pos).set_block
          m.allocated (some ⟨1, C2, src.take pos ++ [x]⟩)).bump 0 1).blocks m.allocated
          = some ⟨1, C2, src.take pos ++ [x]⟩ := by simp
      obtain ⟨e4, m3, e3, hm3a, hm3q⟩ := insert_copy_loop_at (insert N fuel) N v src m.allocated
        C2 t (src.length - pos) pos (src.take pos ++ [x])
        (((m.fresh ⟨1, C2, src.take pos⟩ pos).set_block
          m.allocated (some ⟨1, C2, src.take pos ++ [x]⟩)).bump 0 1)
        hth (by simp; omega) (by simp; omega) hb2 (by rw [hlen2]; omega) (by omega)
        (fun m2 hm2 => hsrc m2 (fun q hq => by rw [hm2 q hq]; simp [hq]))
      rw [hlen2, ← hsz] at e3
      have e5 := unwind_fresh (β := Nat) v m3 m.allocated C2 e4 hm3a
      refine ⟨m3.release m.allocated, ?_, release_fresh_blocks m m3 m.allocated C2 e4 ha hm3a
        (fun q hq => by rw [hm3q q hq]; simp [hq])⟩
      simp only [insert, hcap, hlk, hcond, if_true, hsrc0, hC, e1, e2, e3, e5]

/-! ## The strong guarantee, operation by operation

`m` is a memory without a fault; the faulty run starts from `m.arm (m.copies + k)`, where
`k` is below the number of copies of the run without a fault.  Only the paths that swap
elements (`insert` and `erase` in place, assignment between two Inline vectors) need an
element swap that does not copy. -/

theorem swap_cost_move {α : Type} (m : Mem α) (h : m.swap_copies = false) (n : Nat) :
    swap_cost m n = 0 := by
  simp [swap_cost, h]

theorem insert_strong {α : Type} (N fuel k pos : Nat) (x : α) (v v2 : socow_vector α)
    (m m2 : Mem α) (ret : Nat) (hv : vwf N v m) (hmw : mwf m) (hm : m.throw_at = none)
    (hsc : m.swap_copies = false ∨ ∃ c lk, capacity N v m = some c ∧
      is_linked v m = some lk ∧ (decide (v._size = c) || lk) = true)
    (hpos : pos ≤ size v)
    (hok : insert N fuel pos x v m = .ok ret (v2, m2)) (hk : m.copies + k < m2.copies) :
    ∃ m3, insert N fuel pos x v (m.arm (m.copies + k)) = .throw (v, m3) ∧
      m3.blocks = m.blocks := by
  have hth : (m.arm (m.copies + k)).throw_at = some (m.copies + k) := rfl
  have hmw2 : mwf (m.arm (m.copies + k)) := hmw
  cases fuel with
  | zero => simp [insert] at hok
  | succ fuel =>
    rcases vwf_cases hv with ⟨l, rfl, hl⟩ | ⟨p, r, c, d, rfl, hb, hdc, hr, hp⟩
    · have hpos2 : pos ≤ l.length := hpos
      by_cases hfull : l.length = N
      · by_cases hN : N = 0
        · subst hN
          have hl0 : l = [] := List.length_eq_zero.mp hfull
          subst hl0
          have hp0 : pos = 0 := by simpa using hpos2
          subst hp0
          rw [insert_inline_zero] at hok
          cases hok
        · rw [insert_inline_full N fuel pos x l m hm hfull (by omega) hpos2] at hok
          cases hok
          simp only [fresh_copies] at hk
          exact insert_realloc_at N fuel pos x (inline_vec l) l N false (m.arm (m.copies + k))
            (m.copies + k) hth hmw2 (by simp) (by simp; omega) (capacity_inline N l _)
            (is_linked_inline l _) rfl (by simp [hfull])
            hpos2 (by simp [hfull]; omega) (fun m2 _ => cdata_inline l m2)
      · have hsc2 : m.swap_copies = false := by
          rcases hsc with h | ⟨c, lk, e1, e2, e3⟩
          · exact h
          · rw [capacity_inline] at e1
            rw [is_linked_inline] at e2
            cases e1
            cases e2
            have : l.length = N := by simpa using e3
            exact absurd this hfull
        rw [insert_inline_inplace N fuel pos x l m hm (by omega) hpos2] at hok
        cases hok
        simp only [bump_copies, swap_cost_move m hsc2] at hk
        have hk0 : k = 0 := by omega
        subst hk0
        refine ⟨(m.arm (m.copies + 0)).bump 0 1, ?_, rfl⟩
        have hne : ¬ l.length = N := hfull
        simp only [insert, capacity_inline, is_linked_inline, inline_vec_size, hne,
          decide_False, Bool.or_self, Bool.false_eq_true, if_false,
          push_back_body_inline_at (insert N fuel) N x l (m.arm (m.copies + 0)) rfl (by omega)]
    · have hpos2 : pos ≤ d.length := hpos
      have hba : (m.arm (m.copies + k)).blocks p = some ⟨r, c, d⟩ := hb
      by_cases hre : d.length = c ∨ 1 < r
      · by_cases hc0 : c = 0
        · subst hc0
          have hd0 : d = [] := List.length_eq_zero.mp (by omega)
          subst hd0
          have hp0 : pos = 0 := by simpa using hpos2
          subst hp0
          have := insert_capacity_zero N x (fuel + 1) m p r hb
          rw [show (([] : List α).length) = 0 from rfl] at hok
          rw [this] at hok
          cases hok
        · rw [insert_heap_realloc N fuel pos x m p r c d hb hr hp hm (by omega) hdc hre
            hpos2] at hok
          cases hok
          simp only [fresh_copies, release_copies] at hk
          have hne : p ≠ m.allocated := by omega
          have hcond : (decide (d.length = c) || decide (1 < r)) = true := by
            rcases hre with e | e <;> simp [e]
          exact insert_realloc_at N fuel pos x (heap_vec d.length p) d c (decide (1 < r))
            (m.arm (m.copies + k)) (m.copies + k) hth hmw2 (by simp) (by simp; omega)
            (capacity_heap N _ _ p r c d hba) (is_linked_heap _ _ p r c d hba) rfl hcond
            hpos2 (by simp only [heap_vec_size]; split_ifs <;> omega)
            (fun m2 hm2 => cdata_heap m2 _ p r c d (by rw [hm2 p hne]; exact hb))
      · have hr1 : r = 1 := by omega
        subst hr1
        have hsc2 : m.swap_copies = false := by
          rcases hsc with h | ⟨c2, lk, e1, e2, e3⟩
          · exact h
          · rw [capacity_heap N m _ p 1 c d hb] at e1
            rw [is_linked_heap m _ p 1 c d hb] at e2
            cases e1
            cases e2
            have : d.length = c := by simpa using e3
            exact absurd (Or.inl this) hre
        rw [insert_unique_inplace N fuel pos x m p c d hb hm (by omega) hpos2] at hok
        cases hok
        simp only [bump_copies, set_block_copies, swap_cost_move m hsc2] at hk
        have hk0 : k = 0 := by omega
        subst hk0
        refine ⟨(m.arm (m.copies + 0)).bump 0 1, ?_, rfl⟩
        have hne : ¬ d.length = c := by omega
        simp only [insert, capacity_heap N _ _ p 1 c d hba, is_linked_heap _ _ p 1 c d hba,
          heap_vec_size, hne, lt_irrefl, decide_False, Bool.or_self, Bool.false_eq_true,
          if_false,
          push_back_body_unique_at (insert N fuel) N x (m.arm (m.copies + 0)) p c d hba rfl
            (by omega)]

theorem push_back_strong {α : Type} (N fuel k : Nat) (x : α) (v v2 : socow_vector α)
    (m m2 : Mem α) (hv : vwf N v m) (hmw : mwf m) (hm : m.throw_at = none)
    (hok : push_back N fuel x v m = .ok () (v2, m2)) (hk : m.copies + k < m2.copies) :
    ∃ m3, push_back N fuel x v (m.arm (m.copies + k)) = .throw (v, m3) ∧
      m3.blocks = m.blocks := by
  have hcases : (∃ c lk, capacity N v m = some c ∧ is_linked v m = some lk ∧
      (decide (v._size = c) || lk) = true) ∨
      (∃ c lk, capacity N v m = some c ∧ is_linked v m = some lk ∧
      (decide (v._size = c) || lk) = false) := by
    rcases vwf_cases hv with ⟨l, rfl, hl⟩ | ⟨p, r, c, d, rfl, hb, hdc, hr, hp⟩
    · cases hcnd : (decide ((inline_vec l)._size = N) || false)
      · exact Or.inr ⟨N, false, capacity_inline N l m, is_linked_inline l m, hcnd⟩
      · exact Or.inl ⟨N, false, capacity_inline N l m, is_linked_inline l m, hcnd⟩
    · cases hcnd : (decide ((heap_vec d.length p : socow_vector α)._size = c) || decide (1 < r))
      · exact Or.inr ⟨c, _, capacity_heap N m _ p r c d hb, is_linked_heap m _ p r c d hb, hcnd⟩
      · exact Or.inl ⟨c, _, capacity_heap N m _ p r c d hb, is_linked_heap m _ p r c d hb, hcnd⟩
  have hcap : ∀ t, capacity N v (m.arm t) = capacity N v m := fun _ => rfl
  have hlk : ∀ t, is_linked v (m.arm t) = is_linked v m := fun _ => rfl
  rcases hcases with ⟨c, lk, e1, e2, e3⟩ | ⟨c, lk, e1, e2, e3⟩
  · have e : ∀ m0 : Mem α, capacity N v m0 = some c → is_linked v m0 = some lk →
        push_back N fuel x v m0 = drop_ret (insert N fuel v._size x v m0) := by
      intro m0 h1 h2
      simp only [push_back, push_back_body, h1, h2, e3, if_true]
    rw [e m e1 e2] at hok
    rw [e _ ((hcap _).trans e1) ((hlk _).trans e2)]
    cases hins : insert N fuel v._size x v m with
    | ok ret st =>
      obtain ⟨v3, m3⟩ := st
      rw [hins] at hok
      simp only [drop_ret] at hok
      cases hok
      obtain ⟨m4, e4, e5⟩ := insert_strong N fuel k v._size x v _ m _ ret hv hmw hm
        (Or.inr ⟨c, lk, e1, e2, e3⟩) (le_refl _) hins hk
      exact ⟨m4, by rw [e4]; rfl, e5⟩
    | throw st => rw [hins] at hok; simp [drop_ret] at hok
    | undefined => rw [hins] at hok; simp [drop_ret] at hok
    | out_of_fuel => rw [hins] at hok; simp [drop_ret] at hok
  · rcases vwf_cases hv with ⟨l, rfl, hl⟩ | ⟨p, r, c2, d, rfl, hb, hdc, hr, hp⟩
    · rw [capacity_inline] at e1
      rw [is_linked_inline] at e2
      cases e1
      cases e2
      have hne : ¬ l.length = N := by simpa using e3
      rw [show push_back N fuel x (inline_vec l) m = _ from
        push_back_body_inline _ N x l m hm (by omega)] at hok
      cases hok
      simp only [bump_copies] at hk
      have hk0 : k = 0 := by omega
      subst hk0
      exact ⟨(m.arm (m.copies + 0)).bump 0 1,
        push_back_body_inline_at _ N x l (m.arm (m.copies + 0)) rfl (by omega), rfl⟩
    · rw [capacity_heap N m _ p r c2 d hb] at e1
      rw [is_linked_heap m _ p r c2 d hb] at e2
      cases e1
      cases e2
      have hne : ¬ d.length = c ∧ ¬ 1 < r := by simpa using e3
      have hr1 : r = 1 := by omega
      subst hr1
      rw [show push_back N fuel x (heap_vec d.length p) m = _ from
        push_back_body_unique _ N x m p c d hb hm (by omega)] at hok
      cases hok
      simp only [bump_copies, set_block_copies] at hk
      have hk0 : k = 0 := by omega
      subst hk0
      exact ⟨(m.arm (m.copies + 0)).bump 0 1,
        push_back_body_unique_at _ N x (m.arm (m.copies + 0)) p c d hb rfl (by omega), rfl⟩

theorem set_capacity_at {α : Type} (c2 : Nat) (v : socow_vector α) (src : List α) (m : Mem α)
    (t : Nat) (hth : m.throw_at = some t) (h1 : m.copies ≤ t) (h2 : t < m.copies + src.length)
    (hsrc : cdata v m = some src) (hsz : v._size = src.length) (hc : src.length ≤ c2) :
    set_capacity c2 v m
      = .throw (v, (m.set_block m.allocated none).bump 1 (t - m.copies + 1)) := by
  simp only [set_capacity, hsrc, hsz,
    construct_at src src.length c2 m t hth h1 h2 (le_refl _) hc]

theorem data_strong {α : Type} (N k : Nat) (v v2 : socow_vector α) (m m2 : Mem α)
    (hv : vwf N v m) (hmw : mwf m) (hm : m.throw_at = none)
    (hok : data N v m = .ok () (v2, m2)) (hk : m.copies + k < m2.copies) :
    ∃ m3, data N v (m.arm (m.copies + k)) = .throw (v, m3) ∧ m3.blocks = m.blocks := by
  rcases vwf_cases hv with ⟨l, rfl, hl⟩ | ⟨p, r, c, d, rfl, hb, hdc, hr, hp⟩
  · rw [data_inline] at hok
    cases hok
    omega
  · by_cases h1 : 1 < r
    · rw [data_shared N m p r c d hb h1 hp hm hdc] at hok
      cases hok
      simp only [fresh_copies, release_copies] at hk
      have hba : (m.arm (m.copies + k)).blocks p = some ⟨r, c, d⟩ := hb
      refine ⟨_, ?_, set_none_blocks (m.arm (m.copies + k)) hmw 1 (m.copies + k - m.copies + 1)⟩
      have e3 : (heap_vec d.length p : socow_vector α)._is_small = false := rfl
      simp only [data, e3, unshare, is_linked_heap _ _ p r c d hba, h1, decide_True,
        capacity_heap N _ _ p r c d hba, Bool.false_eq_true, if_false]
      exact set_capacity_at c (heap_vec d.length p) d (m.arm (m.copies + k)) (m.copies + k) rfl
        (by simp) (by simp; omega) (cdata_heap _ _ p r c d hba) rfl hdc
    · have : r = 1 := by omega
      subst this
      rw [data_unique N _ p c d m hb] at hok
      cases hok
      omega

theorem copy_to_small_at {α : Type} (N : Nat) (l : List α) (n k p : Nat) (m : Mem α) (t : Nat)
    (hth : m.throw_at = some t) (h1 : m.copies ≤ t) (h2 : t < m.copies + n)
    (hn : n ≤ N) (hl : n ≤ l.length) :
    copy_to_small N (some l) n (heap_vec k p) m
      = .throw (heap_vec k p, m.bump 0 (t - m.copies + 1)) := by
  have e : ¬ N < n := by omega
  have e2 : slice l 0 n = some (l.take n) := slice_take l n hl
  have e3 := uc_at (l.take n) m t hth h1 (by simp [Nat.min_eq_left hl]; omega)
  simp only [copy_to_small, e, if_false, heap_vec_is_small, Bool.false_eq_true, heap_vec_union,
    Option.bind, e2, e3]

theorem to_small_at {α : Type} (N : Nat) (m : Mem α) (p r c : Nat) (d : List α) (t : Nat)
    (hb : m.blocks p = some ⟨r, c, d⟩) (hth : m.throw_at = some t) (h1 : m.copies ≤ t)
    (h2 : t < m.copies + d.length) (hn : d.length ≤ N) :
    to_small N (heap_vec d.length p) m
      = .throw (heap_vec d.length p, m.bump 0 (t - m.copies + 1)) := by
  simp only [to_small, deref, heap_vec_union, hb, Option.map, heap_vec_size,
    copy_to_small_at N d d.length d.length p m t hth h1 h2 hn (le_refl _)]

theorem reserve_strong {α : Type} (N n k : Nat) (v v2 : socow_vector α) (m m2 : Mem α)
    (hv : vwf N v m) (hmw : mwf m) (hm : m.throw_at = none)
    (hok : reserve N n v m = .ok () (v2, m2)) (hk : m.copies + k < m2.copies) :
    ∃ m3, reserve N n v (m.arm (m.copies + k)) = .throw (v, m3) ∧ m3.blocks = m.blocks := by
  rcases vwf_cases hv with ⟨l, rfl, hl⟩ | ⟨p, r, c, d, rfl, hb, hdc, hr, hp⟩
  · by_cases h1 : n ≤ N
    · rw [reserve_noop N n _ m (Or.inr ⟨rfl, h1⟩)] at hok
      cases hok
      omega
    · rw [reserve_inline_grow N n l m hm hl (by omega)] at hok
      cases hok
      simp only [fresh_copies] at hk
      refine ⟨_, ?_, set_none_blocks (m.arm (m.copies + k)) hmw 1 (m.copies + k - m.copies + 1)⟩
      have hc1 : ¬ n < l.length := by omega
      have hn : N < n := by omega
      simp only [reserve, inline_vec_size, inline_vec_is_small, hc1, h1, decide_False,
        Bool.and_false, Bool.or_self, Bool.false_eq_true, if_false, Bool.not_true,
        Bool.false_and, capacity_inline, hn, if_true]
      exact set_capacity_at n (inline_vec l) l (m.arm (m.copies + k)) (m.copies + k) rfl
        (by simp) (by simp; omega) (cdata_inline l _) rfl (by omega)
  · have hba : (m.arm (m.copies + k)).blocks p = some ⟨r, c, d⟩ := hb
    by_cases h0 : n < d.length
    · rw [reserve_noop N n _ m (Or.inl h0)] at hok
      cases hok
      omega
    · by_cases h1 : n ≤ N
      · rw [reserve_to_small N n m p r c d hb hr hm (by omega) h1] at hok
        cases hok
        simp only [bump_copies, release_copies] at hk
        refine ⟨(m.arm (m.copies + k)).bump 0 (m.copies + k - m.copies + 1), ?_, rfl⟩
        simp only [reserve, heap_vec_size, heap_vec_is_small, h0, decide_False, Bool.false_and,
          Bool.or_self, Bool.false_eq_true, if_false, Bool.not_false, h1, decide_True,
          Bool.and_self, if_true]
        exact to_small_at N (m.arm (m.copies + k)) p r c d (m.copies + k) hba rfl (by simp)
          (by simp; omega) (by omega)
      · by_cases h2 : c < n ∨ 1 < r
        · rw [reserve_heap_realloc N n m p r c d hb hr hp hm (by omega) (by omega) h2] at hok
          cases hok
          simp only [fresh_copies, release_copies] at hk
          refine ⟨_, ?_, set_none_blocks (m.arm (m.copies + k)) hmw 1 (m.copies + k - m.copies + 1)⟩
          have e := set_capacity_at n (heap_vec d.length p) d (m.arm (m.copies + k))
            (m.copies + k) rfl (by simp) (by simp; omega) (cdata_heap _ _ p r c d hba) rfl
            (by omega)
          simp only [reserve, heap_vec_size, heap_vec_is_small, h0, h1, decide_False,
            Bool.false_and, Bool.and_false, Bool.or_self, Bool.false_eq_true, if_false,
            Bool.not_false, capacity_heap N _ _ p r c d hba, refs_count_heap _ _ p r c d hba, e]
          rcases h2 with e1 | e1
          · simp [e1]
          · simp [e1]
        · have hr1 : r = 1 := by omega
          subst hr1
          rw [reserve_heap_keep N n d.length m p c d hb (by omega) (by omega) (by omega)] at hok
          cases hok
          omega

theorem erase_strong {α : Type} (N fuel k f t : Nat) (v v2 : socow_vector α)
    (m m2 : Mem α) (ret : Nat) (hv : vwf N v m) (hmw : mwf m) (hm : m.throw_at = none)
    (hsc : m.swap_copies = false ∨ f = t ∨ is_linked v m = some true)
    (hft : f ≤ t) (ht : t ≤ size v)
    (hok : erase N fuel f t v m = .ok ret (v2, m2)) (hk : m.copies + k < m2.copies) :
    ∃ m3, erase N fuel f t v (m.arm (m.copies + k)) = .throw (v, m3) ∧
      m3.blocks = m.blocks := by
  cases fuel with
  | zero => simp [erase] at hok
  | succ fuel =>
    rcases vwf_cases hv with ⟨l, rfl, hl⟩ | ⟨p, r, c, d, rfl, hb, hdc, hr, hp⟩
    · have ht2 : t ≤ l.length := ht
      by_cases e : f = t
      · subst e
        rw [erase_empty_inline] at hok
        cases hok
        omega
      · have hsc2 : m.swap_copies = false := by
          rcases hsc with h | h | h
          · exact h
          · exact absurd h e
          · rw [is_linked_inline] at h
            cases h
        rw [erase_inline N fuel f t l m hm (by omega) ht2] at hok
        cases hok
        simp only [bump_copies, swap_cost_move m hsc2] at hk
        omega
    · have ht2 : t ≤ d.length := ht
      have hba : (m.arm (m.copies + k)).blocks p = some ⟨r, c, d⟩ := hb
      by_cases h1 : 1 < r
      · by_cases e : f = t
        · subst e
          rw [erase_empty_shared N fuel f m p r c d hb h1 hp hm hdc] at hok
          cases hok
          obtain ⟨m3, e3, hm3⟩ := data_strong N k (heap_vec d.length p) _ m _ hv hmw hm
            (data_shared N m p r c d hb h1 hp hm hdc) hk
          refine ⟨m3, ?_, hm3⟩
          simp only [erase, if_true, e3]
        · rw [erase_shared N fuel f t m p r c d hb h1 hp hm hdc (by omega) ht2] at hok
          cases hok
          simp only [fresh_copies, release_copies] at hk
          have hf : f ≤ d.length := by omega
          have hnp : p ≠ m.allocated := by omega
          have ha : m.blocks m.allocated = none := mwf_fresh_none m hmw
          by_cases hA : k < f
          · refine ⟨_, ?_, set_none_blocks (m.arm (m.copies + k)) hmw 1 (m.copies + k - m.copies + 1)⟩
            simp only [erase, e, if_false, is_linked_heap _ _ p r c d hba, h1, decide_True,
              capacity_heap N _ _ p r c d hba, cdata_heap _ _ p r c d hba,
              construct_at d f c (m.arm (m.copies + k)) (m.copies + k) rfl (by simp)
                (by simp; omega) hf (by omega)]
            rfl
          · have hb0 : ((m.arm (m.copies + k)).fresh ⟨1, c, d.take f⟩ f).blocks m.allocated
                = some ⟨1, c, d.take f⟩ := by simp
            have hb1 : ((m.arm (m.copies + k)).fresh ⟨1, c, d.take f⟩ f).blocks p
                = some ⟨r, c, d⟩ := by simp [hnp, hb]
            have hlen : (d.take f).length = f := by simp [hf]
            have e1 := construct_before d f c (m.arm (m.copies + k)) (m.copies + k) rfl
              (by simp; omega) hf (by omega)
            simp only [arm_allocated] at e1
            have e2 := uc_at (d.drop t) ((m.arm (m.copies + k)).fresh ⟨1, c, d.take f⟩ f)
              (m.copies + k) rfl (by simp; omega) (by simp; omega)
            have hb2 : (((m.arm (m.copies + k)).fresh ⟨1, c, d.take f⟩ f).bump 0
                (m.copies + k - ((m.arm (m.copies + k)).fresh ⟨1, c, d.take f⟩ f).copies
                  + 1)).blocks m.allocated = some ⟨1, c, d.take f⟩ := by simp
            have e3 := unwind_fresh (β := Nat) (heap_vec d.length p)
              (((m.arm (m.copies + k)).fresh ⟨1, c, d.take f⟩ f).bump 0
                (m.copies + k - ((m.arm (m.copies + k)).fresh ⟨1, c, d.take f⟩ f).copies + 1))
              m.allocated c (d.take f) hb2
            rw [hlen] at e3
            refine ⟨_, ?_, release_fresh_blocks m
              (((m.arm (m.copies + k)).fresh ⟨1, c, d.take f⟩ f).bump 0
                (m.copies + k - ((m.arm (m.copies + k)).fresh ⟨1, c, d.take f⟩ f).copies + 1))
              m.allocated c (d.take f) ha hb2 (fun q hq => by simp [hq])⟩
            simp only [erase, e, if_false, is_linked_heap _ _ p r c d hba, h1, decide_True,
              capacity_heap N _ _ p r c d hba, cdata_heap _ _ p r c d hba, e1,
              data_unique N _ m.allocated c _ _ hb0, cdata_heap _ _ p r c d hb1, Option.bind,
              heap_vec_size, slice_drop d t ht2, cdata_heap _ _ m.allocated 1 c _ hb0,
              capacity_heap N _ _ m.allocated 1 c _ hb0, e2, e3]
      · have hr1 : r = 1 := by omega
        subst hr1
        by_cases e : f = t
        · subst e
          rw [erase_empty_unique N fuel f _ m p c d hb] at hok
          cases hok
          omega
        · have hsc2 : m.swap_copies = false := by
            rcases hsc with h | h | h
            · exact h
            · exact absurd h e
            · rw [is_linked_heap m _ p 1 c d hb] at h
              simp at h
          rw [erase_unique N fuel f t m p c d hb hm (by omega) ht2] at hok
          cases hok
          simp only [bump_copies, set_block_copies, swap_cost_move m hsc2] at hk
          omega

/-- The first branch of `operator=` with the fault among its copies (the new tail, then the
scratch copy of the prefix): the receiver is as it was. -/
theorem assign_first_at {α : Type} (N : Nat) (l k : List α) (m : Mem α) (t : Nat)
    (hth : m.throw_at = some t) (h1 : m.copies ≤ t) (h2 : t < m.copies + k.length)
    (hlk : l.length ≤ k.length) (hk : k.length ≤ N) :
    ∃ j, assign_first N (inline_vec l) (inline_vec k) m = .throw (inline_vec l, m.bump 0 j) := by
  have hdl : (k.drop l.length).length = k.length - l.length := by simp
  by_cases hA : t < m.copies + (k.length - l.length)
  · refine ⟨t - m.copies + 1, ?_⟩
    simp only [assign_first, cdata_inline, inline_vec_size, slice_drop k l.length hlk,
      uc_at (k.drop l.length) m t hth h1 (by rw [hdl]; exact hA)]
  · have e1 := uc_before (k.drop l.length) m t hth (by rw [hdl]; omega)
    have e2 := uc_at (k.take l.length) (m.bump 0 (k.drop l.length).length) t hth
      (by simp; omega) (by simp [Nat.min_eq_left hlk]; omega)
    have hd : delete_vector_range (l ++ k.drop l.length) l.length k.length = some l := by
      have hlen : (l ++ k.drop l.length).length = k.length := by simp; omega
      have := delete_tail (l ++ k.drop l.length) l.length (by simp)
      rw [hlen] at this
      simpa using this
    refine ⟨(k.drop l.length).length
      + (t - (m.bump 0 (k.drop l.length).length).copies + 1), ?_⟩
    simp only [assign_first, cdata_inline, inline_vec_size, slice_drop k l.length hlk, e1,
      place_ok N l (k.drop l.length) (by simp; omega), slice_take k l.length hlk, e2, hd]
    simp [inline_vec, Mem.eq_iff]

theorem assign_first_default_before {α : Type} (N : Nat) (k : List α) (m : Mem α) (t : Nat)
    (hth : m.throw_at = some t) (h : m.copies + k.length ≤ t) (hk : k.length ≤ N) :
    assign_first N default_vector (inline_vec k) m = .ok () (inline_vec k, m.bump 0 k.length) := by
  have e0 : (default_vector : socow_vector α) = inline_vec [] := rfl
  have e1 := uc_before k m t hth h
  have e2 : uninitialized_copy ([] : List α) (m.bump 0 k.length)
      = (some [], m.bump 0 k.length) := rfl
  have e3 : slice k 0 k.length = some k := by simpa using slice_drop k 0 (Nat.zero_le _)
  have e4 : slice k 0 0 = some [] := by simp [slice]
  have e5 : place N [] 0 k = some k := by simpa using place_ok N [] k (by simpa using hk)
  have e6 : place N [] 0 ([] : List α) = some [] := by simp [place]
  simp only [assign_first, e0, cdata_inline, inline_vec_size, List.length_nil, e3, e1, e5, e4,
    e2, e6, swap_loop]
  rfl

theorem swap_arrays_at {α : Type} (N : Nat) (l k : List α) (m : Mem α) (t : Nat)
    (hth : m.throw_at = some t) (h1 : m.copies ≤ t)
    (h2 : t < m.copies + (k.length - l.length)) (hlk : l.length ≤ k.length) :
    swap_arrays N (inline_vec l) (inline_vec k) m
      = .throw (inline_vec l, inline_vec k, m.bump 0 (t - m.copies + 1)) := by
  simp only [swap_arrays, data_inline, cdata_inline, capacity_inline, inline_vec_size,
    slice_drop k l.length hlk, uc_at (k.drop l.length) m t hth h1 (by simpa using h2)]

theorem assign_strong {α : Type} (N k : Nat) (v other v2 : socow_vector α) (m m2 : Mem α)
    (hv : vwf N v m) (ho : vwf N other m) (hm : m.throw_at = none)
    (hsc : m.swap_copies = false ∨ is_small v = false ∨ is_small other = false)
    (hok : assign N v other m = .ok () (v2, m2)) (hk : m.copies + k < m2.copies) :
    ∃ m3, assign N v other (m.arm (m.copies + k)) = .throw (v, m3) ∧ m3.blocks = m.blocks := by
  rcases vwf_cases ho with ⟨s, rfl, hs⟩ | ⟨q, rq, cq, dq, rfl, hbq, _, _, _⟩
  · rcases vwf_cases hv with ⟨l, rfl, hl⟩ | ⟨p, r, c, d, rfl, hb, hdc, hr, hp⟩
    · have hsc2 : m.swap_copies = false := by
        rcases hsc with h | h | h
        · exact h
        · simp [is_small] at h
        · simp [is_small] at h
      by_cases hls : l.length ≤ s.length
      · rw [assign_inline_grow N l s m hm hls hs] at hok
        cases hok
        simp only [bump_copies, swap_cost_move m hsc2] at hk
        obtain ⟨j, e⟩ := assign_first_at N l s (m.arm (m.copies + k)) (m.copies + k) rfl
          (by simp) (by simp; omega) hls hs
        refine ⟨(m.arm (m.copies + k)).bump 0 j, ?_, rfl⟩
        simp only [assign, inline_vec_is_small, inline_vec_size, Bool.and_self, hls,
          decide_True, if_true, e]
      · rw [assign_inline_shrink N l s m hm (by omega) hl] at hok
        cases hok
        simp only [bump_copies, swap_cost_move m hsc2] at hk
        by_cases hA : k < s.length
        · obtain ⟨j, e⟩ := assign_first_at N [] s (m.arm (m.copies + k)) (m.copies + k) rfl
            (by simp) (by simp; omega) (by simp) hs
          have e0 : (default_vector : socow_vector α) = inline_vec [] := rfl
          refine ⟨(m.arm (m.copies + k)).bump 0 j, ?_, rfl⟩
          simp only [assign, inline_vec_is_small, inline_vec_size, Bool.and_self, hls,
            decide_False, Bool.and_false, Bool.false_eq_true, if_false, if_true, e0, e]
        · have e1 := assign_first_default_before N s (m.arm (m.copies + k)) (m.copies + k) rfl
            (by simp; omega) hs
          have e2 := swap_arrays_at N s l ((m.arm (m.copies + k)).bump 0 s.length)
            (m.copies + k) rfl (by simp; omega) (by simp; omega) (by omega)
          have hlt : s.length < l.length := by omega
          refine ⟨((m.arm (m.copies + k)).bump 0 s.length).bump 0
            (m.copies + k - ((m.arm (m.copies + k)).bump 0 s.length).copies + 1), ?_, rfl⟩
          simp only [assign, inline_vec_is_small, inline_vec_size, Bool.and_self, hls,
            decide_False, Bool.and_false, Bool.false_eq_true, if_false, if_true, e1, swap,
            swap_body, hlt, e2, destroy_inline]
    · rw [assign_heap_inline N m p r c d s hb hr hm hs] at hok
      cases hok
      simp only [bump_copies, release_copies] at hk
      refine ⟨(m.arm (m.copies + k)).bump 0 (m.copies + k - m.copies + 1), ?_, rfl⟩
      simp only [assign, inline_vec_is_small, heap_vec_is_small, inline_vec_size, heap_vec_size,
        heap_vec_union, Bool.false_and, Bool.not_false, Bool.and_self, if_true, cdata_inline,
        Bool.false_eq_true, if_false]
      rw [copy_to_small_at N s s.length d.length p (m.arm (m.copies + k)) (m.copies + k) rfl
        (by simp) (by simp; omega) hs (le_refl _)]
      rfl
  · rcases vwf_cases hv with ⟨l, rfl, hl⟩ | ⟨p, r, c, d, rfl, hb, hdc, hr, hp⟩
    · rw [assign_inline_heap N l dq.length q m rq cq dq hbq] at hok
      cases hok
      simp only [share_copies] at hk
      omega
    · have e : assign N (heap_vec d.length p) (heap_vec dq.length q) m
          = .ok () (heap_vec dq.length q, (m.release p).share q ) ∨
          assign N (heap_vec d.length p) (heap_vec dq.length q) m = .undefined := by
        by_cases hpq : p = q → 2 ≤ r
        · exact Or.inl (assign_heap_heap N m p r c d dq.length q rq cq dq hb hr hbq hpq)
        · right
          have hpq2 : p = q ∧ r = 1 := by
            by_contra hc
            apply hpq
            intro e1
            by_contra hc2
            exact hc ⟨e1, by omega⟩
          obtain ⟨e1, e2⟩ := hpq2
          subst e1
          subst e2
          simp [assign, assign_last, destroy_heap m p 1 c d hb (le_refl _), add_ptr, deref,
            Mem.release, released, hb]
      rcases e with e | e
      · rw [e] at hok
        cases hok
        simp only [share_copies, release_copies] at hk
        omega
      · rw [e] at hok
        cases hok

theorem observe_blocks {α : Type} (N : Nat) (v : socow_vector α) (m m3 : Mem α)
    (h : m3.blocks = m.blocks) : observe N v m3 = observe N v m := by
  simp [observe, capacity, elems, cdata, deref, h]

theorem cond_cases {α : Type} (N : Nat) (v : socow_vector α) (m : Mem α) (hv : vwf N v m) :
    ∃ c lk, capacity N v m = some c ∧ is_linked v m = some lk ∧
      ((decide (v._size = c) || lk) = true ∨ (size v ≠ c ∧ lk = false)) := by
  rcases vwf_cases hv with ⟨l, rfl, hl⟩ | ⟨p, r, c, d, rfl, hb, hdc, hr, hp⟩
  · refine ⟨N, false, capacity_inline N l m, is_linked_inline l m, ?_⟩
    by_cases e : l.length = N
    · left
      simp [e]
    · right
      exact ⟨e, rfl⟩
  · refine ⟨c, decide (1 < r), capacity_heap N m _ p r c d hb, is_linked_heap m _ p r c d hb, ?_⟩
    by_cases e : d.length = c ∨ 1 < r
    · left
      rcases e with e | e <;> simp [e]
    · right
      have e1 : ¬ d.length = c := fun h => e (Or.inl h)
      have e2 : ¬ 1 < r := fun h => e (Or.inr h)
      exact ⟨e1, by simp [e2]⟩

/-- The strong guarantee away from throwing swaps: for each of `insert`, `erase`,
`push_back`, `reserve`, copy assignment and the mutable `data()`, called within its
precondition on a well-formed vector in a well-formed memory, on every path that swaps no
element, or on any path when the element swap does not copy: when the call without a fault
returns normally, and the copy of index `k` among the copies it makes is made to throw
instead, the call throws, the vector has the same fields (so the same size, mode, capacity
and elements), and the heap has the same blocks as before the call (other vectors see no
change, every block created by the call is gone). -/
theorem strong_guarantee_off_swaps {α : Type} (N fuel k : Nat) (op : GuardedOp α)
    (v v2 : socow_vector α) (m m2 : Mem α) (hv : vwf N v m) (hmw : mwf m)
    (hm : m.throw_at = none) (hsc : op.swaps N v m → m.swap_copies = false)
    (hpre : op.pre N v m)
    (hok : op.run N fuel v m = .ok () (v2, m2)) (hk : m.copies + k < m2.copies) :
    ∃ m3, op.run N fuel v (m.arm (m.copies + k)) = .throw (v, m3) ∧ m3.blocks = m.blocks ∧
      observe N v m3 = observe N v m := by
  have key : ∃ m3, op.run N fuel v (m.arm (m.copies + k)) = .throw (v, m3) ∧
      m3.blocks = m.blocks := by
    cases op with
    | insert p x =>
      have hsc2 : m.swap_copies = false ∨ ∃ c lk, capacity N v m = some c ∧
          is_linked v m = some lk ∧ (decide (v._size = c) || lk) = true := by
        obtain ⟨c, lk, e1, e2, e3⟩ := cond_cases N v m hv
        rcases e3 with e3 | ⟨e3, e4⟩
        · exact Or.inr ⟨c, lk, e1, e2, e3⟩
        · subst e4
          exact Or.inl (hsc ⟨c, e1, e3, e2⟩)
      simp only [GuardedOp.run] at hok ⊢
      cases hins : Socow.insert N fuel p x v m with
      | ok ret st =>
        obtain ⟨v3, m3⟩ := st
        rw [hins] at hok
        simp only [drop_ret] at hok
        cases hok
        obtain ⟨m4, e4, e5⟩ := insert_strong N fuel k p x v _ m _ ret hv hmw hm hsc2 hpre hins hk
        exact ⟨m4, by rw [e4]; rfl, e5⟩
      | throw st => rw [hins] at hok; simp [drop_ret] at hok
      | undefined => rw [hins] at hok; simp [drop_ret] at hok
      | out_of_fuel => rw [hins] at hok; simp [drop_ret] at hok
    | erase f t =>
      have hsc2 : m.swap_copies = false ∨ f = t ∨ is_linked v m = some true := by
        by_cases e : f = t
        · exact Or.inr (Or.inl e)
        · obtain ⟨c, lk, e1, e2, _⟩ := cond_cases N v m hv
          cases lk with
          | true => exact Or.inr (Or.inr e2)
          | false => exact Or.inl (hsc ⟨e, e2⟩)
      simp only [GuardedOp.run] at hok ⊢
      cases hers : Socow.erase N fuel f t v m with
      | ok ret st =>
        obtain ⟨v3, m3⟩ := st
        rw [hers] at hok
        simp only [drop_ret] at hok
        cases hok
        obtain ⟨m4, e4, e5⟩ := erase_strong N fuel k f t v _ m _ ret hv hmw hm hsc2 hpre.1
          hpre.2 hers hk
        exact ⟨m4, by rw [e4]; rfl, e5⟩
      | throw st => rw [hers] at hok; simp [drop_ret] at hok
      | undefined => rw [hers] at hok; simp [drop_ret] at hok
      | out_of_fuel => rw [hers] at hok; simp [drop_ret] at hok
    | push_back x => exact push_back_strong N fuel k x v v2 m m2 hv hmw hm hok hk
    | reserve n => exact reserve_strong N n k v v2 m m2 hv hmw hm hok hk
    | assign other =>
      have hsc2 : m.swap_copies = false ∨ is_small v = false ∨ is_small other = false := by
        cases e1 : is_small v with
        | false => exact Or.inr (Or.inl rfl)
        | true =>
          cases e2 : is_small other with
          | false => exact Or.inr (Or.inr rfl)
          | true => exact Or.inl (hsc ⟨e1, e2⟩)
      exact assign_strong N k v other v2 m m2 hv hpre hm hsc2 hok hk
    | data => exact data_strong N k v v2 m m2 hv hmw hm hok hk
  obtain ⟨m3, e1, e2⟩ := key
  exact ⟨m3, e1, e2, observe_blocks N v m m3 e2⟩

/-- An instance of `strong_guarantee_off_swaps` with a copying element swap: `push_back`
on a full Inline vector, the third of its five copies thrown. -/
theorem strong_guarantee_example :
    ∃ m3, (GuardedOp.push_back 9).run 4 1 (inline_vec [1, 2, 3, 4])
        (copy_swap_mem.arm (copy_swap_mem.copies + 2)) = .throw (inline_vec [1, 2, 3, 4], m3) ∧
      m3.blocks = copy_swap_mem.blocks ∧
      observe 4 (inline_vec [1, 2, 3, 4]) m3
        = observe 4 (inline_vec [1, 2, 3, 4]) copy_swap_mem := by
  have h1 : vwf 4 (inline_vec [1, 2, 3, 4]) copy_swap_mem := by simp [vwf, inline_vec]
  have h2 : mwf copy_swap_mem := fun _ _ => rfl
  have h4 : (GuardedOp.push_back 9).run 4 1 (inline_vec [1, 2, 3, 4]) copy_swap_mem
      = .ok () (heap_vec 5 0, copy_swap_mem.fresh ⟨1, 8, [1, 2, 3, 4, 9]⟩ 5) :=
    push_back_inline_full 4 0 9 [1, 2, 3, 4] copy_swap_mem rfl rfl (by decide)
  exact strong_guarantee_off_swaps 4 1 2 (.push_back 9) (inline_vec [1, 2, 3, 4]) _
    copy_swap_mem _ h1 h2 rfl (fun h => absurd h (by simp [GuardedOp.swaps])) trivial h4
    (by show 0 + 2 < 0 + 5; decide)

/-- C7: the strong guarantee fails on each path that swaps elements, for an element type
whose `std::swap` goes through the copy constructor (`SMALL_SIZE = 4`, no block involved).
Copy assignment `r = s` with `r = [1, 2]` and `s = [7, 8]`, both Inline: without a fault it
makes four copies (two for the scratch copy, two in the swaps) and gives `[7, 8]`; when the
fourth copy throws, the call throws and leaves the receiver as `[7, 2]`.
`insert(begin(), 0)` on the Inline vector `[1, 2]`: three copies without a fault; when the
second throws, the vector is left as `[1, 2, 0]` with size 3.  `erase(begin(), begin()+1)`
on the Inline vector `[1, 2, 3]`: two copies without a fault; when the second throws, the
vector is left as `[2, 1, 3]`. -/
theorem C7_throwing_swap_breaks_guarantee :
    (assign 4 (inline_vec [1, 2]) (inline_vec [7, 8]) copy_swap_mem
        = .ok () (inline_vec [7, 8], copy_swap_mem.bump 0 4) ∧
      assign 4 (inline_vec [1, 2]) (inline_vec [7, 8]) (copy_swap_mem.arm 3)
        = .throw (inline_vec [7, 2], (copy_swap_mem.arm 3).bump 0 4) ∧
      observe 4 (inline_vec [7, 2]) ((copy_swap_mem.arm 3).bump 0 4)
        ≠ observe 4 (inline_vec [1, 2]) copy_swap_mem) ∧
    (insert 4 1 0 0 (inline_vec [1, 2]) copy_swap_mem
        = .ok 0 (inline_vec [0, 1, 2], copy_swap_mem.bump 0 3) ∧
      insert 4 1 0 0 (inline_vec [1, 2]) (copy_swap_mem.arm 1)
        = .throw (inline_vec [1, 2, 0], (copy_swap_mem.arm 1).bump 0 2) ∧
      observe 4 (inline_vec [1, 2, 0]) ((copy_swap_mem.arm 1).bump 0 2)
        ≠ observe 4 (inline_vec [1, 2]) copy_swap_mem) ∧
    (erase 4 1 0 1 (inline_vec [1, 2, 3]) copy_swap_mem
        = .ok 0 (inline_vec [2, 3], copy_swap_mem.bump 0 2) ∧
      erase 4 1 0 1 (inline_vec [1, 2, 3]) (copy_swap_mem.arm 1)
        = .throw (inline_vec [2, 1, 3], (copy_swap_mem.arm 1).bump 0 2) ∧
      observe 4 (inline_vec [2, 1, 3]) ((copy_swap_mem.arm 1).bump 0 2)
        ≠ observe 4 (inline_vec [1, 2, 3]) copy_swap_mem) := by
  refine ⟨⟨rfl, rfl, ?_⟩, ⟨rfl, rfl, ?_⟩, ⟨rfl, rfl, ?_⟩⟩
  · rw [observe_inline, observe_inline]
    decide
  · rw [observe_inline, observe_inline]
    decide
  · rw [observe_inline, observe_inline]
    decide

/-! ## Calls that change nothing, and unsharing -/

/-- C11, counterexample: with `SMALL_SIZE = 4`, `reserve(size())` is not a no-op on a Heap
vector.  On the uniquely owned Heap vector `[7, 8, 9]` (capacity 6) `reserve(3)` makes the
vector Inline and frees the block; on the shared Heap vector `[1, 2, 3, 4, 5]` (capacity 8,
reference count 2) `reserve(5)` moves the vector to a fresh block of capacity 5 and takes
the old block's reference count to 1. -/
theorem C11_reserve_size_not_noop :
    reserve 4 3 (heap_vec 3 1) sample_mem2
      = .ok () (inline_vec [7, 8, 9], (sample_mem2.release 1).bump 0 3) ∧
    size (heap_vec 3 1 : socow_vector Nat) = 3 ∧
    sample_mem2.blocks 1 = some ⟨1, 6, [7, 8, 9]⟩ ∧
    ((sample_mem2.release 1).bump 0 3).blocks 1 = none ∧
    reserve 4 5 (heap_vec 5 0) (sample_mem 2)
      = .ok () (heap_vec 5 1, ((sample_mem 2).release 0).fresh ⟨1, 5, [1, 2, 3, 4, 5]⟩ 5) ∧
    size (heap_vec 5 0 : socow_vector Nat) = 5 ∧
    capacity 4 (heap_vec 5 0) (sample_mem 2) = some 8 ∧
    capacity 4 (heap_vec 5 1)
      (((sample_mem 2).release 0).fresh ⟨1, 5, [1, 2, 3, 4, 5]⟩ 5) = some 5 ∧
    (((sample_mem 2).release 0).fresh ⟨1, 5, [1, 2, 3, 4, 5]⟩ 5).blocks 0
      = some ⟨1, 8, [1, 2, 3, 4, 5]⟩ := by
  have hb1 : sample_mem2.blocks 1 = some ⟨1, 6, [7, 8, 9]⟩ := rfl
  have hb0 : (sample_mem 2).blocks 0 = some ⟨2, 8, [1, 2, 3, 4, 5]⟩ := rfl
  refine ⟨?_, rfl, rfl, rfl, ?_, rfl, rfl, rfl, rfl⟩
  · exact reserve_to_small 4 3 sample_mem2 1 1 6 [7, 8, 9] hb1 (by decide) rfl (by decide)
      (by decide)
  · exact reserve_heap_realloc 4 5 (sample_mem 2) 0 2 8 [1, 2, 3, 4, 5] hb0 (by decide)
      (by decide) rfl (by decide) (by decide) (Or.inr (by decide))

/-- C11, amended: `reserve(n)` changes nothing (the vector's fields and the whole memory
are as before: mode, capacity, block, reference counts, size, elements, allocation count)
when `n < size()`, or the vector is Inline and `n <= SMALL_SIZE`, or the vector is a
uniquely owned Heap vector and `SMALL_SIZE < n <= capacity()`.  With `n == size()` on a
well-formed Heap vector `u`, without a fault: when `size() <= SMALL_SIZE` the vector becomes
Inline with the same size and elements, nothing is allocated, and its block is released
(unmapped at reference count 1, otherwise left with a count one smaller); when
`size() > SMALL_SIZE` and the vector is linked, it moves to the block at the fresh address,
alone, with capacity exactly `size()` and the same elements, and the old block is left with
a count one smaller. -/
theorem C11_reserve_noop {α : Type} (N n : Nat) (v : socow_vector α) (m : Mem α)
    (h : n < size v ∨ (is_small v = true ∧ n ≤ N) ∨
      (is_small v = false ∧ N < n ∧ refs_count v m = some 1 ∧
        ∃ c, capacity N v m = some c ∧ n ≤ c)) :
    reserve N n v m = .ok () (v, m) ∧
    (∀ u : socow_vector α, vwf N u m → m.throw_at = none → is_small u = false →
      (size u ≤ N → ∃ u2 m2, reserve N (size u) u m = .ok () (u2, m2) ∧
        is_small u2 = true ∧ size u2 = size u ∧ elems u2 m2 = elems u m ∧
        m2.allocated = m.allocated ∧
        ∀ q r c d, block_of u = some q → m.blocks q = some ⟨r, c, d⟩ →
          m2.blocks q = if r = 1 then none else some ⟨r - 1, c, d⟩) ∧
      (N < size u → is_linked u m = some true →
        ∃ u2 m2, reserve N (size u) u m = .ok () (u2, m2) ∧
          is_small u2 = false ∧ block_of u2 = some m.allocated ∧
          capacity N u2 m2 = some (size u) ∧ is_linked u2 m2 = some false ∧
          size u2 = size u ∧ elems u2 m2 = elems u m ∧
          m2.allocated = m.allocated + 1 ∧
          ∀ q r c d, block_of u = some q → m.blocks q = some ⟨r, c, d⟩ →
            m2.blocks q = some ⟨r - 1, c, d⟩)) := by
  constructor
  · rcases h with h | ⟨h1, h2⟩ | ⟨h1, h2, h3, c, h4, h5⟩
    · exact reserve_noop N n v m (Or.inl h)
    · exact reserve_noop N n v m (Or.inr ⟨h1, h2⟩)
    · have hs : v._is_small = false := h1
      have hn : ¬ n ≤ N := by omega
      have hc : ¬ c < n := by omega
      by_cases h0 : n < v._size
      · exact reserve_noop N n v m (Or.inl h0)
      · simp only [reserve, h0, hs, hn, hc, h3, h4, decide_False, Bool.false_and,
          Bool.and_false, Bool.or_self, Bool.false_eq_true, if_false, Bool.not_false,
          lt_irrefl]
  · intro u hu hm hsm
    rcases vwf_cases hu with ⟨l, rfl, _⟩ | ⟨q, r, c, d, rfl, hb, hdc, hr, hq⟩
    · simp [is_small] at hsm
    · have hsz : size (heap_vec d.length q : socow_vector α) = d.length := rfl
      rw [hsz]
      constructor
      · intro hle
        refine ⟨_, _, reserve_to_small N d.length m q r c d hb hr hm (le_refl _) hle, rfl, rfl,
          by rw [elems_inline, elems_heap m q r c d hb], rfl, ?_⟩
        intro q2 r2 c2 d2 hq2 hb2
        have e2 : q = q2 := by simpa [block_of] using hq2
        subst e2
        rw [hb] at hb2
        cases hb2
        simp only [bump_blocks, release_blocks, if_true, hb, Option.bind, released]
      · intro hgt hl
        have hr1 : 1 < r := by
          rw [is_linked_heap m _ q r c d hb] at hl
          simpa using hl
        have hne : ¬ q = m.allocated := by omega
        have hb2 : ((m.release q).fresh ⟨1, d.length, d⟩ d.length).blocks m.allocated
            = some ⟨1, d.length, d⟩ := by simp
        refine ⟨_, _, reserve_heap_realloc N d.length m q r c d hb hr hq hm (le_refl _) hgt
          (Or.inr hr1), rfl, by simp [block_of], capacity_heap N _ _ _ 1 d.length d hb2,
          by rw [is_linked_heap _ _ _ 1 d.length d hb2]; simp, rfl,
          by rw [elems_heap _ _ 1 d.length d hb2, elems_heap m q r c d hb], rfl, ?_⟩
        intro q2 r2 c2 d2 hq2 hb3
        have e2 : q = q2 := by simpa [block_of] using hq2
        subst e2
        rw [hb] at hb3
        cases hb3
        have hr2 : r ≠ 1 := by omega
        simp [hne, hb, released, hr2]

theorem C11_witness :
    ((2 < size (heap_vec 5 0 : socow_vector Nat) ∨
      (is_small (heap_vec 5 0 : socow_vector Nat) = true ∧ 2 ≤ 4) ∨
      (is_small (heap_vec 5 0 : socow_vector Nat) = false ∧ 4 < 2 ∧
        refs_count (heap_vec 5 0) (sample_mem 2) = some 1 ∧
        ∃ c, capacity 4 (heap_vec 5 0) (sample_mem 2) = some c ∧ 2 ≤ c)) ∧
      reserve 4 2 (heap_vec 5 0) (sample_mem 2) = .ok () (heap_vec 5 0, sample_mem 2)) ∧
    (vwf 4 (heap_vec 5 0) (sample_mem 2) ∧ (sample_mem 2).throw_at = none ∧
      is_small (heap_vec 5 0 : socow_vector Nat) = false ∧
      4 < size (heap_vec 5 0 : socow_vector Nat) ∧
      is_linked (heap_vec 5 0) (sample_mem 2) = some true ∧
      ∃ u2 m2, reserve 4 (size (heap_vec 5 0 : socow_vector Nat)) (heap_vec 5 0) (sample_mem 2)
          = .ok () (u2, m2) ∧
        is_small u2 = false ∧ block_of u2 = some (sample_mem 2).allocated ∧
        capacity 4 u2 m2 = some (size (heap_vec 5 0 : socow_vector Nat)) ∧
        is_linked u2 m2 = some false) ∧
    ((2 < size (heap_vec 5 0 : socow_vector Nat)) ∧
      vwf 4 (heap_vec 3 1) sample_mem2 ∧ sample_mem2.throw_at = none ∧
      is_small (heap_vec 3 1 : socow_vector Nat) = false ∧
      size (heap_vec 3 1 : socow_vector Nat) ≤ 4 ∧
      ∃ u2 m2, reserve 4 (size (heap_vec 3 1 : socow_vector Nat)) (heap_vec 3 1) sample_mem2
          = .ok () (u2, m2) ∧
        is_small u2 = true ∧ size u2 = size (heap_vec 3 1 : socow_vector Nat) ∧
        m2.blocks 1 = none) := by
  have h : 2 < size (heap_vec 5 0 : socow_vector Nat) := by decide
  have h1 : vwf 4 (heap_vec 5 0) (sample_mem 2) := by simp [vwf, heap_vec, sample_mem]
  have h2 : vwf 4 (heap_vec 3 1) sample_mem2 := by simp [vwf, heap_vec, sample_mem2]
  have h3 : 4 < size (heap_vec 5 0 : socow_vector Nat) := by decide
  have h4 : size (heap_vec 3 1 : socow_vector Nat) ≤ 4 := by decide
  have h5 : is_linked (heap_vec 5 0) (sample_mem 2) = some true := by
    simp [is_linked, refs_count, deref, heap_vec, sample_mem]
  refine ⟨⟨Or.inl h, (C11_reserve_noop 4 2 (heap_vec 5 0) (sample_mem 2) (Or.inl h)).1⟩, ?_, ?_⟩
  · obtain ⟨u2, m2, e, a1, a2, a3, a4, _⟩ :=
      ((C11_reserve_noop 4 2 (heap_vec 5 0) (sample_mem 2) (Or.inl h)).2 (heap_vec 5 0) h1 rfl
        rfl).2 h3 h5
    exact ⟨h1, rfl, rfl, h3, h5, u2, m2, e, a1, a2, a3, a4⟩
  · obtain ⟨u2, m2, e, a1, a2, _, _, a5⟩ :=
      ((C11_reserve_noop 4 2 (heap_vec 5 0) sample_mem2 (Or.inl h)).2 (heap_vec 3 1) h2 rfl
        rfl).1 h4
    have hb : sample_mem2.blocks 1 = some ⟨1, 6, [7, 8, 9]⟩ := rfl
    have a6 := a5 1 1 6 [7, 8, 9] rfl hb
    exact ⟨h, h2, rfl, rfl, h4, u2, m2, e, a1, a2, by simpa using a6⟩

/-- C12, counterexample: with `SMALL_SIZE = 4`, on the Heap vector `[1, 2, 3, 4, 5]` that
shares its block (reference count 2), `erase(begin() + 2, begin() + 2)` creates a block: the
vector moves to the fresh block at address 1, the old block's reference count drops to 1,
and `is_linked()` is false afterwards for the vector and for the other sharer. -/
theorem C12_empty_erase_unshares :
    erase 4 1 2 2 (heap_vec 5 0) (sample_mem 2)
      = .ok 2 (heap_vec 5 1, ((sample_mem 2).release 0).fresh ⟨1, 8, [1, 2, 3, 4, 5]⟩ 5) ∧
    is_linked (heap_vec 5 0) (sample_mem 2) = some true ∧
    is_linked (heap_vec 5 1)
      (((sample_mem 2).release 0).fresh ⟨1, 8, [1, 2, 3, 4, 5]⟩ 5) = some false ∧
    is_linked (heap_vec 5 0)
      (((sample_mem 2).release 0).fresh ⟨1, 8, [1, 2, 3, 4, 5]⟩ 5) = some false ∧
    (sample_mem 2).allocated = 1 ∧
    (((sample_mem 2).release 0).fresh ⟨1, 8, [1, 2, 3, 4, 5]⟩ 5).allocated = 2 ∧
    (((sample_mem 2).release 0).fresh ⟨1, 8, [1, 2, 3, 4, 5]⟩ 5).blocks 0
      = some ⟨1, 8, [1, 2, 3, 4, 5]⟩ := by
  have hb0 : (sample_mem 2).blocks 0 = some ⟨2, 8, [1, 2, 3, 4, 5]⟩ := rfl
  refine ⟨?_, rfl, rfl, rfl, rfl, rfl, rfl⟩
  exact erase_empty_shared 4 0 2 (sample_mem 2) 0 2 8 [1, 2, 3, 4, 5] hb0 (by decide) (by decide)
    rfl (by decide)

/-- C12, amended: on a well-formed vector and without a fault, `erase(begin()+p, begin()+p)`
is the mutable `begin()`: it returns index `p` and leaves size, mode, capacity and elements
as they were.  On a vector that is not linked (Inline or uniquely owned) nothing at all
changes.  On a linked vector it unshares: exactly one block is created, the vector is on
that block alone, and the old block keeps its capacity and elements with a reference count
one smaller. -/
theorem C12_erase_empty_range {α : Type} (N fuel p : Nat) (v : socow_vector α) (m : Mem α)
    (hv : vwf N v m) (hm : m.throw_at = none) :
    ∃ v2 m2, erase N (fuel + 1) p p v m = .ok p (v2, m2) ∧
      data N v m = .ok () (v2, m2) ∧
      size v2 = size v ∧ is_small v2 = is_small v ∧
      capacity N v2 m2 = capacity N v m ∧ elems v2 m2 = elems v m ∧
      (is_linked v m = some false → v2 = v ∧ m2 = m) ∧
      (is_linked v m = some true →
        ∃ q r c d, block_of v = some q ∧ m.blocks q = some ⟨r, c, d⟩ ∧
          block_of v2 = some m.allocated ∧ m.allocated ≠ q ∧
          m2.allocated = m.allocated + 1 ∧
          m2.blocks m.allocated = some ⟨1, c, d⟩ ∧ m2.blocks q = some ⟨r - 1, c, d⟩ ∧
          is_linked v2 m2 = some false) := by
  rcases vwf_cases hv with ⟨l, rfl, hl⟩ | ⟨q, r, c, d, rfl, hb, hdc, hr, hp⟩
  · refine ⟨inline_vec l, m, erase_empty_inline N fuel p l m, data_inline N l m, rfl, rfl, rfl,
      rfl, fun _ => ⟨rfl, rfl⟩, ?_⟩
    intro h
    rw [is_linked_inline] at h
    cases h
  · by_cases h1 : 1 < r
    · have hne : m.allocated ≠ q := by omega
      have hr1 : r ≠ 1 := by omega
      have hb2 : ((m.release q).fresh ⟨1, c, d⟩ d.length).blocks m.allocated
          = some ⟨1, c, d⟩ := by simp
      have hb3 : ((m.release q).fresh ⟨1, c, d⟩ d.length).blocks q = some ⟨r - 1, c, d⟩ := by
        have hne2 : ¬ q = m.allocated := fun e => hne e.symm
        simp [hne2, hb, released, hr1]
      refine ⟨heap_vec d.length m.allocated, (m.release q).fresh ⟨1, c, d⟩ d.length,
        erase_empty_shared N fuel p m q r c d hb h1 hp hm hdc,
        data_shared N m q r c d hb h1 hp hm hdc, rfl, rfl, ?_, ?_, ?_, ?_⟩
      · rw [capacity_heap N _ _ _ 1 c d hb2, capacity_heap N m _ q r c d hb]
      · rw [elems_heap _ _ 1 c d hb2, elems_heap m q r c d hb]
      · intro h
        rw [is_linked_heap m _ q r c d hb] at h
        simp [h1] at h
      · intro _
        exact ⟨q, r, c, d, by simp [block_of], hb, by simp [block_of], hne, rfl, hb2, hb3,
          by rw [is_linked_heap _ _ _ 1 c d hb2]; simp⟩
    · have hr1 : r = 1 := by omega
      subst hr1
      refine ⟨heap_vec d.length q, m, erase_empty_unique N fuel p _ m q c d hb,
        data_unique N _ q c d m hb, rfl, rfl, rfl, rfl, fun _ => ⟨rfl, rfl⟩, ?_⟩
      intro h
      rw [is_linked_heap m _ q 1 c d hb] at h
      simp at h

theorem C12_witness :
    vwf 4 (heap_vec 5 0) (sample_mem 2) ∧ (sample_mem 2).throw_at = none ∧
    ∃ v2 m2, erase 4 (0 + 1) 2 2 (heap_vec 5 0) (sample_mem 2) = .ok 2 (v2, m2) ∧
      data 4 (heap_vec 5 0) (sample_mem 2) = .ok () (v2, m2) ∧
      size v2 = size (heap_vec 5 0 : socow_vector Nat) ∧
      is_small v2 = is_small (heap_vec 5 0 : socow_vector Nat) ∧
      capacity 4 v2 m2 = capacity 4 (heap_vec 5 0) (sample_mem 2) ∧
      elems v2 m2 = elems (heap_vec 5 0) (sample_mem 2) ∧
      (is_linked (heap_vec 5 0) (sample_mem 2) = some false →
        v2 = heap_vec 5 0 ∧ m2 = sample_mem 2) ∧
      (is_linked (heap_vec 5 0) (sample_mem 2) = some true →
        ∃ q r c d, block_of (heap_vec 5 0 : socow_vector Nat) = some q ∧
          (sample_mem 2).blocks q = some ⟨r, c, d⟩ ∧
          block_of v2 = some (sample_mem 2).allocated ∧ (sample_mem 2).allocated ≠ q ∧
          m2.allocated = (sample_mem 2).allocated + 1 ∧
          m2.blocks (sample_mem 2).allocated = some ⟨1, c, d⟩ ∧
          m2.blocks q = some ⟨r - 1, c, d⟩ ∧
          is_linked v2 m2 = some false) :=
  have h1 : vwf 4 (heap_vec 5 0) (sample_mem 2) := by simp [vwf, heap_vec, sample_mem]
  ⟨h1, rfl, C12_erase_empty_range 4 0 2 (heap_vec 5 0) (sample_mem 2) h1 rfl⟩

/-- C13: on a well-formed vector and without a fault the mutable `data()` returns normally.
When `is_linked()` holds, the vector afterwards is on the block at the fresh address, which
has reference count 1, the old block's capacity and the same elements; the old block keeps
its capacity and elements with a reference count one smaller; `is_linked()` is false and
size and elements are as before.  When `is_linked()` does not hold (Inline or uniquely
owned), neither the vector nor the memory changes.  The const `data()` is the query
`cdata`, which only reads: it gives the same elements before and after the call. -/
theorem C13_mutable_data_unshares {α : Type} (N : Nat) (v : socow_vector α) (m : Mem α)
    (hv : vwf N v m) (hmw : mwf m) (hm : m.throw_at = none) :
    ∃ v2 m2, data N v m = .ok () (v2, m2) ∧ size v2 = size v ∧
      elems v2 m2 = elems v m ∧ cdata v2 m2 = cdata v m ∧ is_linked v2 m2 = some false ∧
      (is_linked v m = some false → v2 = v ∧ m2 = m) ∧
      (is_linked v m = some true →
        ∃ q r c d, block_of v = some q ∧ m.blocks q = some ⟨r, c, d⟩ ∧
          block_of v2 = some m.allocated ∧ m.allocated ≠ q ∧ m.blocks m.allocated = none ∧
          m2.blocks m.allocated = some ⟨1, c, d⟩ ∧ d.length = size v ∧
          m2.blocks q = some ⟨r - 1, c, d⟩ ∧
          ∀ q2, q2 ≠ q → q2 ≠ m.allocated → m2.blocks q2 = m.blocks q2) := by
  rcases vwf_cases hv with ⟨l, rfl, hl⟩ | ⟨q, r, c, d, rfl, hb, hdc, hr, hp⟩
  · refine ⟨inline_vec l, m, data_inline N l m, rfl, rfl, rfl, is_linked_inline l m,
      fun _ => ⟨rfl, rfl⟩, ?_⟩
    intro h
    rw [is_linked_inline] at h
    cases h
  · by_cases h1 : 1 < r
    · have hne : m.allocated ≠ q := by omega
      have hne2 : ¬ q = m.allocated := fun e => hne e.symm
      have hr1 : r ≠ 1 := by omega
      have hb2 : ((m.release q).fresh ⟨1, c, d⟩ d.length).blocks m.allocated
          = some ⟨1, c, d⟩ := by simp
      have hb3 : ((m.release q).fresh ⟨1, c, d⟩ d.length).blocks q = some ⟨r - 1, c, d⟩ := by
        simp [hne2, hb, released, hr1]
      refine ⟨heap_vec d.length m.allocated, (m.release q).fresh ⟨1, c, d⟩ d.length,
        data_shared N m q r c d hb h1 hp hm hdc, rfl, ?_, ?_, ?_, ?_, ?_⟩
      · rw [elems_heap _ _ 1 c d hb2, elems_heap m q r c d hb]
      · rw [cdata_heap _ _ _ 1 c d hb2, cdata_heap m _ q r c d hb]
      · rw [is_linked_heap _ _ _ 1 c d hb2]
        simp
      · intro h
        rw [is_linked_heap m _ q r c d hb] at h
        simp [h1] at h
      · intro _
        refine ⟨q, r, c, d, by simp [block_of], hb, by simp [block_of], hne,
          mwf_fresh_none m hmw, hb2, rfl, hb3, ?_⟩
        intro q2 h2 h3
        simp [h2, h3]
    · have hr1 : r = 1 := by omega
      subst hr1
      refine ⟨heap_vec d.length q, m, data_unique N _ q c d m hb, rfl, rfl, rfl,
        by rw [is_linked_heap m _ q 1 c d hb]; simp, fun _ => ⟨rfl, rfl⟩, ?_⟩
      intro h
      rw [is_linked_heap m _ q 1 c d hb] at h
      simp at h

theorem C13_witness :
    vwf 4 (heap_vec 5 0) (sample_mem 2) ∧ mwf (sample_mem 2) ∧
    (sample_mem 2).throw_at = none ∧
    ∃ v2 m2, data 4 (heap_vec 5 0) (sample_mem 2) = .ok () (v2, m2) ∧
      size v2 = size (heap_vec 5 0 : socow_vector Nat) ∧
      elems v2 m2 = elems (heap_vec 5 0) (sample_mem 2) ∧
      cdata v2 m2 = cdata (heap_vec 5 0) (sample_mem 2) ∧ is_linked v2 m2 = some false ∧
      (is_linked (heap_vec 5 0) (sample_mem 2) = some false →
        v2 = heap_vec 5 0 ∧ m2 = sample_mem 2) ∧
      (is_linked (heap_vec 5 0) (sample_mem 2) = some true →
        ∃ q r c d, block_of (heap_vec 5 0 : socow_vector Nat) = some q ∧
          (sample_mem 2).blocks q = some ⟨r, c, d⟩ ∧
          block_of v2 = some (sample_mem 2).allocated ∧ (sample_mem 2).allocated ≠ q ∧
          (sample_mem 2).blocks (sample_mem 2).allocated = none ∧
          m2.blocks (sample_mem 2).allocated = some ⟨1, c, d⟩ ∧
          d.length = size (heap_vec 5 0 : socow_vector Nat) ∧
          m2.blocks q = some ⟨r - 1, c, d⟩ ∧
          ∀ q2, q2 ≠ q → q2 ≠ (sample_mem 2).allocated →
            m2.blocks q2 = (sample_mem 2).blocks q2) :=
  have h1 : vwf 4 (heap_vec 5 0) (sample_mem 2) := by simp [vwf, heap_vec, sample_mem]
  have h2 : mwf (sample_mem 2) := by
    intro q hq
    have hq1 : 1 ≤ q := hq
    have hq0 : ¬ q = 0 := by omega
    simp [sample_mem, hq0]
  ⟨h1, h2, rfl, C13_mutable_data_unshares 4 (heap_vec 5 0) (sample_mem 2) h1 h2 rfl⟩

/-! ## `shrink_to_fit` and `clear` -/

/-- What `shrink_to_fit()` gives on a well-formed vector without a fault, by cases. -/
theorem shrink_cases {α : Type} (N : Nat) (v : socow_vector α) (m : Mem α)
    (hv : vwf N v m) (hm : m.throw_at = none) :
    (∃ l, v = inline_vec l ∧ l.length ≤ N ∧
      shrink_to_fit N v m = .ok () (inline_vec l, m)) ∨
    (∃ q r c d, v = heap_vec d.length q ∧ m.blocks q = some ⟨r, c, d⟩ ∧ 1 ≤ r ∧
      d.length ≤ N ∧
      shrink_to_fit N v m = .ok () (inline_vec d, (m.release q).bump 0 d.length)) ∨
    (∃ q r c d, v = heap_vec d.length q ∧ m.blocks q = some ⟨r, c, d⟩ ∧ 1 ≤ r ∧
      q < m.allocated ∧ N < d.length ∧
      shrink_to_fit N v m
        = .ok () (heap_vec d.length m.allocated,
            (m.release q).fresh ⟨1, d.length, d⟩ d.length)) ∨
    (∃ q d, v = heap_vec d.length q ∧ m.blocks q = some ⟨1, d.length, d⟩ ∧ N < d.length ∧
      shrink_to_fit N v m = .ok () (heap_vec d.length q, m)) := by
  rcases vwf_cases hv with ⟨l, rfl, hl⟩ | ⟨q, r, c, d, rfl, hb, hdc, hr, hp⟩
  · exact Or.inl ⟨l, rfl, hl, shrink_inline N l m⟩
  · by_cases h1 : d.length ≤ N
    · exact Or.inr (Or.inl ⟨q, r, c, d, rfl, hb, hr, h1, shrink_to_small N m q r c d hb hr hm h1⟩)
    · by_cases h2 : 1 < r ∨ d.length ≠ c
      · exact Or.inr (Or.inr (Or.inl ⟨q, r, c, d, rfl, hb, hr, hp, by omega,
          shrink_realloc N m q r c d hb hr hp hm (by omega) h2⟩))
      · have hr1 : r = 1 := by omega
        have hc1 : c = d.length := by omega
        subst hr1
        subst hc1
        exact Or.inr (Or.inr (Or.inr ⟨q, d, rfl, hb, by omega, shrink_keep N m q d hb (by omega)⟩))

theorem release_shared_block {α : Type} (m : Mem α) (q r c : Nat) (d : List α)
    (hb : m.blocks q = some ⟨r, c, d⟩) (hr : 1 < r) :
    (m.release q).blocks q = some ⟨r - 1, c, d⟩ := by
  have hr1 : r ≠ 1 := by omega
  simp [hb, released, hr1]

/-- C14: on a well-formed vector and without a fault `shrink_to_fit()` returns normally;
size and elements are unchanged; with `size() <= SMALL_SIZE` the vector is Inline afterwards
(capacity `SMALL_SIZE`), otherwise it is Heap with `capacity() == size()`; `is_linked()` is
false afterwards; and when the vector shared its block (reference count above 1), the old
block keeps its capacity and elements with a reference count one smaller, so a sharer
observes what it observed before. -/
theorem C14_shrink_to_fit {α : Type} (N : Nat) (v : socow_vector α) (m : Mem α)
    (hv : vwf N v m) (hm : m.throw_at = none) :
    ∃ v2 m2, shrink_to_fit N v m = .ok () (v2, m2) ∧ size v2 = size v ∧
      elems v2 m2 = elems v m ∧
      (size v ≤ N → is_small v2 = true ∧ capacity N v2 m2 = some N) ∧
      (N < size v → is_small v2 = false ∧ capacity N v2 m2 = some (size v)) ∧
      is_linked v2 m2 = some false ∧
      (∀ q r c d, block_of v = some q → m.blocks q = some ⟨r, c, d⟩ → 1 < r →
        m2.blocks q = some ⟨r - 1, c, d⟩ ∧
        observe N (heap_vec d.length q) m2 = observe N (heap_vec d.length q) m) := by
  rcases shrink_cases N v m hv hm with ⟨l, rfl, hl, e⟩ | ⟨q, r, c, d, rfl, hb, hr, hn, e⟩ |
    ⟨q, r, c, d, rfl, hb, hr, hp, hn, e⟩ | ⟨q, d, rfl, hb, hn, e⟩
  · refine ⟨_, _, e, rfl, rfl, fun _ => ⟨rfl, capacity_inline N l m⟩, ?_, is_linked_inline l m,
      ?_⟩
    · intro h
      have : l.length ≤ N := hl
      have h2 : N < l.length := h
      omega
    · intro q r c d hq
      simp [block_of] at hq
  · refine ⟨_, _, e, rfl, ?_, fun _ => ⟨rfl, capacity_inline N d _⟩, ?_, is_linked_inline d _,
      ?_⟩
    · rw [elems_inline, elems_heap m q r c d hb]
    · intro h
      have h2 : N < d.length := h
      omega
    · intro q2 r2 c2 d2 hq hb2 hr2
      have e2 : q = q2 := by simpa [block_of] using hq
      subst e2
      rw [hb] at hb2
      cases hb2
      have hb3 : ((m.release q).bump 0 d.length).blocks q = some ⟨r - 1, c, d⟩ :=
        release_shared_block m q r c d hb hr2
      exact ⟨hb3, by rw [observe_heap N _ q _ c d hb3, observe_heap N m q r c d hb]⟩
  · have hne : ¬ q = m.allocated := by omega
    have hb2 : ((m.release q).fresh ⟨1, d.length, d⟩ d.length).blocks m.allocated
        = some ⟨1, d.length, d⟩ := by simp
    refine ⟨_, _, e, rfl, ?_, ?_, ?_, ?_, ?_⟩
    · rw [elems_heap _ _ 1 d.length d hb2, elems_heap m q r c d hb]
    · intro h
      have h2 : d.length ≤ N := h
      omega
    · intro _
      exact ⟨rfl, capacity_heap N _ _ _ 1 d.length d hb2⟩
    · rw [is_linked_heap _ _ _ 1 d.length d hb2]
      simp
    · intro q2 r2 c2 d2 hq hb3 hr2
      have e2 : q = q2 := by simpa [block_of] using hq
      subst e2
      rw [hb] at hb3
      cases hb3
      have hb4 : ((m.release q).fresh ⟨1, d.length, d⟩ d.length).blocks q
          = some ⟨r - 1, c, d⟩ := by
        rw [fresh_blocks, release_allocated, if_neg hne]
        exact release_shared_block m q r c d hb hr2
      exact ⟨hb4, by rw [observe_heap N _ q _ c d hb4, observe_heap N m q r c d hb]⟩
  · refine ⟨_, _, e, rfl, rfl, ?_, ?_, ?_, ?_⟩
    · intro h
      have h2 : d.length ≤ N := h
      omega
    · intro _
      exact ⟨rfl, capacity_heap N m _ q 1 d.length d hb⟩
    · rw [is_linked_heap m _ q 1 d.length d hb]
      simp
    · intro q2 r2 c2 d2 hq hb3 hr2
      have e2 : q = q2 := by simpa [block_of] using hq
      subst e2
      rw [hb] at hb3
      cases hb3
      omega

theorem C14_witness :
    vwf 4 (heap_vec 5 0) (sample_mem 2) ∧ (sample_mem 2).throw_at = none ∧
    ∃ v2 m2, shrink_to_fit 4 (heap_vec 5 0) (sample_mem 2) = .ok () (v2, m2) ∧
      size v2 = size (heap_vec 5 0 : socow_vector Nat) ∧
      elems v2 m2 = elems (heap_vec 5 0) (sample_mem 2) ∧
      (size (heap_vec 5 0 : socow_vector Nat) ≤ 4 →
        is_small v2 = true ∧ capacity 4 v2 m2 = some 4) ∧
      (4 < size (heap_vec 5 0 : socow_vector Nat) →
        is_small v2 = false ∧
        capacity 4 v2 m2 = some (size (heap_vec 5 0 : socow_vector Nat))) ∧
      is_linked v2 m2 = some false ∧
      (∀ q r c d, block_of (heap_vec 5 0 : socow_vector Nat) = some q →
        (sample_mem 2).blocks q = some ⟨r, c, d⟩ → 1 < r →
        m2.blocks q = some ⟨r - 1, c, d⟩ ∧
        observe 4 (heap_vec d.length q) m2 = observe 4 (heap_vec d.length q) (sample_mem 2)) :=
  have h1 : vwf 4 (heap_vec 5 0) (sample_mem 2) := by simp [vwf, heap_vec, sample_mem]
  ⟨h1, rfl, C14_shrink_to_fit 4 (heap_vec 5 0) (sample_mem 2) h1 rfl⟩

/-- C15: on a well-formed vector and without a fault, `shrink_to_fit()` returns normally
with some capacity `c`, and a following `reserve(c)` returns normally and changes neither
the vector nor the memory (size, elements, mode, capacity and block stay as after the
`shrink_to_fit()`); the elements are those before the `shrink_to_fit()`. -/
theorem C15_shrink_then_reserve {α : Type} (N : Nat) (v : socow_vector α) (m : Mem α)
    (hv : vwf N v m) (hm : m.throw_at = none) :
    ∃ v2 m2 c, shrink_to_fit N v m = .ok () (v2, m2) ∧ capacity N v2 m2 = some c ∧
      reserve N c v2 m2 = .ok () (v2, m2) ∧ elems v2 m2 = elems v m := by
  rcases shrink_cases N v m hv hm with ⟨l, rfl, hl, e⟩ | ⟨q, r, c, d, rfl, hb, hr, hn, e⟩ |
    ⟨q, r, c, d, rfl, hb, hr, hp, hn, e⟩ | ⟨q, d, rfl, hb, hn, e⟩
  · exact ⟨_, _, N, e, capacity_inline N l m,
      reserve_noop N N _ m (Or.inr ⟨rfl, le_refl _⟩), rfl⟩
  · exact ⟨_, _, N, e, capacity_inline N d _,
      reserve_noop N N _ _ (Or.inr ⟨rfl, le_refl _⟩),
      by rw [elems_inline, elems_heap m q r c d hb]⟩
  · have hb2 : ((m.release q).fresh ⟨1, d.length, d⟩ d.length).blocks m.allocated
        = some ⟨1, d.length, d⟩ := by simp
    exact ⟨_, _, d.length, e, capacity_heap N _ _ _ 1 d.length d hb2,
      reserve_heap_keep N d.length d.length _ m.allocated d.length d hb2 (le_refl _) hn
        (le_refl _),
      by rw [elems_heap _ _ 1 d.length d hb2, elems_heap m q r c d hb]⟩
  · exact ⟨_, _, d.length, e, capacity_heap N m _ q 1 d.length d hb,
      reserve_heap_keep N d.length d.length m q d.length d hb (le_refl _) hn (le_refl _), rfl⟩

theorem C15_witness :
    vwf 4 (heap_vec 5 0) (sample_mem 2) ∧ (sample_mem 2).throw_at = none ∧
    ∃ v2 m2 c, shrink_to_fit 4 (heap_vec 5 0) (sample_mem 2) = .ok () (v2, m2) ∧
      capacity 4 v2 m2 = some c ∧ reserve 4 c v2 m2 = .ok () (v2, m2) ∧
      elems v2 m2 = elems (heap_vec 5 0) (sample_mem 2) :=
  have h1 : vwf 4 (heap_vec 5 0) (sample_mem 2) := by simp [vwf, heap_vec, sample_mem]
  ⟨h1, rfl, C15_shrink_then_reserve 4 (heap_vec 5 0) (sample_mem 2) h1 rfl⟩

/-- C16: on a well-formed vector `clear()` returns normally with `size() == 0`.  An Inline
vector stays Inline and the memory is untouched.  A Heap vector that owns its block alone
stays Heap on the same block with the same capacity.  A Heap vector that shares its block
becomes Inline (capacity `SMALL_SIZE`); the block keeps its capacity and elements with a
reference count one smaller, no other block changes, and a sharer observes the size and
elements it observed before. -/
theorem C16_clear {α : Type} (N : Nat) (v : socow_vector α) (m : Mem α) (hv : vwf N v m) :
    ∃ v2 m2, clear N v m = .ok () (v2, m2) ∧ size v2 = 0 ∧
      (is_small v = true → is_small v2 = true ∧ m2 = m) ∧
      (∀ q c d, block_of v = some q → m.blocks q = some ⟨1, c, d⟩ →
        block_of v2 = some q ∧ is_small v2 = false ∧ capacity N v2 m2 = some c ∧
        ∀ q2, q2 ≠ q → m2.blocks q2 = m.blocks q2) ∧
      (∀ q r c d, block_of v = some q → m.blocks q = some ⟨r, c, d⟩ → 1 < r →
        is_small v2 = true ∧ capacity N v2 m2 = some N ∧
        m2.blocks q = some ⟨r - 1, c, d⟩ ∧ (∀ q2, q2 ≠ q → m2.blocks q2 = m.blocks q2) ∧
        observe N (heap_vec d.length q) m2 = observe N (heap_vec d.length q) m) := by
  rcases vwf_cases hv with ⟨l, rfl, hl⟩ | ⟨q, r, c, d, rfl, hb, hdc, hr, hp⟩
  · refine ⟨_, _, clear_inline N l m, rfl, fun _ => ⟨rfl, rfl⟩, ?_, ?_⟩
    · intro q c d hq
      simp [block_of] at hq
    · intro q r c d hq
      simp [block_of] at hq
  · by_cases h1 : 1 < r
    · refine ⟨_, _, clear_shared N m q r c d hb h1, rfl, ?_, ?_, ?_⟩
      · intro h
        simp [is_small] at h
      · intro q2 c2 d2 hq hb2
        have e2 : q = q2 := by simpa [block_of] using hq
        subst e2
        rw [hb] at hb2
        cases hb2
        omega
      · intro q2 r2 c2 d2 hq hb2 _
        have e2 : q = q2 := by simpa [block_of] using hq
        subst e2
        rw [hb] at hb2
        cases hb2
        have hb3 := release_shared_block m q r c d hb h1
        refine ⟨rfl, capacity_inline N [] _, hb3, ?_,
          by rw [observe_heap N _ q _ c d hb3, observe_heap N m q r c d hb]⟩
        intro q3 h3
        simp [h3]
    · have hr1 : r = 1 := by omega
      subst hr1
      have hb2 : (m.set_block q (some ⟨1, c, []⟩)).blocks q
          = some (⟨1, c, []⟩ : dynamic_buffer α) := by simp
      refine ⟨_, _, clear_unique N m q c d hb, rfl, ?_, ?_, ?_⟩
      · intro h
        simp [is_small] at h
      · intro q2 c2 d2 hq hb3
        have e2 : q = q2 := by simpa [block_of] using hq
        subst e2
        rw [hb] at hb3
        cases hb3
        refine ⟨by simp [block_of], rfl, capacity_heap N _ _ q 1 c [] hb2, ?_⟩
        intro q3 h3
        simp [h3]
      · intro q2 r2 c2 d2 hq hb3 hr2
        have e2 : q = q2 := by simpa [block_of] using hq
        subst e2
        rw [hb] at hb3
        cases hb3
        omega

theorem C16_witness :
    vwf 4 (heap_vec 5 0) (sample_mem 2) ∧
    ∃ v2 m2, clear 4 (heap_vec 5 0) (sample_mem 2) = .ok () (v2, m2) ∧ size v2 = 0 ∧
      (is_small (heap_vec 5 0 : socow_vector Nat) = true →
        is_small v2 = true ∧ m2 = sample_mem 2) ∧
      (∀ q c d, block_of (heap_vec 5 0 : socow_vector Nat) = some q →
        (sample_mem 2).blocks q = some ⟨1, c, d⟩ →
        block_of v2 = some q ∧ is_small v2 = false ∧ capacity 4 v2 m2 = some c ∧
        ∀ q2, q2 ≠ q → m2.blocks q2 = (sample_mem 2).blocks q2) ∧
      (∀ q r c d, block_of (heap_vec 5 0 : socow_vector Nat) = some q →
        (sample_mem 2).blocks q = some ⟨r, c, d⟩ → 1 < r →
        is_small v2 = true ∧ capacity 4 v2 m2 = some 4 ∧
        m2.blocks q = some ⟨r - 1, c, d⟩ ∧
        (∀ q2, q2 ≠ q → m2.blocks q2 = (sample_mem 2).blocks q2) ∧
        observe 4 (heap_vec d.length q) m2
          = observe 4 (heap_vec d.length q) (sample_mem 2)) :=
  have h1 : vwf 4 (heap_vec 5 0) (sample_mem 2) := by simp [vwf, heap_vec, sample_mem]
  ⟨h1, C16_clear 4 (heap_vec 5 0) (sample_mem 2) h1⟩

/-! ## Growth of `insert` and `push_back` -/

theorem insert_growth {α : Type} (N fuel p : Nat) (x : α) (v : socow_vector α) (m : Mem α)
    (c : Nat) (hv : vwf N v m) (hm : m.throw_at = none) (hc : capacity N v m = some c)
    (hc1 : 1 ≤ c) (hp : p ≤ size v) :
    ∃ v2 m2, insert N (fuel + 1) p x v m = .ok p (v2, m2) ∧
      (size v = c → is_small v2 = false ∧ capacity N v2 m2 = some (2 * c)) ∧
      (size v < c → is_small v2 = is_small v ∧ capacity N v2 m2 = some c ∧
        (is_linked v m = some true →
          block_of v2 = some m.allocated ∧ is_linked v2 m2 = some false)) := by
  rcases vwf_cases hv with ⟨l, rfl, hl⟩ | ⟨q, r, cq, d, rfl, hb, hdc, hr, hq⟩
  · rw [capacity_inline] at hc
    cases hc
    have hp2 : p ≤ l.length := hp
    by_cases hfull : l.length = N
    · have hb2 : (m.fresh ⟨1, N * 2, list_insert l p x⟩ (l.length + 1)).blocks m.allocated
          = some ⟨1, N * 2, list_insert l p x⟩ := by simp
      refine ⟨_, _, insert_inline_full N fuel p x l m hm hfull hc1 hp2, ?_, ?_⟩
      · intro _
        exact ⟨rfl, by rw [capacity_heap N _ _ _ 1 (N * 2) _ hb2, Nat.mul_comm]⟩
      · intro h
        have : l.length < N := h
        omega
    · refine ⟨_, _, insert_inline_inplace N fuel p x l m hm (by omega) hp2, ?_, ?_⟩
      · intro h
        exact absurd h hfull
      · intro _
        refine ⟨rfl, capacity_inline N _ _, ?_⟩
        intro h
        rw [is_linked_inline] at h
        cases h
  · rw [capacity_heap N m _ q r cq d hb] at hc
    cases hc
    have hp2 : p ≤ d.length := hp
    by_cases hre : d.length = c ∨ 1 < r
    · have hb2 : ((m.release q).fresh ⟨1, if d.length = c then c * 2 else c,
          list_insert d p x⟩ (d.length + 1)).blocks m.allocated
          = some ⟨1, if d.length = c then c * 2 else c, list_insert d p x⟩ := by simp
      refine ⟨_, _, insert_heap_realloc N fuel p x m q r c d hb hr hq hm hc1 hdc hre hp2, ?_, ?_⟩
      · intro h
        have h2 : d.length = c := h
        refine ⟨rfl, ?_⟩
        rw [capacity_heap N _ _ _ 1 _ _ hb2, if_pos h2, Nat.mul_comm]
      · intro h
        have h2 : d.length < c := h
        have h3 : ¬ d.length = c := by omega
        refine ⟨rfl, by rw [capacity_heap N _ _ _ 1 _ _ hb2, if_neg h3], ?_⟩
        intro _
        exact ⟨by simp [block_of], by rw [is_linked_heap _ _ _ 1 _ _ hb2]; simp⟩
    · have hr1 : r = 1 := by omega
      subst hr1
      have hb2 : ((m.set_block q (some ⟨1, c, list_insert d p x⟩)).bump 0
          (1 + swap_cost m (d.length - p))).blocks q = some ⟨1, c, list_insert d p x⟩ := by
        simp
      refine ⟨_, _, insert_unique_inplace N fuel p x m q c d hb hm (by omega) hp2, ?_, ?_⟩
      · intro h
        have h2 : d.length = c := h
        omega
      · intro _
        refine ⟨rfl, capacity_heap N _ _ q 1 c _ hb2, ?_⟩
        intro h
        rw [is_linked_heap m _ q 1 c d hb] at h
        simp at h

theorem push_back_growth {α : Type} (N fuel : Nat) (x : α) (v : socow_vector α) (m : Mem α)
    (c : Nat) (hv : vwf N v m) (hm : m.throw_at = none) (hc : capacity N v m = some c)
    (hc1 : 1 ≤ c) :
    ∃ v2 m2, push_back N (fuel + 1) x v m = .ok () (v2, m2) ∧
      (size v = c → is_small v2 = false ∧ capacity N v2 m2 = some (2 * c)) ∧
      (size v < c → is_small v2 = is_small v ∧ capacity N v2 m2 = some c ∧
        (is_linked v m = some true →
          block_of v2 = some m.allocated ∧ is_linked v2 m2 = some false)) := by
  rcases vwf_cases hv with ⟨l, rfl, hl⟩ | ⟨q, r, cq, d, rfl, hb, hdc, hr, hq⟩
  · rw [capacity_inline] at hc
    cases hc
    by_cases hfull : l.length = N
    · have hb2 : (m.fresh ⟨1, N * 2, l ++ [x]⟩ (l.length + 1)).blocks m.allocated
          = some ⟨1, N * 2, l ++ [x]⟩ := by simp
      refine ⟨_, _, push_back_inline_full N fuel x l m hm hfull hc1, ?_, ?_⟩
      · intro _
        exact ⟨rfl, by rw [capacity_heap N _ _ _ 1 (N * 2) _ hb2, Nat.mul_comm]⟩
      · intro h
        have : l.length < N := h
        omega
    · refine ⟨_, _, push_back_body_inline _ N x l m hm (by omega), ?_, ?_⟩
      · intro h
        exact absurd h hfull
      · intro _
        refine ⟨rfl, capacity_inline N _ _, ?_⟩
        intro h
        rw [is_linked_inline] at h
        cases h
  · rw [capacity_heap N m _ q r cq d hb] at hc
    cases hc
    by_cases hre : d.length = c ∨ 1 < r
    · have hb2 : ((m.release q).fresh ⟨1, if d.length = c then c * 2 else c,
          d ++ [x]⟩ (d.length + 1)).blocks m.allocated
          = some ⟨1, if d.length = c then c * 2 else c, d ++ [x]⟩ := by simp
      refine ⟨_, _, push_back_heap_realloc N fuel x m q r c d hb hr hq hm hc1 hdc hre, ?_, ?_⟩
      · intro h
        have h2 : d.length = c := h
        refine ⟨rfl, ?_⟩
        rw [capacity_heap N _ _ _ 1 _ _ hb2, if_pos h2, Nat.mul_comm]
      · intro h
        have h2 : d.length < c := h
        have h3 : ¬ d.length = c := by omega
        refine ⟨rfl, by rw [capacity_heap N _ _ _ 1 _ _ hb2, if_neg h3], ?_⟩
        intro _
        exact ⟨by simp [block_of], by rw [is_linked_heap _ _ _ 1 _ _ hb2]; simp⟩
    · have hr1 : r = 1 := by omega
      subst hr1
      have hb2 : ((m.set_block q (some ⟨1, c, d ++ [x]⟩)).bump 0 1).blocks q
          = some ⟨1, c, d ++ [x]⟩ := by simp
      refine ⟨_, _, push_back_body_unique _ N x m q c d hb hm (by omega), ?_, ?_⟩
      · intro h
        have h2 : d.length = c := h
        omega
      · intro _
        refine ⟨rfl, capacity_heap N _ _ q 1 c _ hb2, ?_⟩
        intro h
        rw [is_linked_heap m _ q 1 c d hb] at h
        simp at h

theorem push_all_inline {α : Type} (N fuel : Nat) (xs : List α) :
    ∀ (l : List α) (m : Mem α), m.throw_at = none → l.length + xs.length ≤ N →
      push_all N fuel xs (inline_vec l) m
        = .ok () (inline_vec (l ++ xs), m.bump 0 xs.length) := by
  induction xs with
  | nil =>
    intro l m _ _
    simp [push_all]
  | cons x xs ih =>
    intro l m hm hl
    have hl2 : l.length + (xs.length + 1) ≤ N := by simpa using hl
    have e : push_back N fuel x (inline_vec l) m
        = .ok () (inline_vec (l ++ [x]), m.bump 0 1) :=
      push_back_body_inline _ N x l m hm (by omega)
    have hm1 : (m.bump 0 1).throw_at = none := hm
    rw [push_all, e]
    simp only []
    rw [ih (l ++ [x]) (m.bump 0 1) hm1 (by simp; omega)]
    simp [Mem.eq_iff]
    omega

theorem push_all_grow {α : Type} (N fuel : Nat) (hN : 1 ≤ N) (xs : List α) :
    ∀ (l : List α) (m : Mem α), m.throw_at = none → l.length ≤ N →
      l.length + xs.length = N + 1 →
      ∃ m2, push_all N (fuel + 1) xs (inline_vec l) m
          = .ok () (heap_vec (N + 1) m.allocated, m2) ∧
        m2.blocks m.allocated = some ⟨1, N * 2, l ++ xs⟩ := by
  induction xs with
  | nil =>
    intro l m _ hl h
    simp at h
    omega
  | cons x xs ih =>
    intro l m hm hl h
    have h2 : l.length + (xs.length + 1) = N + 1 := by simpa using h
    by_cases hfull : l.length = N
    · have hx : xs = [] := List.length_eq_zero.mp (by omega)
      subst hx
      refine ⟨m.fresh ⟨1, N * 2, l ++ [x]⟩ (l.length + 1), ?_, by simp⟩
      rw [push_all, push_back_inline_full N fuel x l m hm hfull hN]
      simp only [push_all, hfull]
    · have e : push_back N (fuel + 1) x (inline_vec l) m
          = .ok () (inline_vec (l ++ [x]), m.bump 0 1) :=
        push_back_body_inline _ N x l m hm (by omega)
      have hm1 : (m.bump 0 1).throw_at = none := hm
      obtain ⟨m2, e2, hb2⟩ := ih (l ++ [x]) (m.bump 0 1) hm1 (by simp; omega) (by simp; omega)
      refine ⟨m2, ?_, by simpa using hb2⟩
      rw [push_all, e]
      simp only []
      exact e2

/-- C17: on a well-formed vector with `capacity() = c >= 1`, without a fault, for every
position `p <= size()`, `insert(begin()+p, x)` and `push_back(x)` return normally.  When
`size() == c` before the call, the vector is Heap afterwards with capacity exactly `2 * c`.
When `size() < c`, mode and capacity are unchanged, and a vector that was linked is
afterwards alone on the block at the fresh address.  Pushing the elements of a list `xs`
onto a default-constructed vector (`SMALL_SIZE >= 1`) keeps it Inline with elements `xs`
when `xs` has at most `SMALL_SIZE` elements, and gives a Heap vector of capacity
`2 * SMALL_SIZE >= SMALL_SIZE + 1` with elements `xs` when it has `SMALL_SIZE + 1`; with
`SMALL_SIZE = 4`, pushing 1, 2, 3, 4, 5 gives a Heap vector with capacity 8 and elements
1, 2, 3, 4, 5. -/
theorem C17_growth_rule {α : Type} (N fuel p : Nat) (x : α) (v : socow_vector α) (m : Mem α)
    (c : Nat) (hv : vwf N v m) (hm : m.throw_at = none) (hc : capacity N v m = some c)
    (hc1 : 1 ≤ c) (hp : p ≤ size v) :
    (∃ v2 m2, insert N (fuel + 1) p x v m = .ok p (v2, m2) ∧
      (size v = c → is_small v2 = false ∧ capacity N v2 m2 = some (2 * c)) ∧
      (size v < c → is_small v2 = is_small v ∧ capacity N v2 m2 = some c ∧
        (is_linked v m = some true →
          block_of v2 = some m.allocated ∧ is_linked v2 m2 = some false))) ∧
    (∃ v2 m2, push_back N (fuel + 1) x v m = .ok () (v2, m2) ∧
      (size v = c → is_small v2 = false ∧ capacity N v2 m2 = some (2 * c)) ∧
      (size v < c → is_small v2 = is_small v ∧ capacity N v2 m2 = some c ∧
        (is_linked v m = some true →
          block_of v2 = some m.allocated ∧ is_linked v2 m2 = some false))) ∧
    (1 ≤ N → ∀ xs : List α,
      (xs.length ≤ N → ∃ v2 m2, push_all N (fuel + 1) xs default_vector m = .ok () (v2, m2) ∧
        is_small v2 = true ∧ elems v2 m2 = some xs) ∧
      (xs.length = N + 1 → ∃ v2 m2,
        push_all N (fuel + 1) xs default_vector m = .ok () (v2, m2) ∧
        is_small v2 = false ∧ capacity N v2 m2 = some (2 * N) ∧ xs.length ≤ 2 * N ∧
        elems v2 m2 = some xs)) ∧
    (∃ m2, push_all 4 1 [1, 2, 3, 4, 5] default_vector empty_mem
        = .ok () (heap_vec 5 0, m2) ∧
      is_small (heap_vec 5 0 : socow_vector Nat) = false ∧
      capacity 4 (heap_vec 5 0) m2 = some 8 ∧
      elems (heap_vec 5 0) m2 = some [1, 2, 3, 4, 5]) := by
  have e0 : (default_vector : socow_vector α) = inline_vec [] := rfl
  refine ⟨insert_growth N fuel p x v m c hv hm hc hc1 hp,
    push_back_growth N fuel x v m c hv hm hc hc1, ?_, ?_⟩
  · intro hN xs
    constructor
    · intro hxs
      refine ⟨inline_vec xs, m.bump 0 xs.length, ?_, rfl, elems_inline xs _⟩
      rw [e0]
      simpa using push_all_inline N (fuel + 1) xs [] m hm (by simpa using hxs)
    · intro hxs
      obtain ⟨m2, e2, hb2⟩ := push_all_grow N fuel hN xs [] m hm (by simp) (by simpa using hxs)
      rw [List.nil_append] at hb2
      refine ⟨heap_vec (N + 1) m.allocated, m2, by rw [e0]; exact e2, rfl, ?_, by omega, ?_⟩
      · rw [capacity_heap N m2 _ _ 1 (N * 2) xs hb2, Nat.mul_comm]
      · exact elems_heap_len m2 _ _ 1 (N * 2) xs hb2 hxs.symm
  · have e1 : (default_vector : socow_vector Nat) = inline_vec [] := rfl
    obtain ⟨m2, e2, hb2⟩ := push_all_grow 4 0 (by decide) [1, 2, 3, 4, 5] [] empty_mem rfl
      (by decide) (by decide)
    exact ⟨m2, by rw [e1]; exact e2, rfl, capacity_heap 4 m2 _ _ 1 8 _ hb2,
      elems_heap_len m2 _ _ 1 8 _ hb2 rfl⟩

theorem C17_witness :
    vwf 4 (heap_vec 5 0) (sample_mem 2) ∧ (sample_mem 2).throw_at = none ∧
    capacity 4 (heap_vec 5 0) (sample_mem 2) = some 8 ∧ 1 ≤ 8 ∧
    2 ≤ size (heap_vec 5 0 : socow_vector Nat) ∧
    (∃ v2 m2, insert 4 (0 + 1) 2 9 (heap_vec 5 0) (sample_mem 2) = .ok 2 (v2, m2) ∧
      (size (heap_vec 5 0 : socow_vector Nat) = 8 →
        is_small v2 = false ∧ capacity 4 v2 m2 = some (2 * 8)) ∧
      (size (heap_vec 5 0 : socow_vector Nat) < 8 →
        is_small v2 = is_small (heap_vec 5 0 : socow_vector Nat) ∧
        capacity 4 v2 m2 = some 8 ∧
        (is_linked (heap_vec 5 0) (sample_mem 2) = some true →
          block_of v2 = some (sample_mem 2).allocated ∧ is_linked v2 m2 = some false))) :=
  have h1 : vwf 4 (heap_vec 5 0) (sample_mem 2) := by simp [vwf, heap_vec, sample_mem]
  have h3 : capacity 4 (heap_vec 5 0) (sample_mem 2) = some 8 := by
    simp [capacity, deref, heap_vec, sample_mem]
  have h4 : 2 ≤ size (heap_vec 5 0 : socow_vector Nat) := by simp [size, heap_vec]
  ⟨h1, rfl, h3, by decide, h4,
    (C17_growth_rule 4 0 2 9 (heap_vec 5 0) (sample_mem 2) 8 h1 rfl h3 (by decide) h4).1⟩

/-! ## Erasing in place, and the depth of `insert` -/

/-- C18: on a well-formed vector that is not linked (Inline, or Heap with reference count
1), without a fault, `erase(begin()+f, begin()+t)` with `f <= t <= size()` and `pop_back()`
(on a non-empty vector) return normally and keep the storage: the vector is on the same
block (or Inline) as before, mode and capacity are unchanged, no block is created and no
block is mapped or unmapped; this also holds when the size of a Heap vector drops to
`SMALL_SIZE` or below.  With `SMALL_SIZE = 2`, erasing index 1 of the uniquely owned Heap
vector 1, 2, 3, 4 gives 1, 3, 4 on the same block with the same capacity, and a
following `pop_back()` leaves it Heap with two elements. -/
theorem C18_inplace_erase_keeps_storage {α : Type} (N fuel f t : Nat) (v : socow_vector α)
    (m : Mem α) (hv : vwf N v m) (hm : m.throw_at = none) (hu : is_linked v m = some false)
    (hft : f ≤ t) (ht : t ≤ size v) :
    (∃ v2 m2, erase N (fuel + 1) f t v m = .ok f (v2, m2) ∧
      block_of v2 = block_of v ∧ is_small v2 = is_small v ∧
      capacity N v2 m2 = capacity N v m ∧ m2.allocated = m.allocated ∧
      (∀ q, m2.blocks q = none ↔ m.blocks q = none) ∧ size v2 + (t - f) = size v) ∧
    (1 ≤ size v → ∃ v2 m2, pop_back N fuel v m = .ok () (v2, m2) ∧
      block_of v2 = block_of v ∧ is_small v2 = is_small v ∧
      capacity N v2 m2 = capacity N v m ∧ m2.allocated = m.allocated ∧
      (∀ q, m2.blocks q = none ↔ m.blocks q = none) ∧ size v2 + 1 = size v) ∧
    (∃ m2 m3, erase_one 2 1 1 (heap_vec 4 0) (sample_mem4 1) = .ok 1 (heap_vec 3 0, m2) ∧
      m2.blocks 0 = some ⟨1, 4, [1, 3, 4]⟩ ∧ m2.allocated = (sample_mem4 1).allocated ∧
      pop_back 2 1 (heap_vec 3 0) m2 = .ok () (heap_vec 2 0, m3) ∧
      m3.blocks 0 = some ⟨1, 4, [1, 3]⟩ ∧
      is_small (heap_vec 2 0 : socow_vector Nat) = false) := by
  refine ⟨?_, ?_, ?_⟩
  · rcases vwf_cases hv with ⟨l, rfl, hl⟩ | ⟨q, r, c, d, rfl, hb, hdc, hr, hp⟩
    · have ht2 : t ≤ l.length := ht
      by_cases e : f = t
      · subst e
        exact ⟨_, _, erase_empty_inline N fuel f l m, rfl, rfl, rfl, rfl, fun _ => Iff.rfl,
          by simp⟩
      · refine ⟨_, _, erase_inline N fuel f t l m hm (by omega) ht2, rfl, rfl, rfl, rfl,
          fun _ => Iff.rfl, ?_⟩
        simp only [size, inline_vec_size, list_erase_length l f t hft ht2]
        omega
    · have ht2 : t ≤ d.length := ht
      have hr1 : r = 1 := by
        rw [is_linked_heap m _ q r c d hb] at hu
        have : ¬ 1 < r := by simpa using hu
        omega
      subst hr1
      by_cases e : f = t
      · subst e
        exact ⟨_, _, erase_empty_unique N fuel f _ m q c d hb, rfl, rfl, rfl, rfl,
          fun _ => Iff.rfl, by simp⟩
      · have hb2 : ((m.set_block q (some ⟨1, c, list_erase d f t⟩)).bump 0
            (swap_cost m (d.length - t))).blocks q = some ⟨1, c, list_erase d f t⟩ := by simp
        refine ⟨_, _, erase_unique N fuel f t m q c d hb hm (by omega) ht2, rfl, rfl, ?_, rfl,
          ?_, ?_⟩
        · rw [capacity_heap N _ _ q 1 c _ hb2, capacity_heap N m _ q 1 c d hb]
        · intro q2
          by_cases e2 : q2 = q
          · subst e2
            simp [hb]
          · simp [e2]
        · simp only [size, heap_vec_size]
          omega
  · intro hs
    rcases vwf_cases hv with ⟨l, rfl, hl⟩ | ⟨q, r, c, d, rfl, hb, hdc, hr, hp⟩
    · have hs2 : 1 ≤ l.length := hs
      refine ⟨_, _, pop_back_inline N fuel l m hs2, rfl, rfl, rfl, rfl, fun _ => Iff.rfl, ?_⟩
      simp only [size, inline_vec_size, List.length_take]
      omega
    · have hs2 : 1 ≤ d.length := hs
      have hr1 : r = 1 := by
        rw [is_linked_heap m _ q r c d hb] at hu
        have : ¬ 1 < r := by simpa using hu
        omega
      subst hr1
      have hb2 : (m.set_block q (some ⟨1, c, d.take (d.length - 1)⟩)).blocks q
          = some ⟨1, c, d.take (d.length - 1)⟩ := by simp
      refine ⟨_, _, pop_back_unique N fuel m q c d hb hs2, rfl, rfl, ?_, rfl, ?_, ?_⟩
      · rw [capacity_heap N _ _ q 1 c _ hb2, capacity_heap N m _ q 1 c d hb]
      · intro q2
        by_cases e2 : q2 = q
        · subst e2
          simp [hb]
        · simp [e2]
      · simp only [size, heap_vec_size]
        omega
  · have hb : (sample_mem4 1).blocks 0 = some ⟨1, 4, [1, 2, 3, 4]⟩ := rfl
    have e1 := erase_unique 2 0 1 2 (sample_mem4 1) 0 4 [1, 2, 3, 4] hb rfl (by decide)
      (by decide)
    have hb2 : (((sample_mem4 1).set_block 0 (some ⟨1, 4, list_erase [1, 2, 3, 4] 1 2⟩)).bump 0
        (swap_cost (sample_mem4 1) ([1, 2, 3, 4].length - 2))).blocks 0
        = some ⟨1, 4, [1, 3, 4]⟩ := rfl
    have e2 := pop_back_unique 2 1 _ 0 4 [1, 3, 4] hb2 (by decide)
    exact ⟨_, _, e1, hb2, rfl, e2, rfl, rfl⟩

theorem C18_witness :
    vwf 2 (heap_vec 4 0) (sample_mem4 1) ∧ (sample_mem4 1).throw_at = none ∧
    is_linked (heap_vec 4 0) (sample_mem4 1) = some false ∧ 1 ≤ 3 ∧
    3 ≤ size (heap_vec 4 0 : socow_vector Nat) ∧
    ∃ v2 m2, erase 2 (0 + 1) 1 3 (heap_vec 4 0) (sample_mem4 1) = .ok 1 (v2, m2) ∧
      block_of v2 = block_of (heap_vec 4 0 : socow_vector Nat) ∧
      is_small v2 = is_small (heap_vec 4 0 : socow_vector Nat) ∧
      capacity 2 v2 m2 = capacity 2 (heap_vec 4 0) (sample_mem4 1) ∧
      m2.allocated = (sample_mem4 1).allocated ∧
      (∀ q, m2.blocks q = none ↔ (sample_mem4 1).blocks q = none) ∧
      size v2 + (3 - 1) = size (heap_vec 4 0 : socow_vector Nat) :=
  have h1 : vwf 2 (heap_vec 4 0) (sample_mem4 1) := by simp [vwf, heap_vec, sample_mem4]
  have h2 : is_linked (heap_vec 4 0) (sample_mem4 1) = some false := by
    simp [is_linked, refs_count, deref, heap_vec, sample_mem4]
  have h3 : 3 ≤ size (heap_vec 4 0 : socow_vector Nat) := by simp [size, heap_vec]
  ⟨h1, rfl, h2, by decide, h3,
    (C18_inplace_erase_keeps_storage 2 0 1 3 (heap_vec 4 0) (sample_mem4 1) h1 rfl h2
      (by decide) h3).1⟩

/-- C20: on a well-formed vector with `capacity() = c >= 1`, without a fault, for every
position `p <= size()`, `insert(begin()+p, x)` and `push_back(x)` return normally already
with recursion bound 1, where the `push_back` calls made by `insert` may not call `insert`
again, and create at most one block.  On the reallocating path (`size() == c` or the vector
is linked) the new block has capacity `c2` (`2 * c` when full, else `c`) with
`size() + 1 <= c2`; with `insert` replaced by a function that never returns normally, the
constructor builds the prefix in a block with reference count 1 at the fresh address, the
`push_back` of the new element and the `size() - p` calls of the copying loop all return
normally, and they end with reference count 1 and `size() + 1` elements in that block. -/
theorem C20_insert_depth_one {α : Type} (N p : Nat) (x : α) (v : socow_vector α) (m : Mem α)
    (c : Nat) (src : List α) (hv : vwf N v m) (hm : m.throw_at = none)
    (hc : capacity N v m = some c) (hc1 : 1 ≤ c) (hp : p ≤ size v)
    (hsrc : elems v m = some src) :
    (∃ v2 m2, insert N 1 p x v m = .ok p (v2, m2) ∧ m2.allocated ≤ m.allocated + 1) ∧
    (∃ v2 m2, push_back N 1 x v m = .ok () (v2, m2) ∧ m2.allocated ≤ m.allocated + 1) ∧
    ((size v = c ∨ is_linked v m = some true) →
      size v + 1 ≤ (if size v = c then c * 2 else c) ∧
      construct (cdata v m) p (if size v = c then c * 2 else c) m
        = .ok (heap_vec p m.allocated)
            (m.fresh ⟨1, if size v = c then c * 2 else c, src.take p⟩ p) ∧
      push_back_body (fun _ _ _ _ => .out_of_fuel) N x (heap_vec p m.allocated)
          (m.fresh ⟨1, if size v = c then c * 2 else c, src.take p⟩ p)
        = .ok () (heap_vec (p + 1) m.allocated,
            m.fresh ⟨1, if size v = c then c * 2 else c, src.take p ++ [x]⟩ (p + 1)) ∧
      insert_copy_loop (push_back_body (fun _ _ _ _ => .out_of_fuel) N) v p (size v - p)
          (heap_vec (p + 1) m.allocated)
          (m.fresh ⟨1, if size v = c then c * 2 else c, src.take p ++ [x]⟩ (p + 1))
        = .ok () (heap_vec (size v + 1) m.allocated,
            m.fresh ⟨1, if size v = c then c * 2 else c, list_insert src p x⟩
              (size v + 1))) := by
  rcases vwf_cases hv with ⟨l, rfl, hl⟩ | ⟨q, r, cq, d, rfl, hb, hdc, hr, hq⟩
  · rw [capacity_inline] at hc
    cases hc
    rw [elems_inline] at hsrc
    cases hsrc
    have hp2 : p ≤ src.length := hp
    by_cases hfull : src.length = N
    · refine ⟨⟨_, _, insert_inline_full N 0 p x src m hm hfull hc1 hp2, by simp⟩,
        ⟨_, _, push_back_inline_full N 0 x src m hm hfull hc1, by simp⟩, ?_⟩
      intro _
      have hsz : size (inline_vec src) = src.length := rfl
      have hc2 : src.length + 1 ≤ (if src.length = N then N * 2 else N) := by
        rw [if_pos hfull]
        omega
      obtain ⟨e1, e2, e3⟩ := insert_build (fun _ _ _ _ => .out_of_fuel) N (inline_vec src) src p
        (if src.length = N then N * 2 else N) x m hm hp2 hc2 (fun m2 _ => cdata_inline src m2)
      rw [hsz, cdata_inline]
      exact ⟨hc2, e1, e2, e3⟩
    · refine ⟨⟨_, _, insert_inline_inplace N 0 p x src m hm (by omega) hp2, by simp⟩,
        ⟨_, _, push_back_body_inline _ N x src m hm (by omega), by simp⟩, ?_⟩
      intro h
      rcases h with h | h
      · exact absurd h hfull
      · rw [is_linked_inline] at h
        cases h
  · rw [capacity_heap N m _ q r cq d hb] at hc
    cases hc
    rw [elems_heap m q r c d hb] at hsrc
    cases hsrc
    have hp2 : p ≤ src.length := hp
    by_cases hre : src.length = c ∨ 1 < r
    · refine ⟨⟨_, _, insert_heap_realloc N 0 p x m q r c src hb hr hq hm hc1 hdc hre hp2,
          by simp⟩,
        ⟨_, _, push_back_heap_realloc N 0 x m q r c src hb hr hq hm hc1 hdc hre, by simp⟩, ?_⟩
      intro _
      have hsz : size (heap_vec src.length q : socow_vector α) = src.length := rfl
      have hne : q ≠ m.allocated := by omega
      have hc2 : src.length + 1 ≤ (if src.length = c then c * 2 else c) := by
        split_ifs <;> omega
      obtain ⟨e1, e2, e3⟩ := insert_build (fun _ _ _ _ => .out_of_fuel) N
        (heap_vec src.length q) src p (if src.length = c then c * 2 else c) x m hm hp2 hc2
        (fun m2 hm2 => cdata_heap m2 _ q r c src (by rw [hm2 q hne, hb]))
      rw [hsz, cdata_heap m _ q r c src hb]
      exact ⟨hc2, e1, e2, e3⟩
    · have hr1 : r = 1 := by omega
      subst hr1
      refine ⟨⟨_, _, insert_unique_inplace N 0 p x m q c src hb hm (by omega) hp2, by simp⟩,
        ⟨_, _, push_back_body_unique _ N x m q c src hb hm (by omega), by simp⟩, ?_⟩
      intro h
      rcases h with h | h
      · have h2 : src.length = c := h
        omega
      · rw [is_linked_heap m _ q 1 c src hb] at h
        simp at h

theorem C20_witness :
    vwf 4 (heap_vec 5 0) (sample_mem 2) ∧ (sample_mem 2).throw_at = none ∧
    capacity 4 (heap_vec 5 0) (sample_mem 2) = some 8 ∧ 1 ≤ 8 ∧
    2 ≤ size (heap_vec 5 0 : socow_vector Nat) ∧
    elems (heap_vec 5 0) (sample_mem 2) = some [1, 2, 3, 4, 5] ∧
    (∃ v2 m2, insert 4 1 2 9 (heap_vec 5 0) (sample_mem 2) = .ok 2 (v2, m2) ∧
      m2.allocated ≤ (sample_mem 2).allocated + 1) :=
  have h1 : vwf 4 (heap_vec 5 0) (sample_mem 2) := by simp [vwf, heap_vec, sample_mem]
  have h2 : elems (heap_vec 5 0) (sample_mem 2) = some [1, 2, 3, 4, 5] := by
    simp [elems, cdata, deref, heap_vec, sample_mem, slice]
  have h3 : capacity 4 (heap_vec 5 0) (sample_mem 2) = some 8 := by
    simp [capacity, deref, heap_vec, sample_mem]
  have h4 : 2 ≤ size (heap_vec 5 0 : socow_vector Nat) := by simp [size, heap_vec]
  ⟨h1, rfl, h3, by decide, h4, h2,
    (C20_insert_depth_one 4 2 9 (heap_vec 5 0) (sample_mem 2) 8 [1, 2, 3, 4, 5] h1 rfl h3
      (by decide) h4 h2).1⟩

/-! ## Blocks are freed only at reference count 1 -/

theorem frees_release {α : Type} (m : Mem α) (p q : Nat) (b : dynamic_buffer α)
    (hb : m.blocks q = some b) (h : (m.release p).blocks q = none) : b._refs_count = 1 := by
  rw [release_blocks] at h
  split_ifs at h with e
  · subst e
    rw [hb] at h
    by_contra hc
    simp [released, hc] at h
  · rw [hb] at h
    cases h

theorem frees_share {α : Type} (m : Mem α) (p q : Nat) (h : (m.share p).blocks q = none) :
    m.blocks q = none := by
  rw [share_blocks] at h
  split_ifs at h with e
  · subst e
    cases hb : m.blocks q with
    | none => rfl
    | some b => rw [hb] at h; cases h
  · exact h

theorem frees_fresh {α : Type} (m : Mem α) (b : dynamic_buffer α) (k q : Nat)
    (h : (m.fresh b k).blocks q = none) : m.blocks q = none := by
  rw [fresh_blocks] at h
  split_ifs at h with e
  exact h

/-- A call on one vector that returns normally unmaps only blocks whose reference count
was 1. -/
theorem Eff.frees {α : Type} (N : Nat) (v v2 : socow_vector α) (m m2 : Mem α)
    (h : Eff N v m v2 m2) (q : Nat) (b : dynamic_buffer α) (hb : m.blocks q = some b)
    (h2 : m2.blocks q = none) : b._refs_count = 1 := by
  cases h with
  | keep => rw [hb] at h2; cases h2
  | inline l l2 _ k hl =>
    have h3 : m.blocks q = none := h2
    rw [hb] at h3
    cases h3
  | inplace n n2 p _ c d d2 k hbp hn hc =>
    have h3 : (m.set_block p (some ⟨1, c, d2⟩)).blocks q = none := h2
    rw [set_block_blocks] at h3
    split_ifs at h3 with e
    rw [hb] at h3
    cases h3
  | grow l n2 _ c2 d2 k hn hc =>
    have h3 := frees_fresh m _ _ q h2
    rw [hb] at h3
    cases h3
  | realloc n n2 p _ c2 d2 k hn hc =>
    have h3 := frees_fresh (m.release p) _ _ q h2
    exact frees_release m p q b hb h3
  | to_inline n p _ l2 k hl =>
    have h3 : (m.release p).blocks q = none := h2
    exact frees_release m p q b hb h3

theorem frees_unary {α β : Type} (N : Nat) (w w2 : World α) (i : Nat) (v : socow_vector α)
    (r : Res (St α) β) (he : ∀ ret v2 m2, r = .ok ret (v2, m2) → Eff N v w.mem v2 m2)
    (h : w.update i r = some w2) (q : Nat) (b : dynamic_buffer α)
    (hb : w.mem.blocks q = some b) (h2 : w2.mem.blocks q = none) : b._refs_count = 1 := by
  obtain ⟨ret, v2, m2, hr, rfl⟩ := update_some w w2 i r h
  exact Eff.frees N v v2 w.mem m2 (he ret v2 m2 hr) q b hb h2

/-- One public operation that returns normally unmaps only blocks whose reference count
was 1. -/
theorem step_frees_unique {α : Type} (N fuel : Nat) (op : Op α) (w w2 : World α)
    (hw : winv N w) (h : World.step N fuel op w = some w2) (q : Nat) (b : dynamic_buffer α)
    (hb : w.mem.blocks q = some b) (h2 : w2.mem.blocks q = none) : b._refs_count = 1 := by
  obtain ⟨vs, m⟩ := w
  have hm : m.throw_at = none := hw.2.2
  have hb0 : m.blocks q = some b := hb
  have hvwf : ∀ (i : Nat) (v : socow_vector α), vs[i]? = some v → vwf N v m := by
    intro i v hv
    obtain ⟨hi, e⟩ := getElem?_some_lt vs i v hv
    exact e ▸ hw.1 _ (List.getElem_mem hi)
  have hsame : ∀ m3 : Mem α, m3.blocks = m.blocks → m3.blocks q = none → b._refs_count = 1 := by
    intro m3 e3 h3
    rw [e3, hb0] at h3
    cases h3
  cases op with
  | default_construct =>
    simp only [World.step, Option.some.injEq] at h
    subst h
    exact hsame m rfl h2
  | raw_construct src size capacity =>
    simp only [World.step] at h
    split_ifs at h with hsc
    by_cases hss : size ≤ src.length
    · rw [construct_ok src size capacity m hm hss hsc] at h
      simp only [Option.some.injEq] at h
      subst h
      have h3 := frees_fresh m _ _ q h2
      rw [hb0] at h3
      cases h3
    · have : construct (some src) size capacity m = .undefined := by
        simp [construct, slice, hss]
      rw [this] at h
      cases h
  | copy_construct j =>
    simp only [World.step] at h
    cases hj : vs[j]? with
    | none => simp [hj] at h
    | some s =>
      simp only [hj] at h
      have e0 : (default_vector : socow_vector α) = inline_vec [] := rfl
      rcases vwf_cases (hvwf j s hj) with ⟨k, rfl, hk⟩ | ⟨p, r, c, d, rfl, hbp, hdc, hr, hp⟩
      · simp only [copy_construct, e0,
          assign_inline_grow N [] k m hm (by simp) hk, Option.some.injEq] at h
        subst h
        exact hsame _ rfl h2
      · simp only [copy_construct, e0, assign_inline_heap N [] d.length p m r c d hbp,
          Option.some.injEq] at h
        subst h
        have h3 := frees_share m p q h2
        rw [hb0] at h3
        cases h3
  | assign i j =>
    simp only [World.step] at h
    cases hi : vs[i]? with
    | none => simp [hi] at h
    | some r =>
      cases hj : vs[j]? with
      | none => simp [hi, hj] at h
      | some s =>
        simp only [hi, hj] at h
        split_ifs at h with hij
        · cases h
          exact hsame m rfl h2
        · obtain ⟨hil, ei⟩ := getElem?_some_lt vs i r hi
          obtain ⟨hjl, ej⟩ := getElem?_some_lt vs j s hj
          rcases vwf_cases (hvwf j s hj) with ⟨k, rfl, hk⟩ | ⟨p2, rq, cq, dq, rfl, hbq, _, _, _⟩
          · refine frees_unary N ⟨vs, m⟩ w2 i r _ ?_ h q b hb h2
            intro ret v2 m2 hr
            rcases vwf_cases (hvwf i r hi) with ⟨l, rfl, hl⟩ | ⟨p, rp, cp, dp, rfl, hbp, _, hrp, _⟩
            · by_cases hlk : l.length ≤ k.length
              · rw [assign_inline_grow N l k m hm hlk hk] at hr
                cases hr
                exact Eff.inline _ _ _ _ hk
              · rw [assign_inline_shrink N l k m hm (by omega) hl] at hr
                cases hr
                exact Eff.inline _ _ _ _ hk
            · rw [assign_heap_inline N m p rp cp dp k hbp hrp hm hk] at hr
              cases hr
              exact Eff.to_inline _ _ _ _ _ hk
          · rcases vwf_cases (hvwf i r hi) with ⟨l, rfl, hl⟩ | ⟨p, rp, cp, dp, rfl, hbp, _, hrp, _⟩
            · rw [assign_inline_heap N l dq.length p2 m rq cq dq hbq] at h
              simp only [World.update, Option.some.injEq] at h
              subst h
              have h3 := frees_share m p2 q h2
              rw [hb0] at h3
              cases h3
            · have hpq : p = p2 → 2 ≤ rp := by
                intro epq
                subst epq
                have h3 := refs_in_two p vs i j hil hjl hij
                simp only [ei, ej, on_block_heap, if_true] at h3
                have h4 := (hw.2.1 p _ hbp).1
                simp only at h4
                omega
              rw [assign_heap_heap N m p rp cp dp dq.length p2 rq cq dq hbp hrp hbq hpq] at h
              simp only [World.update, Option.some.injEq] at h
              subst h
              have h3 := frees_share (m.release p) p2 q h2
              exact frees_release m p q b hb0 h3
  | swap i j =>
    simp only [World.step] at h
    cases hi : vs[i]? with
    | none => simp [hi] at h
    | some a =>
      cases hj : vs[j]? with
      | none => simp [hi, hj] at h
      | some c =>
        simp only [hi, hj] at h
        split_ifs at h with hij
        · cases h
          exact hsame m rfl h2
        · obtain ⟨k, e⟩ := swap_exact N a c m (hvwf i a hi) (hvwf j c hj) hm
          rw [e] at h
          simp only [Option.some.injEq] at h
          subst h
          exact hsame _ rfl h2
  | destroy i =>
    simp only [World.step] at h
    cases hi : vs[i]? with
    | none => simp [hi] at h
    | some v =>
      simp only [hi] at h
      rcases vwf_cases (hvwf i v hi) with ⟨l, rfl, hl⟩ | ⟨p, r, c, d, rfl, hbp, _, hr, _⟩
      · rw [destroy_inline] at h
        simp only [Option.some.injEq] at h
        subst h
        exact hsame m rfl h2
      · rw [destroy_heap m p r c d hbp hr] at h
        simp only [Option.some.injEq] at h
        subst h
        exact frees_release m p q b hb0 h2
  | data i =>
    simp only [World.step] at h
    cases hi : vs[i]? with
    | none => simp [hi] at h
    | some v =>
      simp only [hi] at h
      exact frees_unary N ⟨vs, m⟩ w2 i v _
        (fun _ v2 m2 hr => data_eff N v v2 m m2 (hvwf i v hi) hm hr) h q b hb h2
  | write i ind x =>
    simp only [World.step] at h
    cases hi : vs[i]? with
    | none => simp [hi] at h
    | some v =>
      simp only [hi] at h
      split_ifs at h with hpre
      exact frees_unary N ⟨vs, m⟩ w2 i v _
        (fun _ v2 m2 hr => write_eff N ind x v v2 m m2 (hvwf i v hi) hm hpre hr) h q b hb h2
  | push_back i x =>
    simp only [World.step] at h
    cases hi : vs[i]? with
    | none => simp [hi] at h
    | some v =>
      simp only [hi] at h
      exact frees_unary N ⟨vs, m⟩ w2 i v _
        (fun _ v2 m2 hr => push_back_eff N fuel x v v2 m m2 (hvwf i v hi) hm hr) h q b hb h2
  | pop_back i =>
    simp only [World.step] at h
    cases hi : vs[i]? with
    | none => simp [hi] at h
    | some v =>
      simp only [hi] at h
      split_ifs at h with hpre
      exact frees_unary N ⟨vs, m⟩ w2 i v _
        (fun _ v2 m2 hr => pop_back_eff N fuel v v2 m m2 (hvwf i v hi) hm hpre hr) h q b hb h2
  | insert i p x =>
    simp only [World.step] at h
    cases hi : vs[i]? with
    | none => simp [hi] at h
    | some v =>
      simp only [hi] at h
      split_ifs at h with hpre
      exact frees_unary N ⟨vs, m⟩ w2 i v _
        (fun ret v2 m2 hr => insert_eff N fuel p x v v2 m m2 ret (hvwf i v hi) hm hpre hr)
        h q b hb h2
  | erase i f t =>
    simp only [World.step] at h
    cases hi : vs[i]? with
    | none => simp [hi] at h
    | some v =>
      simp only [hi] at h
      split_ifs at h with hpre
      exact frees_unary N ⟨vs, m⟩ w2 i v _
        (fun ret v2 m2 hr =>
          erase_eff N fuel f t v v2 m m2 ret (hvwf i v hi) hm hpre.1 hpre.2 hr) h q b hb h2
  | clear i =>
    simp only [World.step] at h
    cases hi : vs[i]? with
    | none => simp [hi] at h
    | some v =>
      simp only [hi] at h
      exact frees_unary N ⟨vs, m⟩ w2 i v _
        (fun _ v2 m2 hr => clear_eff N v v2 m m2 (hvwf i v hi) hr) h q b hb h2
  | reserve i n =>
    simp only [World.step] at h
    cases hi : vs[i]? with
    | none => simp [hi] at h
    | some v =>
      simp only [hi] at h
      exact frees_unary N ⟨vs, m⟩ w2 i v _
        (fun _ v2 m2 hr => reserve_eff N n v v2 m m2 (hvwf i v hi) hm hr) h q b hb h2
  | shrink_to_fit i =>
    simp only [World.step] at h
    cases hi : vs[i]? with
    | none => simp [hi] at h
    | some v =>
      simp only [hi] at h
      exact frees_unary N ⟨vs, m⟩ w2 i v _
        (fun _ v2 m2 hr => shrink_eff N v v2 m m2 (hvwf i v hi) hm hr) h q b hb h2

/-! ## Reference counts in reachable states -/

/-- A world with two vectors on one block is reachable: the raw constructor, then the copy
constructor. -/
theorem shared_world_reachable :
    reachable 4 (⟨[heap_vec 5 0, heap_vec 5 0],
      (empty_mem.fresh ⟨1, 8, [1, 2, 3, 4, 5]⟩ 5).share 0⟩ : World Nat) := by
  have h1 : World.step 4 0 (.raw_construct [1, 2, 3, 4, 5] 5 8) (World.init Nat false)
      = some ⟨[heap_vec 5 0], empty_mem.fresh ⟨1, 8, [1, 2, 3, 4, 5]⟩ 5⟩ := by
    simp only [World.step, World.init,
      construct_ok [1, 2, 3, 4, 5] 5 8 ⟨fun _ => none, 0, 0, none, false⟩ rfl (by decide)
        (by decide)]
    rfl
  have hb : (empty_mem.fresh ⟨1, 8, [1, 2, 3, 4, 5]⟩ 5).blocks 0
      = some ⟨1, 8, [1, 2, 3, 4, 5]⟩ := rfl
  have h2 : World.step 4 0 (.copy_construct 0)
        ⟨[heap_vec 5 0], empty_mem.fresh ⟨1, 8, [1, 2, 3, 4, 5]⟩ 5⟩
      = some ⟨[heap_vec 5 0, heap_vec 5 0],
          (empty_mem.fresh ⟨1, 8, [1, 2, 3, 4, 5]⟩ 5).share 0⟩ := by
    have e0 : (default_vector : socow_vector Nat) = inline_vec [] := rfl
    simp only [World.step, List.getElem?_cons_zero, copy_construct, e0,
      assign_inline_heap 4 [] 5 0 (empty_mem.fresh ⟨1, 8, [1, 2, 3, 4, 5]⟩ 5) 1 8
        [1, 2, 3, 4, 5] hb]
    rfl
  exact reachable.step 0 _ _ _ (reachable.step 0 _ _ _ (reachable.init false) h1) h2

/-- C19: in every state reachable from no vectors by the public operations that return
normally, the reference count of every mapped block is the number of live Heap vectors
whose pointer is that block, and it is at least 1; the block of every live Heap vector is
mapped and holds `size()` elements, so all vectors on one block have the same `size()`;
`release_ptr` on a mapped block returns, unmaps the block exactly when its reference
count was 1, otherwise leaves it with a count one smaller, and touches no other block; and
a block that a further operation unmaps had reference count 1 before that operation. -/
theorem C19_refcount_invariant {α : Type} (N : Nat) (w : World α) (h : reachable N w) :
    (∀ p b, w.mem.blocks p = some b →
      b._refs_count = refs_in p w.vecs ∧ 1 ≤ b._refs_count) ∧
    (∀ v, v ∈ w.vecs → ∀ p, block_of v = some p →
      ∃ b, w.mem.blocks p = some b ∧ b._data.length = size v) ∧
    (∀ u v p, u ∈ w.vecs → v ∈ w.vecs → block_of u = some p → block_of v = some p →
      size u = size v) ∧
    (∀ p b, w.mem.blocks p = some b →
      ∃ m2, release_ptr p b._data.length w.mem = some m2 ∧
        (m2.blocks p = none ↔ b._refs_count = 1) ∧
        (b._refs_count ≠ 1 →
          m2.blocks p = some { b with _refs_count := b._refs_count - 1 }) ∧
        ∀ q, q ≠ p → m2.blocks q = w.mem.blocks q) ∧
    (∀ fuel op w2, World.step N fuel op w = some w2 →
      ∀ q b, w.mem.blocks q = some b → w2.mem.blocks q = none → b._refs_count = 1) := by
  have hinv := reachable_winv N w h
  obtain ⟨hwf, hcnt, _⟩ := hinv
  have hblk : ∀ v, v ∈ w.vecs → ∀ p, block_of v = some p →
      ∃ b, w.mem.blocks p = some b ∧ b._data.length = size v := by
    intro v hv p hp
    rcases vwf_cases (hwf v hv) with ⟨l, rfl, _⟩ | ⟨q, r, c, d, rfl, hb, _, _, _⟩
    · simp [block_of] at hp
    · have e : q = p := by simpa [block_of] using hp
      subst e
      exact ⟨_, hb, rfl⟩
  refine ⟨hcnt, hblk, ?_, ?_, ?_⟩
  · intro u v p hu hv hup hvp
    obtain ⟨b1, e1, h1⟩ := hblk u hu p hup
    obtain ⟨b2, e2, h2⟩ := hblk v hv p hvp
    rw [e1] at e2
    cases e2
    rw [← h1, ← h2]
  · intro p b hb
    obtain ⟨r, c, d⟩ := b
    have hr : 1 ≤ r := (hcnt p _ hb).2
    refine ⟨w.mem.release p, release_ptr_ok w.mem p r c d hb hr, ?_, ?_, ?_⟩
    · by_cases h1 : r = 1
      · simp [hb, released, h1]
      · simp [hb, released, h1]
    · intro h1
      have h2 : r ≠ 1 := h1
      simp [hb, released, h2]
    · intro q hq
      simp [hq]
  · intro fuel op w2 hs q b hb h2
    exact step_frees_unique N fuel op w w2 (reachable_winv N w h) hs q b hb h2

theorem C19_witness :
    reachable 4 (⟨[heap_vec 5 0, heap_vec 5 0],
      (empty_mem.fresh ⟨1, 8, [1, 2, 3, 4, 5]⟩ 5).share 0⟩ : World Nat) ∧
    ((empty_mem.fresh ⟨1, 8, [1, 2, 3, 4, 5]⟩ 5).share 0).blocks 0
      = some ⟨2, 8, [1, 2, 3, 4, 5]⟩ ∧
    (2 = refs_in 0 [(heap_vec 5 0 : socow_vector Nat), heap_vec 5 0] ∧ 1 ≤ 2) :=
  ⟨shared_world_reachable, rfl,
    (C19_refcount_invariant 4 _ shared_world_reachable).1 0 ⟨2, 8, [1, 2, 3, 4, 5]⟩ rfl⟩

end Socow
